import Mathlib

/-!
# Reflective member resolution (`runtime/native/samsung.cc`)

A shallow embedding of the method and field look-up routines behind
`java.lang.Class.getMethodNative`, `getFieldNative` and
`getDeclaredFieldInternalNative`, followed by theorems about them.

Conventions of the embedding

* A `mirror::Class*` is a `ClassPtr` (a natural number used as an identity
  handle); the managed heap is the total map `Runtime.heap`.  A nullable
  pointer is an `Option`.
* The only mutable state the routines touch is the pending exception of the
  calling thread; it is passed explicitly as a `Thread` value and returned
  next to the C++ return value.
* `getPublicMethodRecursive` and `getPublicFieldRecursive` recurse through the
  class graph.  They take a `fuel : Nat`; the result `none` means that the
  fuel ran out, `some r` that the C++ function returned `r`.
* `int32_t numParams = params->Size()`: a dex type list has far fewer than
  `2^31` entries, so lengths are compared as natural numbers.
-/

namespace Art

/-! ## Data model -/

/-- Identity handle of a loaded class (`mirror::Class*`, non-null). -/
abbrev ClassPtr := Nat

/-- Modelled from the spec: `mirror::ArtField` is declared in a header that is
not part of the sources; section 3 of the specification gives a member its
name, a back-reference to the declaring class and a visibility flag. -/
structure ArtField where
  name : String
  declaringClass : ClassPtr
  isPublic : Bool
deriving DecidableEq, Repr

/-- Modelled from the spec: `mirror::ArtMethod` is declared in a header that is
not part of the sources.  `parameterTypeList` is `GetParameterTypeList()`
(`none` for `nullptr`, otherwise the `type_idx_` of every item),
`dexCacheResolvedTypes` is the table read by `GetDexCacheResolvedType`,
the four flags are `IsPublic`, `IsMiranda`, `IsSynthetic`, `IsConstructor`. -/
structure ArtMethod where
  name : String
  declaringClass : ClassPtr
  parameterTypeList : Option (List Nat)
  dexCacheResolvedTypes : List (Nat × ClassPtr)
  isPublic : Bool
  isMiranda : Bool
  isSynthetic : Bool
  isConstructor : Bool
deriving DecidableEq, Repr

/-- Modelled from the spec: `mirror::Class` is declared in a header that is not
part of the sources.  The four member arrays in declaration order, the
superclass link (`GetSuperClass()`, `none` for `nullptr`) and the flattened
interface table (`GetIfTable()` / `GetIfTableCount()`). -/
structure Class where
  virtualMethods : List ArtMethod
  directMethods : List ArtMethod
  instanceFields : List ArtField
  staticFields : List ArtField
  superClass : Option ClassPtr
  ifTable : List ClassPtr
deriving DecidableEq, Repr

/-- Exceptions that can be pending on the calling thread. -/
inductive Throwable where
  | nullPointerException (msg : String)
  | noSuchMethodException (msg : String)
  | typeResolutionError (typeIdx : Nat)
  | outOfMemoryError
deriving DecidableEq, Repr

/-- The part of `art::Thread` the routines observe: the pending exception. -/
structure Thread where
  pending : Option Throwable
deriving DecidableEq, Repr

/-- `Thread::IsExceptionPending()` / `env->ExceptionCheck()`. -/
def Thread.IsExceptionPending (self : Thread) : Bool :=
  self.pending.isSome

/-- `Thread::ThrowNewException` and `ThrowNullPointerException`: the thrown
exception becomes the pending one. -/
def Thread.ThrowNewException (_self : Thread) (e : Throwable) : Thread :=
  { pending := some e }

/-- Modelled from the spec: the collaborators of section 6 that are not part of
the sources.  `heap` is the ClassGraphProvider, `ResolveType` the
TypeIndexResolver (`ClassLinker::ResolveType(type_idx, method)`, `none` for a
resolution fault), `allocObjectFails` tells whether `env->AllocObject` fails. -/
structure Runtime where
  heap : ClassPtr → Class
  ResolveType : Nat → ArtMethod → Option ClassPtr
  allocObjectFails : Bool

/-- `method->GetDexCacheResolvedType(type_idx)`. -/
def ArtMethod.GetDexCacheResolvedType (method : ArtMethod) (typeIdx : Nat) : Option ClassPtr :=
  method.dexCacheResolvedTypes.lookup typeIdx

/-- `env->AllocObject(...)`: on failure an `OutOfMemoryError` becomes pending,
otherwise the thread is left as it is. -/
def Runtime.AllocObject (rt : Runtime) (self : Thread) : Thread :=
  if rt.allocObjectFails then self.ThrowNewException Throwable.outOfMemoryError else self

/-! ## `equalMethodParameters` -/

/-- Lines 23 to 28: the cached type of a declared parameter or, when the cache
has none, the type the class linker resolves.  A failing resolution yields
`nullptr` and leaves an exception pending (the `CHECK` of line 27). -/
def resolveParamType (rt : Runtime) (method : ArtMethod) (typeIdx : Nat) (self : Thread) :
    Option ClassPtr × Thread :=
  match method.GetDexCacheResolvedType typeIdx with
  | some c => (some c, self)
  | none =>
    match rt.ResolveType typeIdx method with
    | some c => (some c, self)
    | none => (none, self.ThrowNewException (Throwable.typeResolutionError typeIdx))

/-- The `for` loop of lines 22 to 32, entered once both lengths agree. -/
def equalMethodParametersLoop (rt : Runtime) (method : ArtMethod) :
    List Nat → List (Option ClassPtr) → Thread → Bool × Thread
  | typeIdx :: params, p :: parameterTypes, self =>
    let r := resolveParamType rt method typeIdx self
    if r.1 != p then (false, r.2)
    else equalMethodParametersLoop rt method params parameterTypes r.2
  | _, _, self => (true, self)

/-- `equalMethodParameters(method, parameterTypes)`, lines 13 to 35. -/
def equalMethodParameters (rt : Runtime) (method : ArtMethod)
    (parameterTypes : List (Option ClassPtr)) (self : Thread) : Bool × Thread :=
  match method.parameterTypeList with
  | none => (parameterTypes.length == 0, self)
  | some params =>
    if params.length != parameterTypes.length then (false, self)
    else equalMethodParametersLoop rt method params parameterTypes self

/-! ## `getDeclaredMethodInternal` -/

/-- How one of the two scanning loops of `getDeclaredMethodInternal` ends:
with `return method;` from inside the loop, or by running to completion with
the current `potentialResult`. -/
inductive LoopExit where
  | ret (method : ArtMethod)
  | done (potentialResult : Option ArtMethod)
deriving DecidableEq, Repr

/-- The loop over the virtual methods, lines 40 to 56. -/
def virtualMethodsLoop (rt : Runtime) (name : String) (parameterTypes : List (Option ClassPtr)) :
    List ArtMethod → Option ArtMethod → Thread → LoopExit × Thread
  | [], potentialResult, self => (LoopExit.done potentialResult, self)
  | method :: rest, potentialResult, self =>
    if name != method.name then
      virtualMethodsLoop rt name parameterTypes rest potentialResult self
    else
      let e := equalMethodParameters rt method parameterTypes self
      if !e.1 then
        virtualMethodsLoop rt name parameterTypes rest potentialResult e.2
      else if !method.isMiranda then
        if !method.isSynthetic then (LoopExit.ret method, e.2)
        else virtualMethodsLoop rt name parameterTypes rest (some method) e.2
      else
        virtualMethodsLoop rt name parameterTypes rest potentialResult e.2

/-- The loop over the direct methods, lines 58 to 75. -/
def directMethodsLoop (rt : Runtime) (name : String) (parameterTypes : List (Option ClassPtr)) :
    List ArtMethod → Option ArtMethod → Thread → LoopExit × Thread
  | [], potentialResult, self => (LoopExit.done potentialResult, self)
  | method :: rest, potentialResult, self =>
    if method.isConstructor then
      directMethodsLoop rt name parameterTypes rest potentialResult self
    else if name != method.name then
      directMethodsLoop rt name parameterTypes rest potentialResult self
    else
      let e := equalMethodParameters rt method parameterTypes self
      if !e.1 then
        directMethodsLoop rt name parameterTypes rest potentialResult e.2
      else if !method.isMiranda && !method.isSynthetic then (LoopExit.ret method, e.2)
      else directMethodsLoop rt name parameterTypes rest (some method) e.2

/-- `getDeclaredMethodInternal(c, name, parameterTypes)`, lines 37 to 78. -/
def getDeclaredMethodInternal (rt : Runtime) (c : ClassPtr) (name : String)
    (parameterTypes : List (Option ClassPtr)) (self : Thread) : Option ArtMethod × Thread :=
  match virtualMethodsLoop rt name parameterTypes (rt.heap c).virtualMethods none self with
  | (LoopExit.ret method, t) => (some method, t)
  | (LoopExit.done potentialResult, t) =>
    match directMethodsLoop rt name parameterTypes (rt.heap c).directMethods potentialResult t with
    | (LoopExit.ret method, t1) => (some method, t1)
    | (LoopExit.done potentialResult1, t1) => (potentialResult1, t1)

/-! ## `getPublicMethodRecursive` -/

/-- The test `result != nullptr && result->IsPublic()` of lines 84 and 93. -/
def isPublicMethod (result : Option ArtMethod) : Bool :=
  match result with
  | some m => m.isPublic
  | none => false

/-- The superclass loop of lines 82 to 86, started at `klass`.  `some (some m, t)`
is `return result;`, `some (none, t)` is the loop running off the end of the
chain. -/
def superClassMethodLoop (rt : Runtime) (name : String) (parameterTypes : List (Option ClassPtr)) :
    Nat → Option ClassPtr → Thread → Option (Option ArtMethod × Thread)
  | _, none, self => some (none, self)
  | 0, some _, _ => none
  | fuel + 1, some klass, self =>
    let r := getDeclaredMethodInternal rt klass name parameterTypes self
    if isPublicMethod r.1 then some (r.1, r.2)
    else superClassMethodLoop rt name parameterTypes fuel (rt.heap klass).superClass r.2

/-- The interface-table loop of lines 91 to 95; `recurse` is the recursive call
of `getPublicMethodRecursive`. -/
def ifTableMethodLoop (recurse : ClassPtr → Thread → Option (Option ArtMethod × Thread)) :
    List ClassPtr → Thread → Option (Option ArtMethod × Thread)
  | [], self => some (none, self)
  | iface :: rest, self =>
    match recurse iface self with
    | none => none
    | some r =>
      if isPublicMethod r.1 then some (r.1, r.2)
      else ifTableMethodLoop recurse rest r.2

/-- `getPublicMethodRecursive(c, name, parameterTypes)`, lines 80 to 98. -/
def getPublicMethodRecursive (rt : Runtime) (name : String)
    (parameterTypes : List (Option ClassPtr)) :
    Nat → ClassPtr → Thread → Option (Option ArtMethod × Thread)
  | 0, _, _ => none
  | fuel + 1, c, self =>
    match superClassMethodLoop rt name parameterTypes (fuel + 1) (some c) self with
    | none => none
    | some (some result, t) => some (some result, t)
    | some (none, t) =>
      ifTableMethodLoop (getPublicMethodRecursive rt name parameterTypes fuel) (rt.heap c).ifTable t

/-! ## `Class_getMethodNative` -/

/-- The loop of lines 110 to 117: is some entry of the query array `nullptr`? -/
def hasNullParameterType : List (Option ClassPtr) → Bool
  | [] => false
  | none :: _ => true
  | some _ :: rest => hasNullParameterType rest

/-- `Class_getMethodNative`, lines 100 to 136.  The returned `jobject` is
modelled by the `ArtMethod` stored in the new `java.lang.reflect.Method`. -/
def Class_getMethodNative (rt : Runtime) (fuel : Nat) (javaThis : ClassPtr)
    (javaName : Option String) (javaParameterTypes : List (Option ClassPtr))
    (recursivePublicMethods : Bool) (self : Thread) : Option (Option ArtMethod × Thread) :=
  match javaName with
  | none =>
    some (none, self.ThrowNewException (Throwable.nullPointerException "name == null"))
  | some name =>
    if hasNullParameterType javaParameterTypes then
      some (none, self.ThrowNewException (Throwable.noSuchMethodException "parameter type is null"))
    else
      let found :=
        if recursivePublicMethods then
          getPublicMethodRecursive rt name javaParameterTypes fuel javaThis self
        else
          some (getDeclaredMethodInternal rt javaThis name javaParameterTypes self)
      match found with
      | none => none
      | some (none, t) => some (none, t)
      | some (some method, t) =>
        let t1 := rt.AllocObject t
        if t1.IsExceptionPending then some (none, t1) else some (some method, t1)

/-! ## Field look-up -/

/-- One of the two loops of `getDeclaredFieldInternal` (lines 139 to 144 and
146 to 151): the first field of the array whose name is `name`. -/
def fieldLoop (name : String) : List ArtField → Option ArtField
  | [] => none
  | f :: rest => if name == f.name then some f else fieldLoop name rest

/-- `getDeclaredFieldInternal(c, name)`, lines 138 to 154. -/
def getDeclaredFieldInternal (rt : Runtime) (c : ClassPtr) (name : String) : Option ArtField :=
  match fieldLoop name (rt.heap c).instanceFields with
  | some f => some f
  | none =>
    match fieldLoop name (rt.heap c).staticFields with
    | some f => some f
    | none => none

/-- The test `result != nullptr && result->IsPublic()` of lines 160 and 169. -/
def isPublicField (result : Option ArtField) : Bool :=
  match result with
  | some f => f.isPublic
  | none => false

/-- The superclass loop of lines 158 to 162, started at `klass`. -/
def superClassFieldLoop (rt : Runtime) (name : String) :
    Nat → Option ClassPtr → Option (Option ArtField)
  | _, none => some none
  | 0, some _ => none
  | fuel + 1, some klass =>
    let result := getDeclaredFieldInternal rt klass name
    if isPublicField result then some result
    else superClassFieldLoop rt name fuel (rt.heap klass).superClass

/-- The interface-table loop of lines 167 to 171. -/
def ifTableFieldLoop (recurse : ClassPtr → Option (Option ArtField)) :
    List ClassPtr → Option (Option ArtField)
  | [] => some none
  | iface :: rest =>
    match recurse iface with
    | none => none
    | some result =>
      if isPublicField result then some result
      else ifTableFieldLoop recurse rest

/-- `getPublicFieldRecursive(c, name)`, lines 156 to 174. -/
def getPublicFieldRecursive (rt : Runtime) (name : String) :
    Nat → ClassPtr → Option (Option ArtField)
  | 0, _ => none
  | fuel + 1, c =>
    match superClassFieldLoop rt name (fuel + 1) (some c) with
    | none => none
    | some (some result) => some (some result)
    | some none => ifTableFieldLoop (getPublicFieldRecursive rt name fuel) (rt.heap c).ifTable

/-- `getDeclaredOrRecursiveField`, lines 176 to 195, for a non-null `javaName`
(a null name is dealt with by `ScopedUtfChars`, which is not part of the
sources).  The returned `jobject` is modelled by the `ArtField` stored in the
new `java.lang.reflect.Field`. -/
def getDeclaredOrRecursiveField (rt : Runtime) (fuel : Nat) (javaThis : ClassPtr)
    (javaName : String) (recursiveFieldMethods : Bool) (self : Thread) :
    Option (Option ArtField × Thread) :=
  let field :=
    if recursiveFieldMethods then
      getPublicFieldRecursive rt javaName fuel javaThis
    else
      some (getDeclaredFieldInternal rt javaThis javaName)
  match field with
  | none => none
  | some none => some (none, self)
  | some (some f) =>
    let t1 := rt.AllocObject self
    if t1.IsExceptionPending then some (none, t1) else some (some f, t1)

/-! ## Derived notions used in the statements -/

/-- Signature test of a candidate, read off a thread without pending exception. -/
def signatureEqual (rt : Runtime) (ps : List (Option ClassPtr)) (m : ArtMethod) : Bool :=
  (equalMethodParameters rt m ps ⟨none⟩).1

/-- A candidate passes the name test and the signature test of the scans. -/
def matchesQuery (rt : Runtime) (name : String) (ps : List (Option ClassPtr)) (m : ArtMethod) : Bool :=
  name == m.name && signatureEqual rt ps m

/-- The last element of `l`, or `o` when `l` is empty. -/
def lastOr {α : Type} (l : List α) (o : Option α) : Option α :=
  match l.getLast? with
  | some x => some x
  | none => o

/-- A matching virtual method that is neither miranda nor synthetic. -/
def genuineVirtual (rt : Runtime) (name : String) (ps : List (Option ClassPtr)) (m : ArtMethod) : Bool :=
  matchesQuery rt name ps m && !m.isMiranda && !m.isSynthetic

/-- A matching virtual method that is synthetic and not miranda. -/
def syntheticVirtual (rt : Runtime) (name : String) (ps : List (Option ClassPtr)) (m : ArtMethod) : Bool :=
  matchesQuery rt name ps m && !m.isMiranda && m.isSynthetic

/-- A matching direct method that is no constructor. -/
def directCandidate (rt : Runtime) (name : String) (ps : List (Option ClassPtr)) (m : ArtMethod) : Bool :=
  !m.isConstructor && matchesQuery rt name ps m

/-- A matching direct method that is no constructor, not miranda and not synthetic. -/
def genuineDirect (rt : Runtime) (name : String) (ps : List (Option ClassPtr)) (m : ArtMethod) : Bool :=
  directCandidate rt name ps m && !m.isMiranda && !m.isSynthetic

/-- The method `getDeclaredMethodInternal` selects in class `c`. -/
def declaredMethod (rt : Runtime) (c : ClassPtr) (name : String) (ps : List (Option ClassPtr)) :
    Option ArtMethod :=
  (getDeclaredMethodInternal rt c name ps ⟨none⟩).1

/-- Every declared parameter type of `m` resolves (from the cache or through
the class linker). -/
def resolvesAll (rt : Runtime) (m : ArtMethod) : Prop :=
  ∀ idx ∈ m.parameterTypeList.getD [], (resolveParamType rt m idx ⟨none⟩).1 ≠ none

/-- The fields of class `c` named `name`, instance fields before static
fields, each group in declaration order. -/
def fieldsNamed (rt : Runtime) (c : ClassPtr) (name : String) : List ArtField :=
  ((rt.heap c).instanceFields ++ (rt.heap c).staticFields).filter (fun g => g.name == name)

/-- The `n`-th class of the superclass chain of `c` (`c` itself for `n = 0`),
`none` when the chain ends earlier. -/
def nthSuperClass (rt : Runtime) : Nat → ClassPtr → Option ClassPtr
  | 0, c => some c
  | n + 1, c =>
    match (rt.heap c).superClass with
    | none => none
    | some s => nthSuperClass rt n s

/-- `s` is the direct superclass of `c`. -/
def isSuperClassOf (rt : Runtime) (s c : ClassPtr) : Prop :=
  (rt.heap c).superClass = some s

/-- `i` is an entry of the interface table of `c`. -/
def isInterfaceOf (rt : Runtime) (i c : ClassPtr) : Prop :=
  i ∈ (rt.heap c).ifTable

/-- `k` is reachable from `c` through superclass links and interface-table
entries (`c` itself included). -/
inductive Reachable (rt : Runtime) (c : ClassPtr) : ClassPtr → Prop
  | refl : Reachable rt c c
  | superClass {k s : ClassPtr} : Reachable rt c k → (rt.heap k).superClass = some s →
      Reachable rt c s
  | ifTable {k i : ClassPtr} : Reachable rt c k → i ∈ (rt.heap k).ifTable → Reachable rt c i

/-- The member `getPublicMethodRecursive` returns, read off a thread without
pending exception (`none` when the fuel runs out). -/
def publicMethod (rt : Runtime) (name : String) (ps : List (Option ClassPtr)) (fuel : Nat)
    (c : ClassPtr) : Option (Option ArtMethod) :=
  (getPublicMethodRecursive rt name ps fuel c ⟨none⟩).map Prod.fst

/-- The loop of `equalMethodParameters` reaches a declared parameter whose
type does not resolve: every position before it resolves to the query type of
that position, and its own resolution yields `nullptr`. -/
def faultsLoop (rt : Runtime) (m : ArtMethod) : List Nat → List (Option ClassPtr) → Bool
  | idx :: is, p :: ps =>
    match (resolveParamType rt m idx ⟨none⟩).1 with
    | none => true
    | some c => if some c != p then false else faultsLoop rt m is ps
  | _, _ => false

/-- Evaluating the signature of `m` against the query `ps` meets a resolution
fault: `m` has as many declared parameters as the query and the comparison
reaches a parameter type that does not resolve. -/
def faults (rt : Runtime) (ps : List (Option ClassPtr)) (m : ArtMethod) : Bool :=
  match m.parameterTypeList with
  | none => false
  | some is => if is.length != ps.length then false else faultsLoop rt m is ps

/-- The declared search on `c` evaluates the signature of a candidate that
faults: either a virtual method of the queried name with no genuine virtual
match before it, or (no virtual match being genuine) a non-constructor direct
method of the queried name with no genuine direct match before it. -/
def declaredSearchFaults (rt : Runtime) (c : ClassPtr) (name : String)
    (ps : List (Option ClassPtr)) : Prop :=
  (∃ pre m post, (rt.heap c).virtualMethods = pre ++ m :: post ∧
    (∀ x ∈ pre, genuineVirtual rt name ps x = false) ∧ name = m.name ∧ faults rt ps m = true) ∨
  ((∀ x ∈ (rt.heap c).virtualMethods, genuineVirtual rt name ps x = false) ∧
    ∃ pre m post, (rt.heap c).directMethods = pre ++ m :: post ∧
      (∀ x ∈ pre, genuineDirect rt name ps x = false) ∧ m.isConstructor = false ∧
      name = m.name ∧ faults rt ps m = true)

/-- The public recursive method search started at `c` runs the per-class
predicate on `k`: either `k` lies on the superclass chain of `c` and no class
before it has a public per-class match, or the chain of `c` ends without public
per-class match and the search, having got `nullptr` from the interfaces before
`i` in the interface table of `c`, runs on `i` and reaches `k` from there. -/
inductive Visits (rt : Runtime) (name : String) (ps : List (Option ClassPtr)) :
    ClassPtr → ClassPtr → Prop
  | chain {c k : ClassPtr} (n : Nat) : nthSuperClass rt n c = some k →
      (∀ j, j < n → ∀ kj, nthSuperClass rt j c = some kj →
        isPublicMethod (declaredMethod rt kj name ps) = false) →
      Visits rt name ps c k
  | ifTable {c k : ClassPtr} (len : Nat) (pre : List ClassPtr) (i : ClassPtr)
      (post : List ClassPtr) : nthSuperClass rt len c = none →
      (∀ j kj, nthSuperClass rt j c = some kj →
        isPublicMethod (declaredMethod rt kj name ps) = false) →
      (rt.heap c).ifTable = pre ++ i :: post →
      (∀ j ∈ pre, ∃ fuel, publicMethod rt name ps fuel j = some none) →
      Visits rt name ps i k → Visits rt name ps c k

/-! ## Concrete class graphs used in the examples -/

/-- A class without members, superclass and interfaces. -/
def emptyClass : Class :=
  { virtualMethods := [], directMethods := [], instanceFields := [], staticFields := [],
    superClass := none, ifTable := [] }

/-- A thread without pending exception. -/
def noException : Thread := { pending := none }

/-- A public, genuine virtual method `m(T7)` of class 0. -/
def methodUnresolved : ArtMethod :=
  { name := "m", declaringClass := 0, parameterTypeList := some [7], dexCacheResolvedTypes := [],
    isPublic := true, isMiranda := false, isSynthetic := false, isConstructor := false }

/-- A public, genuine virtual method `m(T8)` of class 0. -/
def methodResolved : ArtMethod :=
  { name := "m", declaringClass := 0, parameterTypeList := some [8], dexCacheResolvedTypes := [],
    isPublic := true, isMiranda := false, isSynthetic := false, isConstructor := false }

/-- Class 0 declares `methodUnresolved` before `methodResolved`; type index 8
resolves to class 1 and no other type index resolves. -/
def faultRuntime : Runtime :=
  { heap := fun c =>
      match c with
      | 0 => { emptyClass with virtualMethods := [methodUnresolved, methodResolved] }
      | _ => emptyClass
    ResolveType := fun idx _ => if idx = 8 then some 1 else none
    allocObjectFails := false }

/-- A public miranda method `m()` of class 0. -/
def mirandaMethod : ArtMethod :=
  { name := "m", declaringClass := 0, parameterTypeList := none, dexCacheResolvedTypes := [],
    isPublic := true, isMiranda := true, isSynthetic := false, isConstructor := false }

/-- A public synthetic method `m()` of class 0. -/
def syntheticMethod : ArtMethod :=
  { name := "m", declaringClass := 0, parameterTypeList := none, dexCacheResolvedTypes := [],
    isPublic := true, isMiranda := false, isSynthetic := true, isConstructor := false }

/-- A non-public genuine method `m()` of class 0. -/
def hiddenMethod : ArtMethod :=
  { name := "m", declaringClass := 0, parameterTypeList := none, dexCacheResolvedTypes := [],
    isPublic := false, isMiranda := false, isSynthetic := false, isConstructor := false }

/-- A public genuine method `m()` of class 0. -/
def plainMethod : ArtMethod :=
  { name := "m", declaringClass := 0, parameterTypeList := none, dexCacheResolvedTypes := [],
    isPublic := true, isMiranda := false, isSynthetic := false, isConstructor := false }

/-- A runtime in which every class is `cls`, every type index resolves to the
class of the same number and allocation succeeds. -/
def uniformRuntime (cls : Class) : Runtime :=
  { heap := fun _ => cls
    ResolveType := fun idx _ => some idx
    allocObjectFails := false }

/-- Class whose only method is the miranda virtual method `m()`. -/
def mirandaOnlyClass : Class := { emptyClass with virtualMethods := [mirandaMethod] }

/-- Class with the miranda and the synthetic virtual method `m()`. -/
def syntheticClass : Class := { emptyClass with virtualMethods := [syntheticMethod, mirandaMethod] }

/-- Class whose only method is the non-public virtual method `m()`. -/
def hiddenOnlyClass : Class := { emptyClass with virtualMethods := [hiddenMethod] }

/-- Class with the synthetic and the public genuine virtual method `m()`. -/
def plainClass : Class := { emptyClass with virtualMethods := [syntheticMethod, plainMethod] }

/-- A runtime whose class `c` is the `c`-th entry of `classes` (an empty class
beyond the end of the list); every type index resolves, allocation succeeds. -/
def listRuntime (classes : List Class) : Runtime :=
  { heap := fun c => classes.getD c emptyClass
    ResolveType := fun idx _ => some idx
    allocObjectFails := false }

/-- Public instance field `x` of class 1. -/
def fieldPublicA : ArtField := { name := "x", declaringClass := 1, isPublic := true }

/-- Non-public field `x` of class 1. -/
def fieldHiddenA : ArtField := { name := "x", declaringClass := 1, isPublic := false }

/-- Public field `x` of class 2. -/
def fieldPublicB : ArtField := { name := "x", declaringClass := 2, isPublic := true }

/-- Class 0 extends class 1, class 1 extends class 2.  Class 1 declares a
public instance field `x` and a non-public static field `x`, class 2 a public
instance field `x`. -/
def shadowedFieldRuntime : Runtime :=
  listRuntime
    [ { emptyClass with superClass := some 1 },
      { emptyClass with instanceFields := [fieldPublicA], staticFields := [fieldHiddenA],
                        superClass := some 2 },
      { emptyClass with instanceFields := [fieldPublicB] } ]

/-- Class 0 extends class 1, class 1 extends class 2.  Class 1 declares the
non-public field `x`, class 2 the public field `x`. -/
def hiddenFieldRuntime : Runtime :=
  listRuntime
    [ { emptyClass with superClass := some 1 },
      { emptyClass with instanceFields := [fieldHiddenA], superClass := some 2 },
      { emptyClass with staticFields := [fieldPublicB] } ]

/-- Public method `m()` declared by class 1. -/
def superMethod : ArtMethod :=
  { name := "m", declaringClass := 1, parameterTypeList := some [], dexCacheResolvedTypes := [],
    isPublic := true, isMiranda := false, isSynthetic := false, isConstructor := false }

/-- Public method `m()` declared by interface 2. -/
def interfaceMethod : ArtMethod :=
  { name := "m", declaringClass := 2, parameterTypeList := some [], dexCacheResolvedTypes := [],
    isPublic := true, isMiranda := false, isSynthetic := false, isConstructor := false }

/-- Class 0 extends class 1 and implements interface 2; class 1 and interface 2
both declare a public `m()`. -/
def defaultMethodRuntime : Runtime :=
  listRuntime
    [ { emptyClass with superClass := some 1, ifTable := [2] },
      { emptyClass with virtualMethods := [superMethod] },
      { emptyClass with virtualMethods := [interfaceMethod] } ]

/-- Class 0 extends class 1; class 1 declares the public field `x`. -/
def inheritedFieldRuntime : Runtime :=
  listRuntime
    [ { emptyClass with superClass := some 1 },
      { emptyClass with staticFields := [fieldPublicA] } ]

/-- Instance field `x` of class 0. -/
def fieldInstance : ArtField := { name := "x", declaringClass := 0, isPublic := false }

/-- Static field `x` of class 0. -/
def fieldStatic : ArtField := { name := "x", declaringClass := 0, isPublic := true }

/-- Instance field `y` of class 0. -/
def fieldOther : ArtField := { name := "y", declaringClass := 0, isPublic := true }

/-- Class 0 declares the instance fields `y`, `x` and the static field `x`. -/
def twoFieldsRuntime : Runtime :=
  listRuntime
    [ { emptyClass with instanceFields := [fieldOther, fieldInstance],
                        staticFields := [fieldStatic] } ]

/-- Method `f(T3, T4)` of class 0 whose first parameter type is cached as class
30; the second is left to the class linker. -/
def twoParamMethod : ArtMethod :=
  { name := "f", declaringClass := 0, parameterTypeList := some [3, 4],
    dexCacheResolvedTypes := [(3, 30)],
    isPublic := true, isMiranda := false, isSynthetic := false, isConstructor := false }

/-- Class whose only method is `twoParamMethod`, declared as a direct method. -/
def twoParamClass : Class := { emptyClass with directMethods := [twoParamMethod] }

/-- Class 0 implements interface 1; interface 1 declares the public static
field `x`. -/
def interfaceFieldRuntime : Runtime :=
  listRuntime
    [ { emptyClass with ifTable := [1] },
      { emptyClass with staticFields := [fieldPublicA] } ]

/-- A constructor of class 0 that carries the name `m` and takes no
parameter. -/
def constructorMethod : ArtMethod :=
  { name := "m", declaringClass := 0, parameterTypeList := none, dexCacheResolvedTypes := [],
    isPublic := true, isMiranda := false, isSynthetic := false, isConstructor := true }

/-- Class whose only method is `constructorMethod`, a direct method. -/
def constructorOnlyClass : Class := { emptyClass with directMethods := [constructorMethod] }

/-- A second public synthetic method `m()` of class 0, told apart from
`syntheticMethod` by its cached types. -/
def syntheticMethodB : ArtMethod :=
  { name := "m", declaringClass := 0, parameterTypeList := none,
    dexCacheResolvedTypes := [(0, 0)],
    isPublic := true, isMiranda := false, isSynthetic := true, isConstructor := false }

/-- Class with the virtual methods miranda `m()`, synthetic `m()`, genuine
non-public `m()`, genuine public `m()` and the genuine direct method `m()`. -/
def crowdedClass : Class :=
  { emptyClass with
    virtualMethods := [mirandaMethod, syntheticMethod, hiddenMethod, plainMethod],
    directMethods := [plainMethod] }

/-- Class with the synthetic virtual method `m()` and two synthetic direct
methods `m()`. -/
def syntheticDirectClass : Class :=
  { emptyClass with
    virtualMethods := [syntheticMethod],
    directMethods := [syntheticMethod, syntheticMethodB, constructorMethod] }

/-- Public field `x` of class 3. -/
def fieldPublicC : ArtField := { name := "x", declaringClass := 3, isPublic := true }

/-- Public method `m()` declared by interface 3. -/
def interfaceMethodC : ArtMethod :=
  { name := "m", declaringClass := 3, parameterTypeList := some [], dexCacheResolvedTypes := [],
    isPublic := true, isMiranda := false, isSynthetic := false, isConstructor := false }

/-- Class 0 has the interface table `[1, 2, 3]`.  Interface 1 declares nothing;
interfaces 2 and 3 each declare a public field `x` and a public method `m()`. -/
def threeInterfacesRuntime : Runtime :=
  listRuntime
    [ { emptyClass with ifTable := [1, 2, 3] },
      emptyClass,
      { emptyClass with virtualMethods := [interfaceMethod], staticFields := [fieldPublicB] },
      { emptyClass with virtualMethods := [interfaceMethodC], staticFields := [fieldPublicC] } ]

/-- Class 0 extends class 1 and has an empty interface table; class 1 has the
interface table `[2]`; interface 2 declares the public field `x` and the public
method `m()`. -/
def ancestorInterfaceRuntime : Runtime :=
  listRuntime
    [ { emptyClass with superClass := some 1 },
      { emptyClass with ifTable := [2] },
      { emptyClass with virtualMethods := [interfaceMethod], staticFields := [fieldPublicB] } ]

/-- Public instance field `x` of class 0.  A field is modelled by its name, its
declaring class and its visibility, so this value equals `fieldStatic`. -/
def fieldPublicInstance : ArtField := { name := "x", declaringClass := 0, isPublic := true }

/-- Class 0, without superclass and interfaces, declares the instance fields
`x` (public) and `x` (non-public), in this order, and the public static field
`x`. -/
def threeFieldsRuntime : Runtime :=
  listRuntime
    [ { emptyClass with instanceFields := [fieldPublicInstance, fieldInstance],
                        staticFields := [fieldStatic] } ]

/-- Class without superclass and interfaces whose virtual method `m()` is
genuine and non-public and whose direct method `m()` is genuine and public. -/
def hiddenVirtualClass : Class :=
  { emptyClass with virtualMethods := [hiddenMethod], directMethods := [plainMethod] }

/-- A public, genuine virtual method `m(T7)` of interface 1. -/
def interfaceMethodUnresolved : ArtMethod :=
  { name := "m", declaringClass := 1, parameterTypeList := some [7], dexCacheResolvedTypes := [],
    isPublic := true, isMiranda := false, isSynthetic := false, isConstructor := false }

/-- A public, genuine virtual method `m(T8)` of interface 1. -/
def interfaceMethodResolved : ArtMethod :=
  { name := "m", declaringClass := 1, parameterTypeList := some [8], dexCacheResolvedTypes := [],
    isPublic := true, isMiranda := false, isSynthetic := false, isConstructor := false }

/-- Class 0 declares nothing and has the interface table `[2, 1]`; interface 2
declares nothing; interface 1 declares `interfaceMethodUnresolved` before
`interfaceMethodResolved`; type index 8 resolves to class 1 and no other type
index resolves. -/
def faultInterfaceRuntime : Runtime :=
  { heap := fun c =>
      match c with
      | 0 => { emptyClass with ifTable := [2, 1] }
      | 1 => { emptyClass with
               virtualMethods := [interfaceMethodUnresolved, interfaceMethodResolved] }
      | _ => emptyClass
    ResolveType := fun idx _ => if idx = 8 then some 1 else none
    allocObjectFails := false }

/-! ## Lemmas -/

theorem lastOr_nil {α : Type} (o : Option α) : lastOr [] o = o := rfl

theorem lastOr_cons {α : Type} (a : α) (l : List α) (o : Option α) :
    lastOr (a :: l) o = lastOr l (some a) := by
  cases l with
  | nil => rfl
  | cons b l =>
    unfold lastOr
    rw [List.getLast?_cons_cons]
    cases h : (b :: l).getLast? with
    | none => simp at h
    | some x => rfl

theorem resolveParamType_fst (rt : Runtime) (m : ArtMethod) (i : Nat) (t t' : Thread) :
    (resolveParamType rt m i t).1 = (resolveParamType rt m i t').1 := by
  unfold resolveParamType
  cases m.GetDexCacheResolvedType i with
  | some c => rfl
  | none =>
    cases rt.ResolveType i m with
    | some c => rfl
    | none => rfl

theorem equalMethodParametersLoop_fst (rt : Runtime) (m : ArtMethod) (is : List Nat)
    (ps : List (Option ClassPtr)) (t t' : Thread) :
    (equalMethodParametersLoop rt m is ps t).1 = (equalMethodParametersLoop rt m is ps t').1 := by
  induction is generalizing ps t t' with
  | nil => simp [equalMethodParametersLoop]
  | cons i is ih =>
    cases ps with
    | nil => simp [equalMethodParametersLoop]
    | cons p ps =>
      simp only [equalMethodParametersLoop]
      rw [resolveParamType_fst rt m i t t']
      by_cases h : ((resolveParamType rt m i t').1 != p) = true
      · simp [h]
      · simp only [h]
        exact ih ps _ _

theorem equalMethodParameters_fst (rt : Runtime) (m : ArtMethod)
    (ps : List (Option ClassPtr)) (t : Thread) :
    (equalMethodParameters rt m ps t).1 = signatureEqual rt ps m := by
  unfold signatureEqual equalMethodParameters
  cases m.parameterTypeList with
  | none => rfl
  | some is =>
    by_cases h : (is.length != ps.length) = true
    · simp [h]
    · simp only [h]
      exact equalMethodParametersLoop_fst rt m is ps _ _

theorem virtualMethodsLoop_fst (rt : Runtime) (name : String) (ps : List (Option ClassPtr))
    (vs : List ArtMethod) (pot : Option ArtMethod) (t : Thread) :
    (virtualMethodsLoop rt name ps vs pot t).1 =
      match vs.find? (genuineVirtual rt name ps) with
      | some m => LoopExit.ret m
      | none => LoopExit.done (lastOr (vs.filter (syntheticVirtual rt name ps)) pot) := by
  induction vs generalizing pot t with
  | nil => rfl
  | cons m vs ih =>
    unfold virtualMethodsLoop
    simp only [List.find?_cons, List.filter_cons, genuineVirtual, syntheticVirtual, matchesQuery,
      equalMethodParameters_fst]
    by_cases hn : name = m.name
    · subst hn
      rcases Bool.eq_false_or_eq_true (signatureEqual rt ps m) with hs | hs <;>
        rcases Bool.eq_false_or_eq_true m.isMiranda with hm | hm <;>
        rcases Bool.eq_false_or_eq_true m.isSynthetic with hy | hy <;>
        simp [hs, hm, hy, lastOr_cons, ih]
    · have hb : (name == m.name) = false := by simpa using hn
      simp [hn, hb, ih]

theorem directMethodsLoop_fst (rt : Runtime) (name : String) (ps : List (Option ClassPtr))
    (ds : List ArtMethod) (pot : Option ArtMethod) (t : Thread) :
    (directMethodsLoop rt name ps ds pot t).1 =
      match ds.find? (genuineDirect rt name ps) with
      | some m => LoopExit.ret m
      | none => LoopExit.done (lastOr (ds.filter (directCandidate rt name ps)) pot) := by
  induction ds generalizing pot t with
  | nil => rfl
  | cons m ds ih =>
    unfold directMethodsLoop
    simp only [List.find?_cons, List.filter_cons, genuineDirect, directCandidate, matchesQuery,
      equalMethodParameters_fst]
    rcases Bool.eq_false_or_eq_true m.isConstructor with hc | hc
    · simp [hc, ih]
    · by_cases hn : name = m.name
      · subst hn
        rcases Bool.eq_false_or_eq_true (signatureEqual rt ps m) with hs | hs <;>
          rcases Bool.eq_false_or_eq_true m.isMiranda with hm | hm <;>
          rcases Bool.eq_false_or_eq_true m.isSynthetic with hy | hy <;>
          simp [hc, hs, hm, hy, lastOr_cons, ih]
      · have hb : (name == m.name) = false := by simpa using hn
        simp [hn, hb, hc, ih]

theorem getDeclaredMethodInternal_fst_eq (rt : Runtime) (c : ClassPtr) (name : String)
    (ps : List (Option ClassPtr)) (t : Thread) :
    (getDeclaredMethodInternal rt c name ps t).1 =
      match (rt.heap c).virtualMethods.find? (genuineVirtual rt name ps) with
      | some m => some m
      | none =>
        match (rt.heap c).directMethods.find? (genuineDirect rt name ps) with
        | some m => some m
        | none =>
          lastOr ((rt.heap c).directMethods.filter (directCandidate rt name ps))
            (lastOr ((rt.heap c).virtualMethods.filter (syntheticVirtual rt name ps)) none) := by
  unfold getDeclaredMethodInternal
  have hv := virtualMethodsLoop_fst rt name ps (rt.heap c).virtualMethods none t
  generalize virtualMethodsLoop rt name ps (rt.heap c).virtualMethods none t = rv at hv
  obtain ⟨ev, tv⟩ := rv
  simp only at hv
  cases hfv : (rt.heap c).virtualMethods.find? (genuineVirtual rt name ps) with
  | some m => rw [hfv] at hv; simp only at hv; subst hv; rfl
  | none =>
    rw [hfv] at hv; simp only at hv; subst hv
    simp only
    have hd := directMethodsLoop_fst rt name ps (rt.heap c).directMethods
      (lastOr ((rt.heap c).virtualMethods.filter (syntheticVirtual rt name ps)) none) tv
    generalize directMethodsLoop rt name ps (rt.heap c).directMethods
      (lastOr ((rt.heap c).virtualMethods.filter (syntheticVirtual rt name ps)) none) tv = rd at hd
    obtain ⟨ed, td⟩ := rd
    simp only at hd
    cases hfd : (rt.heap c).directMethods.find? (genuineDirect rt name ps) with
    | some m => rw [hfd] at hd; simp only at hd; subst hd; rfl
    | none => rw [hfd] at hd; simp only at hd; subst hd; rfl

theorem getDeclaredMethodInternal_fst (rt : Runtime) (c : ClassPtr) (name : String)
    (ps : List (Option ClassPtr)) (t : Thread) :
    (getDeclaredMethodInternal rt c name ps t).1 = declaredMethod rt c name ps := by
  unfold declaredMethod
  rw [getDeclaredMethodInternal_fst_eq, getDeclaredMethodInternal_fst_eq]

theorem resolveParamType_snd (rt : Runtime) (m : ArtMethod) (i : Nat) (t : Thread)
    (h : (resolveParamType rt m i ⟨none⟩).1 ≠ none) : (resolveParamType rt m i t).2 = t := by
  unfold resolveParamType at h ⊢
  cases hc : m.GetDexCacheResolvedType i with
  | some c => rfl
  | none =>
    rw [hc] at h
    cases hr : rt.ResolveType i m with
    | some c => rfl
    | none => rw [hr] at h; exact absurd rfl h

theorem resolveParamType_pending (rt : Runtime) (m : ArtMethod) (i : Nat) (t : Thread)
    (h : t.IsExceptionPending = true) : (resolveParamType rt m i t).2.IsExceptionPending = true := by
  unfold resolveParamType
  cases m.GetDexCacheResolvedType i with
  | some c => exact h
  | none =>
    cases rt.ResolveType i m with
    | some c => exact h
    | none => rfl

theorem resolveParamType_fault (rt : Runtime) (m : ArtMethod) (i : Nat) (t : Thread) :
    ((resolveParamType rt m i t).1 = none ∧ (resolveParamType rt m i t).2.IsExceptionPending = true) ∨
    ((resolveParamType rt m i t).1 ≠ none ∧ (resolveParamType rt m i t).2 = t) := by
  unfold resolveParamType
  cases m.GetDexCacheResolvedType i with
  | some c => right; exact ⟨by simp, rfl⟩
  | none =>
    cases rt.ResolveType i m with
    | some c => right; exact ⟨by simp, rfl⟩
    | none => left; exact ⟨rfl, rfl⟩

theorem equalMethodParametersLoop_snd (rt : Runtime) (m : ArtMethod) (is : List Nat)
    (ps : List (Option ClassPtr)) (t : Thread)
    (h : ∀ i ∈ is, (resolveParamType rt m i ⟨none⟩).1 ≠ none) :
    (equalMethodParametersLoop rt m is ps t).2 = t := by
  induction is generalizing ps t with
  | nil => simp [equalMethodParametersLoop]
  | cons i is ih =>
    cases ps with
    | nil => simp [equalMethodParametersLoop]
    | cons p ps =>
      simp only [equalMethodParametersLoop]
      have hi := resolveParamType_snd rt m i t (h i (List.mem_cons_self _ _))
      by_cases hc : ((resolveParamType rt m i t).1 != p) = true
      · simp [hc, hi]
      · simp only [hc, hi]
        exact ih ps t (fun j hj => h j (List.mem_cons_of_mem _ hj))

theorem equalMethodParameters_snd (rt : Runtime) (m : ArtMethod) (ps : List (Option ClassPtr))
    (t : Thread) (h : resolvesAll rt m) : (equalMethodParameters rt m ps t).2 = t := by
  unfold equalMethodParameters
  unfold resolvesAll at h
  cases hp : m.parameterTypeList with
  | none => rfl
  | some is =>
    rw [hp] at h
    by_cases hc : (is.length != ps.length) = true
    · simp [hc]
    · simp only [hc]
      exact equalMethodParametersLoop_snd rt m is ps t h

theorem equalMethodParametersLoop_pending (rt : Runtime) (m : ArtMethod) (is : List Nat)
    (ps : List (Option ClassPtr)) (t : Thread) (h : t.IsExceptionPending = true) :
    (equalMethodParametersLoop rt m is ps t).2.IsExceptionPending = true := by
  induction is generalizing ps t with
  | nil => simpa [equalMethodParametersLoop] using h
  | cons i is ih =>
    cases ps with
    | nil => simpa [equalMethodParametersLoop] using h
    | cons p ps =>
      simp only [equalMethodParametersLoop]
      have hi := resolveParamType_pending rt m i t h
      by_cases hc : ((resolveParamType rt m i t).1 != p) = true
      · simpa [hc] using hi
      · simp only [hc]
        exact ih ps _ hi

theorem equalMethodParameters_pending (rt : Runtime) (m : ArtMethod) (ps : List (Option ClassPtr))
    (t : Thread) (h : t.IsExceptionPending = true) :
    (equalMethodParameters rt m ps t).2.IsExceptionPending = true := by
  unfold equalMethodParameters
  cases m.parameterTypeList with
  | none => exact h
  | some is =>
    by_cases hc : (is.length != ps.length) = true
    · simpa [hc] using h
    · simp only [hc]
      exact equalMethodParametersLoop_pending rt m is ps t h

theorem hasNullParameterType_false {ps : List (Option ClassPtr)}
    (h : hasNullParameterType ps = false) : ∀ p ∈ ps, p ≠ none := by
  induction ps with
  | nil => simp
  | cons q ps ih =>
    cases q with
    | none => simp [hasNullParameterType] at h
    | some c =>
      simp only [hasNullParameterType] at h
      intro p hp
      rcases List.mem_cons.mp hp with rfl | hp
      · simp
      · exact ih h p hp

theorem equalMethodParametersLoop_fault (rt : Runtime) (m : ArtMethod) (is : List Nat)
    (ps : List (Option ClassPtr)) (t : Thread) (hps : ∀ p ∈ ps, p ≠ none)
    (h : (equalMethodParametersLoop rt m is ps t).2 ≠ t) :
    (equalMethodParametersLoop rt m is ps t).1 = false ∧
      (equalMethodParametersLoop rt m is ps t).2.IsExceptionPending = true := by
  induction is generalizing ps t with
  | nil => simp [equalMethodParametersLoop] at h
  | cons i is ih =>
    cases ps with
    | nil => simp [equalMethodParametersLoop] at h
    | cons p ps =>
      simp only [equalMethodParametersLoop] at h ⊢
      have hp : p ≠ none := hps p (List.mem_cons_self _ _)
      rcases resolveParamType_fault rt m i t with ⟨h1, h2⟩ | ⟨h1, h2⟩
      · have hc : ((resolveParamType rt m i t).1 != p) = true := by
          rw [h1]; cases p with
          | none => exact absurd rfl hp
          | some c => rfl
        simp only [hc, if_true] at h ⊢
        exact ⟨trivial, h2⟩
      · by_cases hc : ((resolveParamType rt m i t).1 != p) = true
        · simp only [hc, if_true] at h
          exact absurd h2 h
        · simp only [hc] at h ⊢
          rw [h2] at h ⊢
          exact ih ps t (fun q hq => hps q (List.mem_cons_of_mem _ hq)) h

theorem equalMethodParameters_fault (rt : Runtime) (m : ArtMethod) (ps : List (Option ClassPtr))
    (t : Thread) (hps : ∀ p ∈ ps, p ≠ none) (h : (equalMethodParameters rt m ps t).2 ≠ t) :
    (equalMethodParameters rt m ps t).1 = false ∧
      (equalMethodParameters rt m ps t).2.IsExceptionPending = true := by
  unfold equalMethodParameters at h ⊢
  cases hp : m.parameterTypeList with
  | none => rw [hp] at h; exact absurd rfl h
  | some is =>
    rw [hp] at h
    by_cases hc : (is.length != ps.length) = true
    · simp [hc] at h
    · simp only [hc] at h ⊢
      exact equalMethodParametersLoop_fault rt m is ps t hps h

theorem virtualMethodsLoop_inv (rt : Runtime) (name : String) (ps : List (Option ClassPtr))
    (P : Thread → Prop) (vs : List ArtMethod) (pot : Option ArtMethod) (t : Thread)
    (h : ∀ m ∈ vs, ∀ s, P s → P (equalMethodParameters rt m ps s).2) (ht : P t) :
    P (virtualMethodsLoop rt name ps vs pot t).2 := by
  induction vs generalizing pot t with
  | nil => exact ht
  | cons m vs ih =>
    have hm := h m (List.mem_cons_self _ _) t ht
    have hr : ∀ q s, P s → P (virtualMethodsLoop rt name ps vs q s).2 :=
      fun q s hs => ih q s (fun x hx => h x (List.mem_cons_of_mem _ hx)) hs
    unfold virtualMethodsLoop
    split
    · exact hr _ _ ht
    · simp only
      split
      · exact hr _ _ hm
      · split
        · split
          · exact hm
          · exact hr _ _ hm
        · exact hr _ _ hm

theorem directMethodsLoop_inv (rt : Runtime) (name : String) (ps : List (Option ClassPtr))
    (P : Thread → Prop) (ds : List ArtMethod) (pot : Option ArtMethod) (t : Thread)
    (h : ∀ m ∈ ds, ∀ s, P s → P (equalMethodParameters rt m ps s).2) (ht : P t) :
    P (directMethodsLoop rt name ps ds pot t).2 := by
  induction ds generalizing pot t with
  | nil => exact ht
  | cons m ds ih =>
    have hm := h m (List.mem_cons_self _ _) t ht
    have hr : ∀ q s, P s → P (directMethodsLoop rt name ps ds q s).2 :=
      fun q s hs => ih q s (fun x hx => h x (List.mem_cons_of_mem _ hx)) hs
    unfold directMethodsLoop
    split
    · exact hr _ _ ht
    · split
      · exact hr _ _ ht
      · simp only
        split
        · exact hr _ _ hm
        · split
          · exact hm
          · exact hr _ _ hm

theorem getDeclaredMethodInternal_inv (rt : Runtime) (c : ClassPtr) (name : String)
    (ps : List (Option ClassPtr)) (P : Thread → Prop) (t : Thread)
    (h : ∀ m, ∀ s, P s → P (equalMethodParameters rt m ps s).2) (ht : P t) :
    P (getDeclaredMethodInternal rt c name ps t).2 := by
  unfold getDeclaredMethodInternal
  have hv := virtualMethodsLoop_inv rt name ps P (rt.heap c).virtualMethods none t
    (fun m _ => h m) ht
  generalize virtualMethodsLoop rt name ps (rt.heap c).virtualMethods none t = rv at hv
  obtain ⟨ev, tv⟩ := rv
  cases ev with
  | ret m => exact hv
  | done pot =>
    simp only
    have hd := directMethodsLoop_inv rt name ps P (rt.heap c).directMethods pot tv
      (fun m _ => h m) hv
    generalize directMethodsLoop rt name ps (rt.heap c).directMethods pot tv = rd at hd
    obtain ⟨ed, td⟩ := rd
    cases ed with
    | ret m => exact hd
    | done pot1 => exact hd

theorem superClassMethodLoop_inv (rt : Runtime) (name : String) (ps : List (Option ClassPtr))
    (P : Thread → Prop) (h : ∀ m, ∀ s, P s → P (equalMethodParameters rt m ps s).2)
    (fuel : Nat) (k : Option ClassPtr) (t : Thread) (r : Option ArtMethod) (t1 : Thread)
    (hres : superClassMethodLoop rt name ps fuel k t = some (r, t1)) (ht : P t) : P t1 := by
  induction fuel generalizing k t with
  | zero =>
    cases k with
    | none => simp [superClassMethodLoop] at hres; rw [← hres.2]; exact ht
    | some c => simp [superClassMethodLoop] at hres
  | succ n ih =>
    cases k with
    | none => simp [superClassMethodLoop] at hres; rw [← hres.2]; exact ht
    | some c =>
      simp only [superClassMethodLoop] at hres
      have hd := getDeclaredMethodInternal_inv rt c name ps P t h ht
      split at hres
      · simp only [Option.some.injEq, Prod.mk.injEq] at hres
        rw [← hres.2]; exact hd
      · exact ih _ _ hres hd

theorem ifTableMethodLoop_inv (P : Thread → Prop)
    (recurse : ClassPtr → Thread → Option (Option ArtMethod × Thread))
    (hrec : ∀ c s r s1, recurse c s = some (r, s1) → P s → P s1)
    (is : List ClassPtr) (t : Thread) (r : Option ArtMethod) (t1 : Thread)
    (hres : ifTableMethodLoop recurse is t = some (r, t1)) (ht : P t) : P t1 := by
  induction is generalizing t with
  | nil => simp [ifTableMethodLoop] at hres; rw [← hres.2]; exact ht
  | cons i is ih =>
    simp only [ifTableMethodLoop] at hres
    cases hr : recurse i t with
    | none => rw [hr] at hres; simp at hres
    | some x =>
      obtain ⟨xr, xt⟩ := x
      rw [hr] at hres
      simp only at hres
      have hx := hrec i t xr xt hr ht
      split at hres
      · simp only [Option.some.injEq, Prod.mk.injEq] at hres
        rw [← hres.2]; exact hx
      · exact ih _ hres hx

theorem getPublicMethodRecursive_inv (rt : Runtime) (name : String) (ps : List (Option ClassPtr))
    (P : Thread → Prop) (h : ∀ m, ∀ s, P s → P (equalMethodParameters rt m ps s).2)
    (fuel : Nat) (c : ClassPtr) (t : Thread) (r : Option ArtMethod) (t1 : Thread)
    (hres : getPublicMethodRecursive rt name ps fuel c t = some (r, t1)) (ht : P t) : P t1 := by
  induction fuel generalizing c t r t1 with
  | zero => simp [getPublicMethodRecursive] at hres
  | succ n ih =>
    simp only [getPublicMethodRecursive] at hres
    cases hs : superClassMethodLoop rt name ps (n + 1) (some c) t with
    | none => rw [hs] at hres; simp at hres
    | some x =>
      obtain ⟨xr, xt⟩ := x
      have hx := superClassMethodLoop_inv rt name ps P h (n + 1) (some c) t xr xt hs ht
      rw [hs] at hres
      cases xr with
      | some m =>
        simp only [Option.some.injEq, Prod.mk.injEq] at hres
        rw [← hres.2]; exact hx
      | none =>
        simp only at hres
        exact ifTableMethodLoop_inv P _ (fun c s r s1 hc hp => ih c s r s1 hc hp) _ _ _ _ hres hx

theorem lastOr_mem {α : Type} (l : List α) (o : Option α) (x : α) (h : lastOr l o = some x) :
    x ∈ l ∨ (l = [] ∧ o = some x) := by
  unfold lastOr at h
  cases hl : l.getLast? with
  | some y =>
    rw [hl] at h
    simp only [Option.some.injEq] at h
    subst h
    exact Or.inl (List.mem_of_getLast?_eq_some hl)
  | none =>
    rw [hl] at h
    exact Or.inr ⟨List.getLast?_eq_none_iff.mp hl, h⟩

theorem lastOr_of_ne_nil {α : Type} (l : List α) (o : Option α) (h : l ≠ []) :
    ∃ x ∈ l, lastOr l o = some x := by
  refine ⟨l.getLast h, List.getLast_mem h, ?_⟩
  unfold lastOr
  rw [List.getLast?_eq_getLast l h]

/-- What `getDeclaredMethodInternal` returns is a method of the class that
passed the tests of one of the two scans. -/
theorem declaredMethod_sound (rt : Runtime) (c : ClassPtr) (name : String)
    (ps : List (Option ClassPtr)) (t : Thread) (r : ArtMethod)
    (h : (getDeclaredMethodInternal rt c name ps t).1 = some r) :
    (r ∈ (rt.heap c).virtualMethods ∧ matchesQuery rt name ps r = true ∧ r.isMiranda = false) ∨
    (r ∈ (rt.heap c).directMethods ∧ matchesQuery rt name ps r = true ∧ r.isConstructor = false) := by
  rw [getDeclaredMethodInternal_fst_eq] at h
  cases hv : (rt.heap c).virtualMethods.find? (genuineVirtual rt name ps) with
  | some m =>
    rw [hv] at h
    simp only [Option.some.injEq] at h
    subst h
    have hp := List.find?_some hv
    simp only [genuineVirtual, Bool.and_eq_true, Bool.not_eq_true'] at hp
    exact Or.inl ⟨List.mem_of_find?_eq_some hv, hp.1.1, hp.1.2⟩
  | none =>
    rw [hv] at h
    simp only at h
    cases hd : (rt.heap c).directMethods.find? (genuineDirect rt name ps) with
    | some m =>
      rw [hd] at h
      simp only [Option.some.injEq] at h
      subst h
      have hp := List.find?_some hd
      simp only [genuineDirect, directCandidate, Bool.and_eq_true, Bool.not_eq_true'] at hp
      exact Or.inr ⟨List.mem_of_find?_eq_some hd, hp.1.1.2, hp.1.1.1⟩
    | none =>
      rw [hd] at h
      simp only at h
      rcases lastOr_mem _ _ _ h with hm | ⟨_, ho⟩
      · have hp := List.mem_filter.mp hm
        simp only [directCandidate, Bool.and_eq_true, Bool.not_eq_true'] at hp
        exact Or.inr ⟨hp.1, hp.2.2, hp.2.1⟩
      · rcases lastOr_mem _ _ _ ho with hm | ⟨_, ho1⟩
        · have hp := List.mem_filter.mp hm
          simp only [syntheticVirtual, Bool.and_eq_true, Bool.not_eq_true'] at hp
          exact Or.inl ⟨hp.1, hp.2.1.1, hp.2.1.2⟩
        · exact absurd ho1 (by simp)

theorem hasNullParameterType_true {ps : List (Option ClassPtr)} (h : none ∈ ps) :
    hasNullParameterType ps = true := by
  induction ps with
  | nil => simp at h
  | cons q ps ih =>
    cases q with
    | none => rfl
    | some c =>
      simp only [hasNullParameterType]
      rcases List.mem_cons.mp h with h1 | h1
      · exact absurd h1 (by simp)
      · exact ih h1

/-- Evaluation of `Class_getMethodNative` once the argument checks have passed
and the search has returned `nullptr`. -/
theorem Class_getMethodNative_none (rt : Runtime) (fuel : Nat) (c : ClassPtr) (name : String)
    (ps : List (Option ClassPtr)) (recursive : Bool) (t : Thread)
    (hps : hasNullParameterType ps = false) (t1 : Thread)
    (hs : (if recursive then getPublicMethodRecursive rt name ps fuel c t
           else some (getDeclaredMethodInternal rt c name ps t)) = some (none, t1)) :
    Class_getMethodNative rt fuel c (some name) ps recursive t = some (none, t1) := by
  unfold Class_getMethodNative
  simp only [hps, Bool.false_eq_true, if_false]
  rw [hs]

/-- Evaluation of `Class_getMethodNative` once the argument checks have passed
and the search has returned a method. -/
theorem Class_getMethodNative_some (rt : Runtime) (fuel : Nat) (c : ClassPtr) (name : String)
    (ps : List (Option ClassPtr)) (recursive : Bool) (t : Thread)
    (hps : hasNullParameterType ps = false) (m : ArtMethod) (t1 : Thread)
    (hs : (if recursive then getPublicMethodRecursive rt name ps fuel c t
           else some (getDeclaredMethodInternal rt c name ps t)) = some (some m, t1)) :
    Class_getMethodNative rt fuel c (some name) ps recursive t =
      if (rt.AllocObject t1).IsExceptionPending then some (none, rt.AllocObject t1)
      else some (some m, rt.AllocObject t1) := by
  unfold Class_getMethodNative
  simp only [hps, Bool.false_eq_true, if_false]
  rw [hs]

theorem AllocObject_pending (rt : Runtime) (t : Thread) (h : t.IsExceptionPending = true) :
    (rt.AllocObject t).IsExceptionPending = true := by
  unfold Runtime.AllocObject
  split
  · rfl
  · exact h

theorem find?_of_filter_singleton {α : Type} (p : α → Bool) (l : List α) (x : α)
    (h : l.filter p = [x]) : l.find? p = some x := by
  induction l with
  | nil => simp at h
  | cons a l ih =>
    rw [List.filter_cons] at h
    rw [List.find?_cons]
    rcases Bool.eq_false_or_eq_true (p a) with hp | hp
    · rw [hp] at h ⊢
      simp only [if_true, List.cons.injEq] at h
      rw [h.1]
    · rw [hp] at h ⊢
      simp only [Bool.false_eq_true, if_false] at h
      exact ih h

/-- The declared search leaves the thread alone when every parameter type
resolves. -/
theorem getDeclaredMethodInternal_snd (rt : Runtime) (c : ClassPtr) (name : String)
    (ps : List (Option ClassPtr)) (t : Thread) (hres : ∀ m, resolvesAll rt m) :
    (getDeclaredMethodInternal rt c name ps t).2 = t :=
  getDeclaredMethodInternal_inv rt c name ps (fun s => s = t) t
    (fun m s hs => by rw [equalMethodParameters_snd rt m ps s (hres m)]; exact hs) rfl

/-- One step of the superclass loop that returns. -/
theorem getPublicMethodRecursive_of_declared (rt : Runtime) (c : ClassPtr) (name : String)
    (ps : List (Option ClassPtr)) (t : Thread) (fuel : Nat)
    (hpub : isPublicMethod (getDeclaredMethodInternal rt c name ps t).1 = true) :
    getPublicMethodRecursive rt name ps (fuel + 1) c t =
      some (getDeclaredMethodInternal rt c name ps t) := by
  simp only [getPublicMethodRecursive, superClassMethodLoop, hpub, if_true]
  generalize getDeclaredMethodInternal rt c name ps t = d at hpub
  obtain ⟨r, s⟩ := d
  cases r with
  | none => simp [isPublicMethod] at hpub
  | some m => rfl

theorem uniformRuntime_resolvesAll (cls : Class) (x : ArtMethod) :
    resolvesAll (uniformRuntime cls) x := by
  intro idx _
  unfold resolveParamType
  cases x.GetDexCacheResolvedType idx with
  | some c => simp
  | none => simp [uniformRuntime]

theorem fieldLoop_eq_find? (name : String) (l : List ArtField) :
    fieldLoop name l = l.find? (fun g => g.name == name) := by
  induction l with
  | nil => rfl
  | cons f l ih =>
    rw [fieldLoop, List.find?_cons, ih]
    by_cases h : name = f.name
    · subst h; simp
    · have h1 : (name == f.name) = false := by simpa using h
      have h2 : (f.name == name) = false := by simpa using fun e => h e.symm
      simp [h1, h2]

theorem getDeclaredFieldInternal_eq_find? (rt : Runtime) (c : ClassPtr) (name : String) :
    getDeclaredFieldInternal rt c name =
      ((rt.heap c).instanceFields ++ (rt.heap c).staticFields).find? (fun g => g.name == name) := by
  unfold getDeclaredFieldInternal
  rw [fieldLoop_eq_find?, fieldLoop_eq_find?, List.find?_append]
  cases (rt.heap c).instanceFields.find? (fun g => g.name == name) with
  | some f => rfl
  | none =>
    cases (rt.heap c).staticFields.find? (fun g => g.name == name) with
    | some f => rfl
    | none => rfl

theorem getDeclaredFieldInternal_none (rt : Runtime) (c : ClassPtr) (name : String)
    (h : ∀ g ∈ (rt.heap c).instanceFields ++ (rt.heap c).staticFields, g.name ≠ name) :
    getDeclaredFieldInternal rt c name = none := by
  rw [getDeclaredFieldInternal_eq_find?, List.find?_eq_none]
  intro g hg
  simpa using h g hg

/-- The superclass loop of the field search when the class at hand has a
public declared field. -/
theorem superClassFieldLoop_hit (rt : Runtime) (name : String) (fuel : Nat) (k : ClassPtr)
    (h : isPublicField (getDeclaredFieldInternal rt k name) = true) :
    superClassFieldLoop rt name (fuel + 1) (some k) = some (getDeclaredFieldInternal rt k name) := by
  simp [superClassFieldLoop, h]

/-- The superclass loop of the field search when the class at hand has no
public declared field. -/
theorem superClassFieldLoop_skip (rt : Runtime) (name : String) (fuel : Nat) (k : ClassPtr)
    (h : isPublicField (getDeclaredFieldInternal rt k name) = false) :
    superClassFieldLoop rt name (fuel + 1) (some k) =
      superClassFieldLoop rt name fuel (rt.heap k).superClass := by
  simp [superClassFieldLoop, h]

/-- The field search returns what its superclass loop returns, when that is a
field. -/
theorem getPublicFieldRecursive_of_super (rt : Runtime) (name : String) (fuel : Nat)
    (c : ClassPtr) (f : ArtField)
    (h : superClassFieldLoop rt name (fuel + 1) (some c) = some (some f)) :
    getPublicFieldRecursive rt name (fuel + 1) c = some (some f) := by
  simp [getPublicFieldRecursive, h]

/-- The superclass loop of the method search returns the declared match of the
first class of the chain whose declared match is public. -/
theorem superClassMethodLoop_hit (rt : Runtime) (name : String) (ps : List (Option ClassPtr))
    (n : Nat) (c k : ClassPtr) (t : Thread) (fuel : Nat) (hfuel : n < fuel)
    (hk : nthSuperClass rt n c = some k)
    (hpub : isPublicMethod (declaredMethod rt k name ps) = true)
    (hmin : ∀ j, j < n → ∀ kj, nthSuperClass rt j c = some kj →
      isPublicMethod (declaredMethod rt kj name ps) = false) :
    ∃ t1, superClassMethodLoop rt name ps fuel (some c) t =
      some (declaredMethod rt k name ps, t1) := by
  induction n generalizing c t fuel with
  | zero =>
    obtain ⟨f, rfl⟩ : ∃ f, fuel = f + 1 := ⟨fuel - 1, by omega⟩
    simp only [nthSuperClass, Option.some.injEq] at hk
    subst hk
    refine ⟨(getDeclaredMethodInternal rt c name ps t).2, ?_⟩
    simp only [superClassMethodLoop, getDeclaredMethodInternal_fst, hpub, if_true]
  | succ n ih =>
    obtain ⟨f, rfl⟩ : ∃ f, fuel = f + 1 := ⟨fuel - 1, by omega⟩
    have h0 := hmin 0 (Nat.succ_pos n) c rfl
    simp only [nthSuperClass] at hk
    cases hs : (rt.heap c).superClass with
    | none => rw [hs] at hk; simp at hk
    | some s =>
      rw [hs] at hk
      simp only at hk
      have hmin1 : ∀ j, j < n → ∀ kj, nthSuperClass rt j s = some kj →
          isPublicMethod (declaredMethod rt kj name ps) = false := by
        intro j hj kj hkj
        apply hmin (j + 1) (by omega) kj
        simp only [nthSuperClass, hs]
        exact hkj
      obtain ⟨t1, h1⟩ := ih s (getDeclaredMethodInternal rt c name ps t).2 f (by omega) hk hmin1
      refine ⟨t1, ?_⟩
      simp only [superClassMethodLoop, getDeclaredMethodInternal_fst, h0, Bool.false_eq_true,
        if_false, hs]
      exact h1

theorem equalMethodParametersLoop_true_iff (rt : Runtime) (m : ArtMethod) (is : List Nat)
    (ps : List (Option ClassPtr)) (t : Thread) (hlen : is.length = ps.length) :
    (equalMethodParametersLoop rt m is ps t).1 = true ↔
      ∀ (i idx : Nat) (p : Option ClassPtr), is[i]? = some idx → ps[i]? = some p → (resolveParamType rt m idx t).1 = p := by
  induction is generalizing ps t with
  | nil => simp [equalMethodParametersLoop]
  | cons a is ih =>
    cases ps with
    | nil => simp at hlen
    | cons q ps =>
      simp only [equalMethodParametersLoop]
      have hlen1 : is.length = ps.length := by simpa using hlen
      by_cases hc : ((resolveParamType rt m a t).1 != q) = true
      · simp only [hc, if_true]
        constructor
        · intro hf; exact absurd hf (by simp)
        · intro hall
          have := hall 0 a q (by simp) (by simp)
          simp [this] at hc
      · simp only [hc, Bool.false_eq_true, if_false]
        have heq : (resolveParamType rt m a t).1 = q := by simpa using hc
        rw [ih ps _ hlen1]
        constructor
        · intro hall i idx p hi hp
          cases i with
          | zero =>
            simp only [List.getElem?_cons_zero, Option.some.injEq] at hi hp
            subst hi; subst hp; exact heq
          | succ j =>
            simp only [List.getElem?_cons_succ] at hi hp
            rw [resolveParamType_fst rt m idx t (resolveParamType rt m a t).2]
            exact hall j idx p hi hp
        · intro hall i idx p hi hp
          rw [resolveParamType_fst rt m idx _ t]
          exact hall (i + 1) idx p (by simpa using hi) (by simpa using hp)

theorem superClassMethodLoop_sound (rt : Runtime) (name : String) (ps : List (Option ClassPtr))
    (fuel : Nat) (k : Option ClassPtr) (t : Thread) (r : ArtMethod) (t1 : Thread)
    (hres : superClassMethodLoop rt name ps fuel k t = some (some r, t1)) :
    ∃ k1, declaredMethod rt k1 name ps = some r ∧ r.isPublic = true := by
  induction fuel generalizing k t with
  | zero =>
    cases k with
    | none => simp [superClassMethodLoop] at hres
    | some c => simp [superClassMethodLoop] at hres
  | succ n ih =>
    cases k with
    | none => simp [superClassMethodLoop] at hres
    | some c =>
      simp only [superClassMethodLoop] at hres
      split at hres
      · rename_i hpub
        simp only [Option.some.injEq, Prod.mk.injEq] at hres
        rw [getDeclaredMethodInternal_fst] at hres hpub
        refine ⟨c, hres.1, ?_⟩
        rw [hres.1] at hpub
        exact hpub
      · exact ih _ _ hres

theorem ifTableMethodLoop_sound (Q : ArtMethod → Prop)
    (recurse : ClassPtr → Thread → Option (Option ArtMethod × Thread))
    (hrec : ∀ c s r s1, recurse c s = some (some r, s1) → Q r)
    (is : List ClassPtr) (t : Thread) (r : ArtMethod) (t1 : Thread)
    (hres : ifTableMethodLoop recurse is t = some (some r, t1)) : Q r := by
  induction is generalizing t with
  | nil => simp [ifTableMethodLoop] at hres
  | cons i is ih =>
    simp only [ifTableMethodLoop] at hres
    cases hr : recurse i t with
    | none => rw [hr] at hres; simp at hres
    | some x =>
      obtain ⟨xr, xt⟩ := x
      rw [hr] at hres
      simp only at hres
      split at hres
      · simp only [Option.some.injEq, Prod.mk.injEq] at hres
        rw [hres.1] at hr
        exact hrec i t r xt hr
      · exact ih _ hres

/-- Every method the public recursive search returns is the public declared
match of some class. -/
theorem getPublicMethodRecursive_sound (rt : Runtime) (name : String)
    (ps : List (Option ClassPtr)) (fuel : Nat) (c : ClassPtr) (t : Thread) (r : ArtMethod)
    (t1 : Thread) (hres : getPublicMethodRecursive rt name ps fuel c t = some (some r, t1)) :
    ∃ k, declaredMethod rt k name ps = some r ∧ r.isPublic = true := by
  induction fuel generalizing c t r t1 with
  | zero => simp [getPublicMethodRecursive] at hres
  | succ n ih =>
    simp only [getPublicMethodRecursive] at hres
    cases hs : superClassMethodLoop rt name ps (n + 1) (some c) t with
    | none => rw [hs] at hres; simp at hres
    | some x =>
      obtain ⟨xr, xt⟩ := x
      rw [hs] at hres
      cases xr with
      | some m =>
        simp only [Option.some.injEq, Prod.mk.injEq] at hres
        rw [hres.1] at hs
        exact superClassMethodLoop_sound rt name ps (n + 1) (some c) t r xt hs
      | none =>
        simp only at hres
        exact ifTableMethodLoop_sound _ _ (fun c s r s1 h => ih c s r s1 h) _ _ _ _ hres

/-- `Class_getMethodNative` hands out only what its search returned. -/
theorem Class_getMethodNative_sound (rt : Runtime) (fuel : Nat) (c : ClassPtr) (name : String)
    (ps : List (Option ClassPtr)) (recursive : Bool) (t : Thread) (r : ArtMethod) (t1 : Thread)
    (h : Class_getMethodNative rt fuel c (some name) ps recursive t = some (some r, t1)) :
    ∃ t0, (if recursive then getPublicMethodRecursive rt name ps fuel c t
           else some (getDeclaredMethodInternal rt c name ps t)) = some (some r, t0) := by
  unfold Class_getMethodNative at h
  simp only at h
  split at h
  · simp at h
  · generalize (if recursive = true then getPublicMethodRecursive rt name ps fuel c t
      else some (getDeclaredMethodInternal rt c name ps t)) = found at h ⊢
    cases found with
    | none => simp at h
    | some x =>
      obtain ⟨xr, xt⟩ := x
      cases xr with
      | none => simp at h
      | some m =>
        simp only at h
        split at h
        · simp at h
        · simp only [Option.some.injEq, Prod.mk.injEq] at h
          exact ⟨xt, by rw [h.1]⟩

theorem signatureEqual_nil_iff (rt : Runtime) (m : ArtMethod) :
    signatureEqual rt [] m = true ↔ (m.parameterTypeList = none ∨ m.parameterTypeList = some []) := by
  unfold signatureEqual equalMethodParameters
  cases hp : m.parameterTypeList with
  | none => simp
  | some is =>
    cases is with
    | nil => simp [equalMethodParametersLoop]
    | cons a is => simp

theorem declaredMethod_nil_params (rt : Runtime) (k : ClassPtr) (name : String) (r : ArtMethod)
    (h : declaredMethod rt k name [] = some r) : (r.parameterTypeList.getD []).length = 0 := by
  have hm : matchesQuery rt name [] r = true := by
    rcases declaredMethod_sound rt k name [] ⟨none⟩ r h with h1 | h1
    · exact h1.2.1
    · exact h1.2.1
  simp only [matchesQuery, Bool.and_eq_true] at hm
  rcases (signatureEqual_nil_iff rt r).mp hm.2 with h0 | h0 <;> simp [h0]

theorem Reachable.trans {rt : Runtime} {a b c : ClassPtr} (hab : Reachable rt a b)
    (hbc : Reachable rt b c) : Reachable rt a c := by
  induction hbc with
  | refl => exact hab
  | superClass _ hs ih => exact Reachable.superClass ih hs
  | ifTable _ hi ih => exact Reachable.ifTable ih hi

theorem getDeclaredFieldInternal_sound (rt : Runtime) (c : ClassPtr) (name : String)
    (f : ArtField) (h : getDeclaredFieldInternal rt c name = some f) :
    f.name = name ∧ f ∈ (rt.heap c).instanceFields ++ (rt.heap c).staticFields := by
  rw [getDeclaredFieldInternal_eq_find?] at h
  exact ⟨by simpa using List.find?_some h, List.mem_of_find?_eq_some h⟩

theorem superClassFieldLoop_sound (rt : Runtime) (name : String) (c0 : ClassPtr) (fuel : Nat)
    (k : Option ClassPtr) (f : ArtField) (hk : ∀ c, k = some c → Reachable rt c0 c)
    (hres : superClassFieldLoop rt name fuel k = some (some f)) :
    ∃ k1, Reachable rt c0 k1 ∧ getDeclaredFieldInternal rt k1 name = some f ∧
      f.isPublic = true := by
  induction fuel generalizing k with
  | zero =>
    cases k with
    | none => simp [superClassFieldLoop] at hres
    | some c => simp [superClassFieldLoop] at hres
  | succ n ih =>
    cases k with
    | none => simp [superClassFieldLoop] at hres
    | some c =>
      simp only [superClassFieldLoop] at hres
      split at hres
      · rename_i hpub
        simp only [Option.some.injEq] at hres
        rw [hres] at hpub
        exact ⟨c, hk c rfl, hres, hpub⟩
      · exact ih _ (fun s hs => Reachable.superClass (hk c rfl) hs) hres

theorem ifTableFieldLoop_sound (Q : ArtField → Prop) (recurse : ClassPtr → Option (Option ArtField))
    (is : List ClassPtr) (hrec : ∀ i ∈ is, ∀ r, recurse i = some (some r) → Q r) (f : ArtField)
    (hres : ifTableFieldLoop recurse is = some (some f)) : Q f := by
  induction is with
  | nil => simp [ifTableFieldLoop] at hres
  | cons i is ih =>
    simp only [ifTableFieldLoop] at hres
    cases hr : recurse i with
    | none => rw [hr] at hres; simp at hres
    | some x =>
      rw [hr] at hres
      simp only at hres
      split at hres
      · simp only [Option.some.injEq] at hres
        rw [hres] at hr
        exact hrec i (List.mem_cons_self _ _) f hr
      · exact ih (fun j hj => hrec j (List.mem_cons_of_mem _ hj)) hres

/-- Every field the public recursive search returns is the public declared
match of a class reachable from the start class. -/
theorem getPublicFieldRecursive_sound (rt : Runtime) (name : String) (fuel : Nat) (c : ClassPtr)
    (f : ArtField) (hres : getPublicFieldRecursive rt name fuel c = some (some f)) :
    ∃ k, Reachable rt c k ∧ getDeclaredFieldInternal rt k name = some f ∧ f.isPublic = true := by
  induction fuel generalizing c f with
  | zero => simp [getPublicFieldRecursive] at hres
  | succ n ih =>
    simp only [getPublicFieldRecursive] at hres
    cases hs : superClassFieldLoop rt name (n + 1) (some c) with
    | none => rw [hs] at hres; simp at hres
    | some x =>
      rw [hs] at hres
      cases x with
      | some g =>
        simp only [Option.some.injEq] at hres
        rw [hres] at hs
        exact superClassFieldLoop_sound rt name c (n + 1) (some c) f
          (fun k hk => by simp only [Option.some.injEq] at hk; rw [← hk]; exact Reachable.refl) hs
      | none =>
        simp only at hres
        apply ifTableFieldLoop_sound
          (fun r => ∃ k, Reachable rt c k ∧ getDeclaredFieldInternal rt k name = some r ∧
            r.isPublic = true) _ _ _ f hres
        intro i hi r hr
        obtain ⟨k, hk, hd, hp⟩ := ih i r hr
        exact ⟨k, Reachable.trans (Reachable.ifTable Reachable.refl hi) hk, hd, hp⟩

theorem superClassFieldLoop_mono (rt : Runtime) (name : String) (fuel : Nat)
    (k : Option ClassPtr) (r : Option ArtField)
    (h : superClassFieldLoop rt name fuel k = some r) :
    superClassFieldLoop rt name (fuel + 1) k = some r := by
  induction fuel generalizing k with
  | zero =>
    cases k with
    | none => simpa [superClassFieldLoop] using h
    | some c => simp [superClassFieldLoop] at h
  | succ n ih =>
    cases k with
    | none => simpa [superClassFieldLoop] using h
    | some c =>
      simp only [superClassFieldLoop] at h ⊢
      split
      · rename_i hp; simpa [hp] using h
      · rename_i hp
        simp only [hp, Bool.false_eq_true, if_false] at h
        exact ih _ h

theorem ifTableFieldLoop_mono (rec1 rec2 : ClassPtr → Option (Option ArtField))
    (is : List ClassPtr) (hrec : ∀ i ∈ is, ∀ r, rec1 i = some r → rec2 i = some r)
    (r : Option ArtField) (h : ifTableFieldLoop rec1 is = some r) :
    ifTableFieldLoop rec2 is = some r := by
  induction is with
  | nil => simpa [ifTableFieldLoop] using h
  | cons i is ih =>
    simp only [ifTableFieldLoop] at h ⊢
    cases h1 : rec1 i with
    | none => rw [h1] at h; simp at h
    | some x =>
      rw [h1] at h
      rw [hrec i (List.mem_cons_self _ _) x h1]
      simp only at h ⊢
      split
      · rename_i hp; simpa [hp] using h
      · rename_i hp
        simp only [hp, Bool.false_eq_true, if_false] at h
        exact ih (fun j hj => hrec j (List.mem_cons_of_mem _ hj)) h

theorem getPublicFieldRecursive_mono (rt : Runtime) (name : String) (fuel : Nat) (c : ClassPtr)
    (r : Option ArtField) (h : getPublicFieldRecursive rt name fuel c = some r) :
    getPublicFieldRecursive rt name (fuel + 1) c = some r := by
  induction fuel generalizing c r with
  | zero => simp [getPublicFieldRecursive] at h
  | succ n ih =>
    rw [getPublicFieldRecursive] at h ⊢
    cases hs : superClassFieldLoop rt name (n + 1) (some c) with
    | none => rw [hs] at h; simp at h
    | some x =>
      rw [hs] at h
      rw [superClassFieldLoop_mono rt name (n + 1) (some c) x hs]
      cases x with
      | some g => exact h
      | none =>
        simp only at h ⊢
        exact ifTableFieldLoop_mono _ _ _ (fun i _ q hq => ih i q hq) r h

theorem getPublicFieldRecursive_mono_le (rt : Runtime) (name : String) (fuel fuel1 : Nat)
    (hle : fuel ≤ fuel1) (c : ClassPtr) (r : Option ArtField)
    (h : getPublicFieldRecursive rt name fuel c = some r) :
    getPublicFieldRecursive rt name fuel1 c = some r := by
  induction hle with
  | refl => exact h
  | step _ ih => exact getPublicFieldRecursive_mono rt name _ c r ih

theorem superClassFieldLoop_mono_le (rt : Runtime) (name : String) (fuel fuel1 : Nat)
    (hle : fuel ≤ fuel1) (k : Option ClassPtr) (r : Option ArtField)
    (h : superClassFieldLoop rt name fuel k = some r) :
    superClassFieldLoop rt name fuel1 k = some r := by
  induction hle with
  | refl => exact h
  | step _ ih => exact superClassFieldLoop_mono rt name _ k r ih

theorem exists_uniform_fuel {α : Type} (P : α → Nat → Prop) (l : List α)
    (h : ∀ a ∈ l, ∃ n, ∀ fuel, n ≤ fuel → P a fuel) :
    ∃ n, ∀ a ∈ l, ∀ fuel, n ≤ fuel → P a fuel := by
  induction l with
  | nil => exact ⟨0, fun a ha => absurd ha (List.not_mem_nil a)⟩
  | cons x l ih =>
    obtain ⟨n1, h1⟩ := h x (List.mem_cons_self _ _)
    obtain ⟨n2, h2⟩ := ih (fun a ha => h a (List.mem_cons_of_mem _ ha))
    refine ⟨max n1 n2, ?_⟩
    intro a ha fuel hf
    rcases List.mem_cons.mp ha with rfl | ha1
    · exact h1 fuel (le_trans (le_max_left _ _) hf)
    · exact h2 a ha1 fuel (le_trans (le_max_right _ _) hf)

/-- With a finite superclass chain the superclass loop of the field search
returns once the fuel is large enough. -/
theorem superClassFieldLoop_terminates (rt : Runtime) (name : String)
    (hwf : WellFounded (isSuperClassOf rt)) (c : ClassPtr) :
    ∃ n, ∀ fuel, n ≤ fuel → ∃ r, superClassFieldLoop rt name fuel (some c) = some r := by
  induction c using hwf.induction with
  | _ c ih =>
    cases hs : (rt.heap c).superClass with
    | none =>
      refine ⟨1, ?_⟩
      intro fuel hf
      obtain ⟨f, rfl⟩ : ∃ f, fuel = f + 1 := ⟨fuel - 1, by omega⟩
      simp only [superClassFieldLoop, hs]
      split
      · exact ⟨_, rfl⟩
      · exact ⟨_, rfl⟩
    | some s =>
      obtain ⟨n, hn⟩ := ih s hs
      refine ⟨n + 1, ?_⟩
      intro fuel hf
      obtain ⟨f, rfl⟩ : ∃ f, fuel = f + 1 := ⟨fuel - 1, by omega⟩
      simp only [superClassFieldLoop, hs]
      split
      · exact ⟨_, rfl⟩
      · exact hn f (by omega)

theorem ifTableFieldLoop_total (recurse : ClassPtr → Option (Option ArtField))
    (is : List ClassPtr) (h : ∀ i ∈ is, ∃ r, recurse i = some r) :
    ∃ r, ifTableFieldLoop recurse is = some r := by
  induction is with
  | nil => exact ⟨none, rfl⟩
  | cons i is ih =>
    obtain ⟨x, hx⟩ := h i (List.mem_cons_self _ _)
    simp only [ifTableFieldLoop, hx]
    split
    · exact ⟨_, rfl⟩
    · exact ih (fun j hj => h j (List.mem_cons_of_mem _ hj))

/-- With finite superclass chains and a well-founded interface-table relation
the public recursive field search returns once the fuel is large enough. -/
theorem getPublicFieldRecursive_terminates (rt : Runtime) (name : String)
    (hsuper : WellFounded (isSuperClassOf rt)) (hiface : WellFounded (isInterfaceOf rt))
    (c : ClassPtr) :
    ∃ n, ∀ fuel, n ≤ fuel → ∃ r, getPublicFieldRecursive rt name fuel c = some r := by
  induction c using hiface.induction with
  | _ c ih =>
    obtain ⟨ns, hns⟩ := superClassFieldLoop_terminates rt name hsuper c
    obtain ⟨ni, hni⟩ := exists_uniform_fuel
      (fun i fuel => ∃ r, getPublicFieldRecursive rt name fuel i = some r)
      (rt.heap c).ifTable (fun i hi => ih i hi)
    refine ⟨max ns (ni + 1), ?_⟩
    intro fuel hf
    have h1 : ns ≤ fuel := le_trans (le_max_left _ _) hf
    have h2 : ni + 1 ≤ fuel := le_trans (le_max_right _ _) hf
    obtain ⟨f, rfl⟩ : ∃ f, fuel = f + 1 := ⟨fuel - 1, by omega⟩
    obtain ⟨x, hx⟩ := hns (f + 1) h1
    simp only [getPublicFieldRecursive, hx]
    cases x with
    | some g => exact ⟨_, rfl⟩
    | none =>
      simp only
      exact ifTableFieldLoop_total _ _ (fun i hi => hni i hi f (by omega))

theorem superClassMethodLoop_reachable (rt : Runtime) (name : String)
    (ps : List (Option ClassPtr)) (c0 : ClassPtr) (fuel : Nat) (k : Option ClassPtr) (t : Thread)
    (r : ArtMethod) (t1 : Thread) (hk : ∀ c, k = some c → Reachable rt c0 c)
    (hres : superClassMethodLoop rt name ps fuel k t = some (some r, t1)) :
    ∃ k1, Reachable rt c0 k1 ∧ declaredMethod rt k1 name ps = some r ∧ r.isPublic = true := by
  induction fuel generalizing k t with
  | zero =>
    cases k with
    | none => simp [superClassMethodLoop] at hres
    | some c => simp [superClassMethodLoop] at hres
  | succ n ih =>
    cases k with
    | none => simp [superClassMethodLoop] at hres
    | some c =>
      simp only [superClassMethodLoop] at hres
      split at hres
      · rename_i hpub
        simp only [Option.some.injEq, Prod.mk.injEq] at hres
        rw [getDeclaredMethodInternal_fst] at hres hpub
        refine ⟨c, hk c rfl, hres.1, ?_⟩
        rw [hres.1] at hpub
        exact hpub
      · exact ih _ _ (fun s hs => Reachable.superClass (hk c rfl) hs) hres

theorem ifTableMethodLoop_sound_mem (Q : ArtMethod → Prop)
    (recurse : ClassPtr → Thread → Option (Option ArtMethod × Thread)) (is : List ClassPtr)
    (hrec : ∀ i ∈ is, ∀ s r s1, recurse i s = some (some r, s1) → Q r)
    (t : Thread) (r : ArtMethod) (t1 : Thread)
    (hres : ifTableMethodLoop recurse is t = some (some r, t1)) : Q r := by
  induction is generalizing t with
  | nil => simp [ifTableMethodLoop] at hres
  | cons i is ih =>
    simp only [ifTableMethodLoop] at hres
    cases hr : recurse i t with
    | none => rw [hr] at hres; simp at hres
    | some x =>
      obtain ⟨xr, xt⟩ := x
      rw [hr] at hres
      simp only at hres
      split at hres
      · simp only [Option.some.injEq, Prod.mk.injEq] at hres
        rw [hres.1] at hr
        exact hrec i (List.mem_cons_self _ _) t r xt hr
      · exact ih (fun j hj => hrec j (List.mem_cons_of_mem _ hj)) _ hres

/-- Every method the public recursive search returns is the public declared
match of a class reachable from the start class. -/
theorem getPublicMethodRecursive_reachable (rt : Runtime) (name : String)
    (ps : List (Option ClassPtr)) (fuel : Nat) (c : ClassPtr) (t : Thread) (r : ArtMethod)
    (t1 : Thread) (hres : getPublicMethodRecursive rt name ps fuel c t = some (some r, t1)) :
    ∃ k, Reachable rt c k ∧ declaredMethod rt k name ps = some r ∧ r.isPublic = true := by
  induction fuel generalizing c t r t1 with
  | zero => simp [getPublicMethodRecursive] at hres
  | succ n ih =>
    simp only [getPublicMethodRecursive] at hres
    cases hs : superClassMethodLoop rt name ps (n + 1) (some c) t with
    | none => rw [hs] at hres; simp at hres
    | some x =>
      obtain ⟨xr, xt⟩ := x
      rw [hs] at hres
      cases xr with
      | some m =>
        simp only [Option.some.injEq, Prod.mk.injEq] at hres
        rw [hres.1] at hs
        exact superClassMethodLoop_reachable rt name ps c (n + 1) (some c) t r xt
          (fun k hk => by simp only [Option.some.injEq] at hk; rw [← hk]; exact Reachable.refl) hs
      | none =>
        simp only at hres
        apply ifTableMethodLoop_sound_mem
          (fun r => ∃ k, Reachable rt c k ∧ declaredMethod rt k name ps = some r ∧
            r.isPublic = true) _ _ _ _ r t1 hres
        intro i hi s q s1 hq
        obtain ⟨k, hk, hd, hp⟩ := ih i s q s1 hq
        exact ⟨k, Reachable.trans (Reachable.ifTable Reachable.refl hi) hk, hd, hp⟩

theorem superClassMethodLoop_mono (rt : Runtime) (name : String) (ps : List (Option ClassPtr))
    (fuel : Nat) (k : Option ClassPtr) (t : Thread) (x : Option ArtMethod × Thread)
    (h : superClassMethodLoop rt name ps fuel k t = some x) :
    superClassMethodLoop rt name ps (fuel + 1) k t = some x := by
  induction fuel generalizing k t with
  | zero =>
    cases k with
    | none => simpa [superClassMethodLoop] using h
    | some c => simp [superClassMethodLoop] at h
  | succ n ih =>
    cases k with
    | none => simpa [superClassMethodLoop] using h
    | some c =>
      simp only [superClassMethodLoop] at h ⊢
      split
      · rename_i hp; simpa [hp] using h
      · rename_i hp
        simp only [hp, Bool.false_eq_true, if_false] at h
        exact ih _ _ h

theorem ifTableMethodLoop_mono
    (rec1 rec2 : ClassPtr → Thread → Option (Option ArtMethod × Thread)) (is : List ClassPtr)
    (hrec : ∀ i ∈ is, ∀ s x, rec1 i s = some x → rec2 i s = some x)
    (t : Thread) (x : Option ArtMethod × Thread) (h : ifTableMethodLoop rec1 is t = some x) :
    ifTableMethodLoop rec2 is t = some x := by
  induction is generalizing t with
  | nil => simpa [ifTableMethodLoop] using h
  | cons i is ih =>
    simp only [ifTableMethodLoop] at h ⊢
    cases h1 : rec1 i t with
    | none => rw [h1] at h; simp at h
    | some y =>
      rw [h1] at h
      rw [hrec i (List.mem_cons_self _ _) t y h1]
      simp only at h ⊢
      split
      · rename_i hp; simpa [hp] using h
      · rename_i hp
        simp only [hp, Bool.false_eq_true, if_false] at h
        exact ih (fun j hj => hrec j (List.mem_cons_of_mem _ hj)) _ h

theorem getPublicMethodRecursive_mono (rt : Runtime) (name : String)
    (ps : List (Option ClassPtr)) (fuel : Nat) (c : ClassPtr) (t : Thread)
    (x : Option ArtMethod × Thread)
    (h : getPublicMethodRecursive rt name ps fuel c t = some x) :
    getPublicMethodRecursive rt name ps (fuel + 1) c t = some x := by
  induction fuel generalizing c t x with
  | zero => simp [getPublicMethodRecursive] at h
  | succ n ih =>
    rw [getPublicMethodRecursive] at h ⊢
    cases hs : superClassMethodLoop rt name ps (n + 1) (some c) t with
    | none => rw [hs] at h; simp at h
    | some y =>
      rw [hs] at h
      rw [superClassMethodLoop_mono rt name ps (n + 1) (some c) t y hs]
      obtain ⟨yr, yt⟩ := y
      cases yr with
      | some g => exact h
      | none =>
        simp only at h ⊢
        exact ifTableMethodLoop_mono _ _ _ (fun i _ s q hq => ih i s q hq) _ x h

theorem getPublicMethodRecursive_mono_le (rt : Runtime) (name : String)
    (ps : List (Option ClassPtr)) (fuel fuel1 : Nat) (hle : fuel ≤ fuel1) (c : ClassPtr)
    (t : Thread) (x : Option ArtMethod × Thread)
    (h : getPublicMethodRecursive rt name ps fuel c t = some x) :
    getPublicMethodRecursive rt name ps fuel1 c t = some x := by
  induction hle with
  | refl => exact h
  | step _ ih => exact getPublicMethodRecursive_mono rt name ps _ c t x ih

/-- With a finite superclass chain the superclass loop of the method search
returns once the fuel is large enough. -/
theorem superClassMethodLoop_terminates (rt : Runtime) (name : String)
    (ps : List (Option ClassPtr)) (hwf : WellFounded (isSuperClassOf rt)) (c : ClassPtr) :
    ∃ n, ∀ fuel, n ≤ fuel → ∀ t, ∃ x, superClassMethodLoop rt name ps fuel (some c) t = some x := by
  induction c using hwf.induction with
  | _ c ih =>
    cases hs : (rt.heap c).superClass with
    | none =>
      refine ⟨1, ?_⟩
      intro fuel hf t
      obtain ⟨f, rfl⟩ : ∃ f, fuel = f + 1 := ⟨fuel - 1, by omega⟩
      simp only [superClassMethodLoop, hs]
      split
      · exact ⟨_, rfl⟩
      · exact ⟨_, rfl⟩
    | some s =>
      obtain ⟨n, hn⟩ := ih s hs
      refine ⟨n + 1, ?_⟩
      intro fuel hf t
      obtain ⟨f, rfl⟩ : ∃ f, fuel = f + 1 := ⟨fuel - 1, by omega⟩
      simp only [superClassMethodLoop, hs]
      split
      · exact ⟨_, rfl⟩
      · exact hn f (by omega) _

theorem ifTableMethodLoop_total
    (recurse : ClassPtr → Thread → Option (Option ArtMethod × Thread)) (is : List ClassPtr)
    (h : ∀ i ∈ is, ∀ s, ∃ x, recurse i s = some x) (t : Thread) :
    ∃ x, ifTableMethodLoop recurse is t = some x := by
  induction is generalizing t with
  | nil => exact ⟨(none, t), rfl⟩
  | cons i is ih =>
    obtain ⟨x, hx⟩ := h i (List.mem_cons_self _ _) t
    simp only [ifTableMethodLoop, hx]
    split
    · exact ⟨_, rfl⟩
    · exact ih (fun j hj => h j (List.mem_cons_of_mem _ hj)) _

/-- With finite superclass chains and a well-founded interface-table relation
the public recursive method search returns once the fuel is large enough. -/
theorem getPublicMethodRecursive_terminates (rt : Runtime) (name : String)
    (ps : List (Option ClassPtr))
    (hsuper : WellFounded (isSuperClassOf rt)) (hiface : WellFounded (isInterfaceOf rt))
    (c : ClassPtr) :
    ∃ n, ∀ fuel, n ≤ fuel → ∀ t, ∃ x, getPublicMethodRecursive rt name ps fuel c t = some x := by
  induction c using hiface.induction with
  | _ c ih =>
    obtain ⟨ns, hns⟩ := superClassMethodLoop_terminates rt name ps hsuper c
    obtain ⟨ni, hni⟩ := exists_uniform_fuel
      (fun i fuel => ∀ t, ∃ x, getPublicMethodRecursive rt name ps fuel i t = some x)
      (rt.heap c).ifTable (fun i hi => ih i hi)
    refine ⟨max ns (ni + 1), ?_⟩
    intro fuel hf t
    have h1 : ns ≤ fuel := le_trans (le_max_left _ _) hf
    have h2 : ni + 1 ≤ fuel := le_trans (le_max_right _ _) hf
    obtain ⟨f, rfl⟩ : ∃ f, fuel = f + 1 := ⟨fuel - 1, by omega⟩
    obtain ⟨x, hx⟩ := hns (f + 1) h1 t
    obtain ⟨xr, xt⟩ := x
    simp only [getPublicMethodRecursive, hx]
    cases xr with
    | some g => exact ⟨_, rfl⟩
    | none =>
      simp only
      exact ifTableMethodLoop_total _ _ (fun i hi s => hni i hi f (by omega) s) _

theorem superClassMethodLoop_fst (rt : Runtime) (name : String) (ps : List (Option ClassPtr))
    (fuel : Nat) (k : Option ClassPtr) (t s : Thread) :
    (superClassMethodLoop rt name ps fuel k t).map Prod.fst =
      (superClassMethodLoop rt name ps fuel k s).map Prod.fst := by
  induction fuel generalizing k t s with
  | zero =>
    cases k with
    | none => simp [superClassMethodLoop]
    | some c => simp [superClassMethodLoop]
  | succ n ih =>
    cases k with
    | none => simp [superClassMethodLoop]
    | some c =>
      simp only [superClassMethodLoop, getDeclaredMethodInternal_fst]
      split
      · simp
      · exact ih _ _ _

theorem ifTableMethodLoop_fst
    (recurse : ClassPtr → Thread → Option (Option ArtMethod × Thread)) (is : List ClassPtr)
    (hrec : ∀ i ∈ is, ∀ t s, (recurse i t).map Prod.fst = (recurse i s).map Prod.fst)
    (t s : Thread) :
    (ifTableMethodLoop recurse is t).map Prod.fst =
      (ifTableMethodLoop recurse is s).map Prod.fst := by
  induction is generalizing t s with
  | nil => simp [ifTableMethodLoop]
  | cons i is ih =>
    have hi := hrec i (List.mem_cons_self _ _) t s
    have hr := fun a b => ih (fun j hj => hrec j (List.mem_cons_of_mem _ hj)) a b
    simp only [ifTableMethodLoop]
    cases h1 : recurse i t with
    | none =>
      rw [h1] at hi
      cases h2 : recurse i s with
      | none => rfl
      | some y => rw [h2] at hi; simp at hi
    | some x =>
      rw [h1] at hi
      cases h2 : recurse i s with
      | none => rw [h2] at hi; simp at hi
      | some y =>
        rw [h2] at hi
        simp only [Option.map_some', Option.some.injEq] at hi
        simp only [hi]
        split
        · simp [hi]
        · exact hr _ _

theorem getPublicMethodRecursive_fst (rt : Runtime) (name : String)
    (ps : List (Option ClassPtr)) (fuel : Nat) (c : ClassPtr) (t s : Thread) :
    (getPublicMethodRecursive rt name ps fuel c t).map Prod.fst =
      (getPublicMethodRecursive rt name ps fuel c s).map Prod.fst := by
  induction fuel generalizing c t s with
  | zero => simp [getPublicMethodRecursive]
  | succ n ih =>
    have hs := superClassMethodLoop_fst rt name ps (n + 1) (some c) t s
    simp only [getPublicMethodRecursive]
    cases h1 : superClassMethodLoop rt name ps (n + 1) (some c) t with
    | none =>
      rw [h1] at hs
      cases h2 : superClassMethodLoop rt name ps (n + 1) (some c) s with
      | none => rfl
      | some y => rw [h2] at hs; simp at hs
    | some x =>
      rw [h1] at hs
      cases h2 : superClassMethodLoop rt name ps (n + 1) (some c) s with
      | none => rw [h2] at hs; simp at hs
      | some y =>
        rw [h2] at hs
        simp only [Option.map_some', Option.some.injEq] at hs
        obtain ⟨xr, xt⟩ := x
        obtain ⟨yr, yt⟩ := y
        simp only at hs
        subst hs
        cases xr with
        | some m => simp
        | none =>
          simp only
          exact ifTableMethodLoop_fst _ _ (fun i _ a b => ih i a b) _ _

theorem publicMethod_of_eq (rt : Runtime) (name : String) (ps : List (Option ClassPtr))
    (fuel : Nat) (c : ClassPtr) (t : Thread) (r : Option ArtMethod) (t1 : Thread)
    (h : getPublicMethodRecursive rt name ps fuel c t = some (r, t1)) :
    publicMethod rt name ps fuel c = some r := by
  unfold publicMethod
  rw [getPublicMethodRecursive_fst rt name ps fuel c ⟨none⟩ t, h]
  rfl

theorem eq_of_publicMethod (rt : Runtime) (name : String) (ps : List (Option ClassPtr))
    (fuel : Nat) (c : ClassPtr) (r : Option ArtMethod)
    (h : publicMethod rt name ps fuel c = some r) (t : Thread) :
    ∃ t1, getPublicMethodRecursive rt name ps fuel c t = some (r, t1) := by
  unfold publicMethod at h
  rw [getPublicMethodRecursive_fst rt name ps fuel c ⟨none⟩ t] at h
  cases hx : getPublicMethodRecursive rt name ps fuel c t with
  | none => rw [hx] at h; simp at h
  | some x =>
    rw [hx] at h
    simp only [Option.map_some', Option.some.injEq] at h
    obtain ⟨xr, xt⟩ := x
    simp only at h
    subst h
    exact ⟨xt, rfl⟩

/-- The superclass loop of the field search on a finite chain without public
declared match runs off the end of the chain. -/
theorem superClassFieldLoop_none (rt : Runtime) (name : String) (len : Nat) (c : ClassPtr)
    (fuel : Nat) (hfuel : len ≤ fuel) (hend : nthSuperClass rt len c = none)
    (hno : ∀ j k, nthSuperClass rt j c = some k →
      isPublicField (getDeclaredFieldInternal rt k name) = false) :
    superClassFieldLoop rt name fuel (some c) = some none := by
  induction len generalizing c fuel with
  | zero => simp [nthSuperClass] at hend
  | succ n ih =>
    obtain ⟨f, rfl⟩ : ∃ f, fuel = f + 1 := ⟨fuel - 1, by omega⟩
    have h0 := hno 0 c rfl
    simp only [superClassFieldLoop, h0, Bool.false_eq_true, if_false]
    cases hs : (rt.heap c).superClass with
    | none => cases f <;> rfl
    | some s =>
      simp only [nthSuperClass, hs] at hend
      apply ih s f (by omega) hend
      intro j k hj
      apply hno (j + 1) k
      simp only [nthSuperClass, hs]
      exact hj

/-- The superclass loop of the method search on a finite chain without public
declared match runs off the end of the chain. -/
theorem superClassMethodLoop_none (rt : Runtime) (name : String) (ps : List (Option ClassPtr))
    (len : Nat) (c : ClassPtr) (fuel : Nat) (t : Thread) (hfuel : len ≤ fuel)
    (hend : nthSuperClass rt len c = none)
    (hno : ∀ j k, nthSuperClass rt j c = some k →
      isPublicMethod (declaredMethod rt k name ps) = false) :
    ∃ t1, superClassMethodLoop rt name ps fuel (some c) t = some (none, t1) := by
  induction len generalizing c fuel t with
  | zero => simp [nthSuperClass] at hend
  | succ n ih =>
    obtain ⟨f, rfl⟩ : ∃ f, fuel = f + 1 := ⟨fuel - 1, by omega⟩
    have h0 := hno 0 c rfl
    simp only [superClassMethodLoop, getDeclaredMethodInternal_fst, h0, Bool.false_eq_true,
      if_false]
    cases hs : (rt.heap c).superClass with
    | none => exact ⟨_, by cases f <;> rfl⟩
    | some s =>
      simp only [nthSuperClass, hs] at hend
      apply ih s f _ (by omega) hend
      intro j k hj
      apply hno (j + 1) k
      simp only [nthSuperClass, hs]
      exact hj

/-- The interface loop of the field search: interfaces whose search returns
`nullptr` are passed over. -/
theorem ifTableFieldLoop_append (recurse : ClassPtr → Option (Option ArtField))
    (pre rest : List ClassPtr) (hpre : ∀ j ∈ pre, recurse j = some none) :
    ifTableFieldLoop recurse (pre ++ rest) = ifTableFieldLoop recurse rest := by
  induction pre with
  | nil => rfl
  | cons j pre ih =>
    simp only [List.cons_append, ifTableFieldLoop, hpre j (List.mem_cons_self _ _)]
    simp only [isPublicField, Bool.false_eq_true, if_false]
    exact ih (fun x hx => hpre x (List.mem_cons_of_mem _ hx))

/-- The interface loop of the method search: interfaces whose search returns
`nullptr` are passed over. -/
theorem ifTableMethodLoop_append
    (recurse : ClassPtr → Thread → Option (Option ArtMethod × Thread))
    (pre rest : List ClassPtr) (hpre : ∀ j ∈ pre, ∀ s, ∃ s1, recurse j s = some (none, s1))
    (t : Thread) :
    ∃ t1, ifTableMethodLoop recurse (pre ++ rest) t = ifTableMethodLoop recurse rest t1 := by
  induction pre generalizing t with
  | nil => exact ⟨t, rfl⟩
  | cons j pre ih =>
    obtain ⟨s1, h1⟩ := hpre j (List.mem_cons_self _ _) t
    obtain ⟨t1, h2⟩ := ih (fun x hx => hpre x (List.mem_cons_of_mem _ hx)) s1
    refine ⟨t1, ?_⟩
    simp only [List.cons_append, ifTableMethodLoop, h1, isPublicMethod, Bool.false_eq_true,
      if_false]
    exact h2

theorem wellFounded_of_rank (rel : ClassPtr → ClassPtr → Prop) (rank : ClassPtr → Nat)
    (h : ∀ a b, rel a b → rank a < rank b) : WellFounded rel :=
  Subrelation.wf (fun {a b} hab => h a b hab) (InvImage.wf rank Nat.lt_wfRel.wf)

theorem hiddenFieldRuntime_super_wf : WellFounded (isSuperClassOf hiddenFieldRuntime) := by
  apply wellFounded_of_rank _ (fun c => 3 - c)
  intro s c h
  unfold isSuperClassOf at h
  rcases c with _ | _ | _ | c <;>
    simp [hiddenFieldRuntime, listRuntime, emptyClass] at h
  · subst h; decide
  · subst h; decide

theorem hiddenFieldRuntime_iface_wf : WellFounded (isInterfaceOf hiddenFieldRuntime) := by
  apply wellFounded_of_rank _ (fun c => 3 - c)
  intro s c h
  unfold isInterfaceOf at h
  rcases c with _ | _ | _ | c <;>
    simp [hiddenFieldRuntime, listRuntime, emptyClass] at h

theorem hiddenFieldRuntime_fields (k : ClassPtr) (g : ArtField)
    (hg : g ∈ (hiddenFieldRuntime.heap k).instanceFields ++ (hiddenFieldRuntime.heap k).staticFields) :
    g.name = "x" := by
  rcases k with _ | _ | _ | k <;>
    simp [hiddenFieldRuntime, listRuntime, emptyClass] at hg
  · subst hg; rfl
  · subst hg; rfl

theorem find?_of_first {α : Type} (p : α → Bool) (l pre : List α) (m : α) (post : List α)
    (hl : l = pre ++ m :: post) (hm : p m = true) (hpre : ∀ x ∈ pre, p x = false) :
    l.find? p = some m := by
  rw [List.find?_eq_some]
  exact ⟨hm, pre, post, hl, fun a ha => by simp [hpre a ha]⟩

theorem find?_none_of_all_false {α : Type} (p : α → Bool) (l : List α)
    (h : ∀ x ∈ l, p x = false) : l.find? p = none := by
  rw [List.find?_eq_none]
  intro x hx
  simp [h x hx]

theorem filter_nil_of_all_false {α : Type} (p : α → Bool) (l : List α)
    (h : ∀ x ∈ l, p x = false) : l.filter p = [] := by
  rw [List.filter_eq_nil_iff]
  intro x hx
  simp [h x hx]

theorem lastOr_filter_of_last {α : Type} (p : α → Bool) (l pre : List α) (m : α)
    (post : List α) (o : Option α) (hl : l = pre ++ m :: post) (hm : p m = true)
    (hpost : ∀ x ∈ post, p x = false) : lastOr (l.filter p) o = some m := by
  subst hl
  rw [List.filter_append, List.filter_cons, hm, filter_nil_of_all_false p post hpost]
  simp only [if_true]
  unfold lastOr
  rw [List.getLast?_append]
  rfl

theorem nthSuperClass_of_root (rt : Runtime) (c : ClassPtr)
    (hroot : (rt.heap c).superClass = none) (j : Nat) (k : ClassPtr)
    (h : nthSuperClass rt j c = some k) : k = c := by
  cases j with
  | zero => simp only [nthSuperClass, Option.some.injEq] at h; exact h.symm
  | succ j => simp [nthSuperClass, hroot] at h

/-- `getDeclaredOrRecursiveField` hands out only what its search returned. -/
theorem getDeclaredOrRecursiveField_sound (rt : Runtime) (fuel : Nat) (c : ClassPtr)
    (name : String) (recursive : Bool) (t : Thread) (f : ArtField) (t1 : Thread)
    (h : getDeclaredOrRecursiveField rt fuel c name recursive t = some (some f, t1)) :
    (if recursive then getPublicFieldRecursive rt name fuel c
     else some (getDeclaredFieldInternal rt c name)) = some (some f) := by
  unfold getDeclaredOrRecursiveField at h
  simp only at h
  generalize (if recursive = true then getPublicFieldRecursive rt name fuel c
    else some (getDeclaredFieldInternal rt c name)) = found at h ⊢
  cases found with
  | none => simp at h
  | some x =>
    cases x with
    | none => simp at h
    | some g =>
      simp only at h
      split at h
      · simp at h
      · simp only [Option.some.injEq, Prod.mk.injEq] at h
        rw [h.1]

theorem faultsLoop_pending (rt : Runtime) (m : ArtMethod) (is : List Nat)
    (ps : List (Option ClassPtr)) (t : Thread) (h : faultsLoop rt m is ps = true) :
    (equalMethodParametersLoop rt m is ps t).2.IsExceptionPending = true := by
  induction is generalizing ps t with
  | nil => simp [faultsLoop] at h
  | cons i is ih =>
    cases ps with
    | nil => simp [faultsLoop] at h
    | cons p ps =>
      simp only [faultsLoop] at h
      simp only [equalMethodParametersLoop]
      have hfst := resolveParamType_fst rt m i t ⟨none⟩
      rcases resolveParamType_fault rt m i t with ⟨h1, h2⟩ | ⟨h1, h2⟩
      · split
        · exact h2
        · exact equalMethodParametersLoop_pending rt m is ps _ h2
      · cases hr : (resolveParamType rt m i ⟨none⟩).1 with
        | none => rw [hr] at hfst; exact absurd hfst h1
        | some c =>
          rw [hr] at h hfst
          simp only at h
          have hc : (some c != p) = false := by
            rcases Bool.eq_false_or_eq_true (some c != p) with hb | hb
            · rw [hb] at h; simp at h
            · exact hb
          rw [hc] at h
          simp only [Bool.false_eq_true, if_false] at h
          rw [hfst, hc]
          simp only [Bool.false_eq_true, if_false]
          exact ih ps _ h

theorem faultsLoop_false (rt : Runtime) (m : ArtMethod) (is : List Nat)
    (ps : List (Option ClassPtr)) (t : Thread) (hps : ∀ p ∈ ps, p ≠ none)
    (h : faultsLoop rt m is ps = true) :
    (equalMethodParametersLoop rt m is ps t).1 = false := by
  induction is generalizing ps t with
  | nil => simp [faultsLoop] at h
  | cons i is ih =>
    cases ps with
    | nil => simp [faultsLoop] at h
    | cons p ps =>
      simp only [faultsLoop] at h
      simp only [equalMethodParametersLoop]
      have hfst := resolveParamType_fst rt m i t ⟨none⟩
      have hp : p ≠ none := hps p (List.mem_cons_self _ _)
      cases hr : (resolveParamType rt m i ⟨none⟩).1 with
      | none =>
        rw [hr] at hfst
        have hc : ((resolveParamType rt m i t).1 != p) = true := by
          rw [hfst]
          cases p with
          | none => exact absurd rfl hp
          | some c => rfl
        simp [hc]
      | some c =>
        rw [hr] at h hfst
        simp only at h
        have hc : (some c != p) = false := by
          rcases Bool.eq_false_or_eq_true (some c != p) with hb | hb
          · rw [hb] at h; simp at h
          · exact hb
        rw [hc] at h
        simp only [Bool.false_eq_true, if_false] at h
        rw [hfst, hc]
        simp only [Bool.false_eq_true, if_false]
        exact ih ps _ (fun q hq => hps q (List.mem_cons_of_mem _ hq)) h

/-- A candidate whose signature evaluation faults leaves an exception
pending, whatever the thread it is evaluated on. -/
theorem faults_pending (rt : Runtime) (ps : List (Option ClassPtr)) (m : ArtMethod) (t : Thread)
    (h : faults rt ps m = true) :
    (equalMethodParameters rt m ps t).2.IsExceptionPending = true := by
  unfold faults at h
  unfold equalMethodParameters
  cases hp : m.parameterTypeList with
  | none => rw [hp] at h; simp at h
  | some is =>
    rw [hp] at h
    simp only at h ⊢
    by_cases hc : (is.length != ps.length) = true
    · simp [hc] at h
    · simp only [hc, Bool.false_eq_true, if_false] at h ⊢
      exact faultsLoop_pending rt m is ps t h

/-- A candidate whose signature evaluation faults is reported as a non-match
when the query has no null entry. -/
theorem faults_false (rt : Runtime) (ps : List (Option ClassPtr)) (m : ArtMethod) (t : Thread)
    (hps : ∀ p ∈ ps, p ≠ none) (h : faults rt ps m = true) :
    (equalMethodParameters rt m ps t).1 = false := by
  unfold faults at h
  unfold equalMethodParameters
  cases hp : m.parameterTypeList with
  | none => rw [hp] at h; simp at h
  | some is =>
    rw [hp] at h
    simp only at h ⊢
    by_cases hc : (is.length != ps.length) = true
    · simp [hc] at h
    · simp only [hc, Bool.false_eq_true, if_false] at h ⊢
      exact faultsLoop_false rt m is ps t hps h

theorem virtualMethodsLoop_faults (rt : Runtime) (name : String) (ps : List (Option ClassPtr))
    (pre : List ArtMethod) (m : ArtMethod) (post : List ArtMethod) (pot : Option ArtMethod)
    (t : Thread) (hpre : ∀ x ∈ pre, genuineVirtual rt name ps x = false)
    (hname : name = m.name) (hm : faults rt ps m = true) :
    (virtualMethodsLoop rt name ps (pre ++ m :: post) pot t).2.IsExceptionPending = true := by
  have hmono : ∀ x ∈ post, ∀ s, s.IsExceptionPending = true →
      (equalMethodParameters rt x ps s).2.IsExceptionPending = true :=
    fun x _ s hs => equalMethodParameters_pending rt x ps s hs
  induction pre generalizing pot t with
  | nil =>
    have he := faults_pending rt ps m t hm
    have hrest : ∀ q, (virtualMethodsLoop rt name ps post q
        (equalMethodParameters rt m ps t).2).2.IsExceptionPending = true :=
      fun q => virtualMethodsLoop_inv rt name ps (fun s => s.IsExceptionPending = true) post q _
        hmono he
    simp only [List.nil_append, virtualMethodsLoop, hname, bne_self_eq_false,
      Bool.false_eq_true, if_false]
    rw [← hname]
    split
    · exact hrest _
    · split
      · split
        · exact he
        · exact hrest _
      · exact hrest _
  | cons x pre ih =>
    have hx := hpre x (List.mem_cons_self _ _)
    have hr : ∀ q s, (virtualMethodsLoop rt name ps (pre ++ m :: post) q
        s).2.IsExceptionPending = true :=
      fun q s => ih q s (fun y hy => hpre y (List.mem_cons_of_mem _ hy))
    simp only [List.cons_append, virtualMethodsLoop]
    split
    · exact hr _ _
    · rename_i hn
      split
      · exact hr _ _
      · rename_i he
        split
        · rename_i hmir
          split
          · rename_i hsyn
            exfalso
            have hnm : name = x.name := by simpa using hn
            simp only [genuineVirtual, matchesQuery, hnm, beq_self_eq_true, Bool.true_and] at hx
            rw [equalMethodParameters_fst] at he
            simp only [Bool.not_eq_true', Bool.not_eq_false] at he hmir hsyn
            simp [he, hmir, hsyn] at hx
          · exact hr _ _
        · exact hr _ _

theorem directMethodsLoop_faults (rt : Runtime) (name : String) (ps : List (Option ClassPtr))
    (pre : List ArtMethod) (m : ArtMethod) (post : List ArtMethod) (pot : Option ArtMethod)
    (t : Thread) (hpre : ∀ x ∈ pre, genuineDirect rt name ps x = false)
    (hctor : m.isConstructor = false) (hname : name = m.name) (hm : faults rt ps m = true) :
    (directMethodsLoop rt name ps (pre ++ m :: post) pot t).2.IsExceptionPending = true := by
  have hmono : ∀ x ∈ post, ∀ s, s.IsExceptionPending = true →
      (equalMethodParameters rt x ps s).2.IsExceptionPending = true :=
    fun x _ s hs => equalMethodParameters_pending rt x ps s hs
  induction pre generalizing pot t with
  | nil =>
    have he := faults_pending rt ps m t hm
    have hrest : ∀ q, (directMethodsLoop rt name ps post q
        (equalMethodParameters rt m ps t).2).2.IsExceptionPending = true :=
      fun q => directMethodsLoop_inv rt name ps (fun s => s.IsExceptionPending = true) post q _
        hmono he
    simp only [List.nil_append, directMethodsLoop, hctor, hname, bne_self_eq_false,
      Bool.false_eq_true, if_false]
    rw [← hname]
    split
    · exact hrest _
    · split
      · exact he
      · exact hrest _
  | cons x pre ih =>
    have hx := hpre x (List.mem_cons_self _ _)
    have hr : ∀ q s, (directMethodsLoop rt name ps (pre ++ m :: post) q
        s).2.IsExceptionPending = true :=
      fun q s => ih q s (fun y hy => hpre y (List.mem_cons_of_mem _ hy))
    simp only [List.cons_append, directMethodsLoop]
    split
    · exact hr _ _
    · rename_i hcx
      split
      · exact hr _ _
      · rename_i hn
        split
        · exact hr _ _
        · rename_i he
          split
          · rename_i hgen
            exfalso
            have hnm : name = x.name := by simpa using hn
            simp only [genuineDirect, directCandidate, matchesQuery, hnm, beq_self_eq_true,
              Bool.true_and] at hx
            rw [equalMethodParameters_fst] at he
            simp only [Bool.not_eq_true', Bool.not_eq_false, Bool.and_eq_true] at he hgen hcx
            simp [he, hgen.1, hgen.2, hcx] at hx
          · exact hr _ _

/-- Terminal thread of a declared search that evaluates a faulting candidate:
an exception is pending. -/
theorem getDeclaredMethodInternal_faults (rt : Runtime) (c : ClassPtr) (name : String)
    (ps : List (Option ClassPtr)) (t : Thread) (h : declaredSearchFaults rt c name ps) :
    (getDeclaredMethodInternal rt c name ps t).2.IsExceptionPending = true := by
  have hmono : ∀ x s, s.IsExceptionPending = true →
      (equalMethodParameters rt x ps s).2.IsExceptionPending = true :=
    fun x s hs => equalMethodParameters_pending rt x ps s hs
  unfold getDeclaredMethodInternal
  rcases h with ⟨pre, m, post, hsplit, hpre, hname, hm⟩ | ⟨hv, pre, m, post, hsplit, hpre, hctor, hname, hm⟩
  · have hvl := virtualMethodsLoop_faults rt name ps pre m post none t hpre hname hm
    rw [← hsplit] at hvl
    generalize virtualMethodsLoop rt name ps (rt.heap c).virtualMethods none t = rv at hvl
    obtain ⟨ev, tv⟩ := rv
    cases ev with
    | ret x => exact hvl
    | done pot =>
      simp only
      have hd := directMethodsLoop_inv rt name ps (fun s => s.IsExceptionPending = true)
        (rt.heap c).directMethods pot tv (fun x _ => hmono x) hvl
      generalize directMethodsLoop rt name ps (rt.heap c).directMethods pot tv = rd at hd
      obtain ⟨ed, td⟩ := rd
      cases ed with
      | ret x => exact hd
      | done pot1 => exact hd
  · have hv1 := virtualMethodsLoop_fst rt name ps (rt.heap c).virtualMethods none t
    rw [find?_none_of_all_false _ _ hv] at hv1
    simp only at hv1
    generalize virtualMethodsLoop rt name ps (rt.heap c).virtualMethods none t = rv at hv1
    obtain ⟨ev, tv⟩ := rv
    simp only at hv1
    have hdl : ∀ q s, (directMethodsLoop rt name ps (rt.heap c).directMethods q
        s).2.IsExceptionPending = true := by
      intro q s
      rw [hsplit]
      exact directMethodsLoop_faults rt name ps pre m post q s hpre hctor hname hm
    cases ev with
    | ret x => exact absurd hv1 (by simp)
    | done pot =>
      simp only
      have hd := hdl pot tv
      generalize directMethodsLoop rt name ps (rt.heap c).directMethods pot tv = rd at hd
      obtain ⟨ed, td⟩ := rd
      cases ed with
      | ret x => exact hd
      | done pot1 => exact hd

theorem pending_mono (rt : Runtime) (ps : List (Option ClassPtr)) :
    ∀ m s, s.IsExceptionPending = true →
      (equalMethodParameters rt m ps s).2.IsExceptionPending = true :=
  fun m s hs => equalMethodParameters_pending rt m ps s hs

theorem superClassMethodLoop_visits (rt : Runtime) (name : String) (ps : List (Option ClassPtr))
    (n : Nat) (c k : ClassPtr) (fuel : Nat) (t : Thread) (r : Option ArtMethod) (t1 : Thread)
    (hk : nthSuperClass rt n c = some k)
    (hmin : ∀ j, j < n → ∀ kj, nthSuperClass rt j c = some kj →
      isPublicMethod (declaredMethod rt kj name ps) = false)
    (hf : declaredSearchFaults rt k name ps)
    (hres : superClassMethodLoop rt name ps fuel (some c) t = some (r, t1)) :
    t1.IsExceptionPending = true := by
  induction n generalizing c t fuel with
  | zero =>
    simp only [nthSuperClass, Option.some.injEq] at hk
    subst hk
    cases fuel with
    | zero => simp [superClassMethodLoop] at hres
    | succ f =>
      have hd := getDeclaredMethodInternal_faults rt c name ps t hf
      simp only [superClassMethodLoop] at hres
      split at hres
      · simp only [Option.some.injEq, Prod.mk.injEq] at hres
        rw [← hres.2]; exact hd
      · exact superClassMethodLoop_inv rt name ps (fun s => s.IsExceptionPending = true)
          (pending_mono rt ps) f _ _ r t1 hres hd
  | succ n ih =>
    cases fuel with
    | zero => simp [superClassMethodLoop] at hres
    | succ f =>
      have h0 := hmin 0 (Nat.succ_pos n) c rfl
      simp only [nthSuperClass] at hk
      cases hs : (rt.heap c).superClass with
      | none => rw [hs] at hk; simp at hk
      | some s =>
        rw [hs] at hk
        simp only at hk
        simp only [superClassMethodLoop, getDeclaredMethodInternal_fst, h0, Bool.false_eq_true,
          if_false, hs] at hres
        apply ih s f _ hk _ hres
        intro j hj kj hkj
        apply hmin (j + 1) (by omega) kj
        simp only [nthSuperClass, hs]
        exact hkj

theorem superClassMethodLoop_some_chain (rt : Runtime) (name : String)
    (ps : List (Option ClassPtr)) (fuel : Nat) (c : ClassPtr) (t : Thread) (m : ArtMethod)
    (t1 : Thread) (hres : superClassMethodLoop rt name ps fuel (some c) t = some (some m, t1)) :
    ∃ j kj, nthSuperClass rt j c = some kj ∧
      isPublicMethod (declaredMethod rt kj name ps) = true := by
  induction fuel generalizing c t with
  | zero => simp [superClassMethodLoop] at hres
  | succ f ih =>
    simp only [superClassMethodLoop] at hres
    split at hres
    · rename_i hpub
      rw [getDeclaredMethodInternal_fst] at hpub
      exact ⟨0, c, rfl, hpub⟩
    · cases hs : (rt.heap c).superClass with
      | none => rw [hs] at hres; simp [superClassMethodLoop] at hres
      | some s =>
        rw [hs] at hres
        obtain ⟨j, kj, hj, hp⟩ := ih s _ hres
        refine ⟨j + 1, kj, ?_, hp⟩
        simp only [nthSuperClass, hs]
        exact hj

theorem ifTableMethodLoop_skip_returned
    (recurse : ClassPtr → Thread → Option (Option ArtMethod × Thread))
    (pre rest : List ClassPtr)
    (hpre : ∀ j ∈ pre, ∀ s r s1, recurse j s = some (r, s1) → r = none)
    (t : Thread) (x : Option ArtMethod × Thread)
    (h : ifTableMethodLoop recurse (pre ++ rest) t = some x) :
    ∃ s, ifTableMethodLoop recurse rest s = some x := by
  induction pre generalizing t with
  | nil => exact ⟨t, h⟩
  | cons j pre ih =>
    simp only [List.cons_append, ifTableMethodLoop] at h
    cases hr : recurse j t with
    | none => rw [hr] at h; simp at h
    | some y =>
      obtain ⟨yr, yt⟩ := y
      have hnone := hpre j (List.mem_cons_self _ _) t yr yt hr
      subst hnone
      rw [hr] at h
      simp only [isPublicMethod, Bool.false_eq_true, if_false] at h
      exact ih (fun i hi => hpre i (List.mem_cons_of_mem _ hi)) _ h

theorem publicMethod_mono_le (rt : Runtime) (name : String) (ps : List (Option ClassPtr))
    (fuel fuel1 : Nat) (hle : fuel ≤ fuel1) (c : ClassPtr) (r : Option ArtMethod)
    (h : publicMethod rt name ps fuel c = some r) :
    publicMethod rt name ps fuel1 c = some r := by
  obtain ⟨t1, h1⟩ := eq_of_publicMethod rt name ps fuel c r h ⟨none⟩
  exact publicMethod_of_eq rt name ps fuel1 c ⟨none⟩ r t1
    (getPublicMethodRecursive_mono_le rt name ps fuel fuel1 hle c ⟨none⟩ _ h1)

/-- An interface whose search returns `nullptr` for some fuel returns `nullptr`
whenever it returns. -/
theorem publicMethod_none_stable (rt : Runtime) (name : String) (ps : List (Option ClassPtr))
    (j : ClassPtr) (hj : ∃ fuel, publicMethod rt name ps fuel j = some none)
    (fuel : Nat) (s : Thread) (r : Option ArtMethod) (s1 : Thread)
    (h : getPublicMethodRecursive rt name ps fuel j s = some (r, s1)) : r = none := by
  obtain ⟨f0, h0⟩ := hj
  have h1 := publicMethod_of_eq rt name ps fuel j s r s1 h
  have h2 := publicMethod_mono_le rt name ps fuel (max fuel f0) (le_max_left _ _) j r h1
  have h3 := publicMethod_mono_le rt name ps f0 (max fuel f0) (le_max_right _ _) j none h0
  rw [h2] at h3
  simpa using h3

/-- Terminal thread of a public recursive search that runs the per-class
predicate on a class whose declared search evaluates a faulting candidate: an
exception is pending. -/
theorem getPublicMethodRecursive_faults (rt : Runtime) (name : String)
    (ps : List (Option ClassPtr)) (c k : ClassPtr) (hv : Visits rt name ps c k)
    (hf : declaredSearchFaults rt k name ps) (fuel : Nat) (t : Thread) (r : Option ArtMethod)
    (t1 : Thread) (hres : getPublicMethodRecursive rt name ps fuel c t = some (r, t1)) :
    t1.IsExceptionPending = true := by
  induction hv generalizing fuel t r t1 with
  | chain n hk hmin =>
    rename_i c0 k0
    cases fuel with
    | zero => simp [getPublicMethodRecursive] at hres
    | succ f =>
      simp only [getPublicMethodRecursive] at hres
      cases hs : superClassMethodLoop rt name ps (f + 1) (some c0) t with
      | none => rw [hs] at hres; simp at hres
      | some x =>
        obtain ⟨xr, xt⟩ := x
        have hx := superClassMethodLoop_visits rt name ps n c0 k0 (f + 1) t xr xt hk hmin hf hs
        rw [hs] at hres
        cases xr with
        | some m =>
          simp only [Option.some.injEq, Prod.mk.injEq] at hres
          rw [← hres.2]; exact hx
        | none =>
          simp only at hres
          exact ifTableMethodLoop_inv (fun s => s.IsExceptionPending = true) _
            (fun i s q s1 hq hp => getPublicMethodRecursive_inv rt name ps
              (fun s => s.IsExceptionPending = true) (pending_mono rt ps) f i s q s1 hq hp)
            _ _ _ _ hres hx
  | ifTable len pre i post hend hno hsplit hpre hvis ih =>
    rename_i c0 k0
    cases fuel with
    | zero => simp [getPublicMethodRecursive] at hres
    | succ f =>
      simp only [getPublicMethodRecursive] at hres
      cases hs : superClassMethodLoop rt name ps (f + 1) (some c0) t with
      | none => rw [hs] at hres; simp at hres
      | some x =>
        obtain ⟨xr, xt⟩ := x
        rw [hs] at hres
        cases xr with
        | some m =>
          exfalso
          obtain ⟨j, kj, hj, hp⟩ := superClassMethodLoop_some_chain rt name ps (f + 1) c0 t m xt hs
          rw [hno j kj hj] at hp
          exact absurd hp (by simp)
        | none =>
          simp only at hres
          rw [hsplit] at hres
          obtain ⟨s, hrest⟩ := ifTableMethodLoop_skip_returned
            (getPublicMethodRecursive rt name ps f) pre (i :: post)
            (fun j hj s q s1 hq => publicMethod_none_stable rt name ps j (hpre j hj) f s q s1 hq)
            xt (r, t1) hres
          simp only [ifTableMethodLoop] at hrest
          cases hi : getPublicMethodRecursive rt name ps f i s with
          | none => rw [hi] at hrest; simp at hrest
          | some y =>
            obtain ⟨yr, yt⟩ := y
            have hy := ih hf f s yr yt hi
            rw [hi] at hrest
            simp only at hrest
            split at hrest
            · simp only [Option.some.injEq, Prod.mk.injEq] at hrest
              rw [← hrest.2]; exact hy
            · exact ifTableMethodLoop_inv (fun s => s.IsExceptionPending = true) _
                (fun i s q s1 hq hp => getPublicMethodRecursive_inv rt name ps
                  (fun s => s.IsExceptionPending = true) (pending_mono rt ps) f i s q s1 hq hp)
                _ _ _ _ hrest hy

/-! ## C1 -/

/-- C1, as stated, fails: in `faultRuntime` resolving the parameter type of the
first candidate `m(T7)` faults; `equalMethodParameters` reports it as a plain
non-match, the scan goes on to the next candidate and both searches return
`m(T8)`, with the exception still pending. -/
theorem C1_search_continues_after_fault :
    equalMethodParameters faultRuntime methodUnresolved [some 1] noException =
        (false, { pending := some (Throwable.typeResolutionError 7) }) ∧
    getDeclaredMethodInternal faultRuntime 0 "m" [some 1] noException =
        (some methodResolved, { pending := some (Throwable.typeResolutionError 7) }) ∧
    getPublicMethodRecursive faultRuntime "m" [some 1] 1 0 noException =
        some (some methodResolved, { pending := some (Throwable.typeResolutionError 7) }) := by
  decide

/-- C1 (amended): for a query without null entry,
(1) a candidate whose parameter resolution faults (the thread is changed by
`equalMethodParameters`) is reported as a non-match and the exception is left
pending;
(2) a pending exception stays pending through the rest of the declared and of
the recursive search;
(3) when the search of `Class_getMethodNative` ends with an exception pending,
the call returns `nullptr` with an exception pending, whatever method the
search had selected;
(4) a candidate whose signature evaluation reaches a parameter type that does
not resolve (`faults`) is reported as a non-match and leaves an exception
pending, whatever the thread it is evaluated on;
(5) when the declared search on `c` evaluates such a candidate
(`declaredSearchFaults`), it ends with an exception pending and
`Class_getMethodNative` in declared mode returns `nullptr` with an exception
pending;
(6) when the public recursive search on `c` runs the per-class predicate on a
class `k` (`Visits`) whose declared search evaluates such a candidate, then,
whenever the search returns, it ends with an exception pending and
`Class_getMethodNative` in recursive mode returns `nullptr` with an exception
pending. -/
theorem C1_fault_left_pending (rt : Runtime) (fuel : Nat) (c : ClassPtr) (name : String)
    (ps : List (Option ClassPtr)) (recursive : Bool) (t : Thread)
    (hps : hasNullParameterType ps = false) :
    (∀ m, (equalMethodParameters rt m ps t).2 ≠ t →
      (equalMethodParameters rt m ps t).1 = false ∧
      (equalMethodParameters rt m ps t).2.IsExceptionPending = true) ∧
    (t.IsExceptionPending = true →
      (getDeclaredMethodInternal rt c name ps t).2.IsExceptionPending = true ∧
      ∀ r t1, getPublicMethodRecursive rt name ps fuel c t = some (r, t1) →
        t1.IsExceptionPending = true) ∧
    (∀ r t1,
      (if recursive then getPublicMethodRecursive rt name ps fuel c t
       else some (getDeclaredMethodInternal rt c name ps t)) = some (r, t1) →
      t1.IsExceptionPending = true →
      ∃ t2, Class_getMethodNative rt fuel c (some name) ps recursive t = some (none, t2) ∧
        t2.IsExceptionPending = true) ∧
    (∀ m, faults rt ps m = true →
      (equalMethodParameters rt m ps t).1 = false ∧
      (equalMethodParameters rt m ps t).2.IsExceptionPending = true) ∧
    (declaredSearchFaults rt c name ps →
      (getDeclaredMethodInternal rt c name ps t).2.IsExceptionPending = true ∧
      ∃ t2, Class_getMethodNative rt fuel c (some name) ps false t = some (none, t2) ∧
        t2.IsExceptionPending = true) ∧
    (∀ k, Visits rt name ps c k → declaredSearchFaults rt k name ps →
      ∀ r t1, getPublicMethodRecursive rt name ps fuel c t = some (r, t1) →
        t1.IsExceptionPending = true ∧
        ∃ t2, Class_getMethodNative rt fuel c (some name) ps true t = some (none, t2) ∧
          t2.IsExceptionPending = true) := by
  have hmono : ∀ m s, s.IsExceptionPending = true →
      (equalMethodParameters rt m ps s).2.IsExceptionPending = true :=
    fun m s hs => equalMethodParameters_pending rt m ps s hs
  have hentry : ∀ (flag : Bool) r t1,
      (if flag then getPublicMethodRecursive rt name ps fuel c t
       else some (getDeclaredMethodInternal rt c name ps t)) = some (r, t1) →
      t1.IsExceptionPending = true →
      ∃ t2, Class_getMethodNative rt fuel c (some name) ps flag t = some (none, t2) ∧
        t2.IsExceptionPending = true := by
    intro flag r t1 hs ht1
    cases r with
    | none => exact ⟨t1, Class_getMethodNative_none rt fuel c name ps flag t hps t1 hs, ht1⟩
    | some m =>
      refine ⟨rt.AllocObject t1, ?_, AllocObject_pending rt t1 ht1⟩
      rw [Class_getMethodNative_some rt fuel c name ps flag t hps m t1 hs]
      simp [AllocObject_pending rt t1 ht1]
  refine ⟨?_, ?_, hentry recursive, ?_, ?_, ?_⟩
  · intro m hm
    exact equalMethodParameters_fault rt m ps t (hasNullParameterType_false hps) hm
  · intro ht
    refine ⟨?_, ?_⟩
    · exact getDeclaredMethodInternal_inv rt c name ps (fun s => s.IsExceptionPending = true) t
        hmono ht
    · intro r t1 hr
      exact getPublicMethodRecursive_inv rt name ps (fun s => s.IsExceptionPending = true)
        hmono fuel c t r t1 hr ht
  · intro m hm
    exact ⟨faults_false rt ps m t (hasNullParameterType_false hps) hm,
      faults_pending rt ps m t hm⟩
  · intro hf
    have hd := getDeclaredMethodInternal_faults rt c name ps t hf
    exact ⟨hd, hentry false (getDeclaredMethodInternal rt c name ps t).1
      (getDeclaredMethodInternal rt c name ps t).2 (by simp) hd⟩
  · intro k hv hf r t1 hr
    have h1 := getPublicMethodRecursive_faults rt name ps c k hv hf fuel t r t1 hr
    exact ⟨h1, hentry true r t1 (by simpa using hr) h1⟩

/-- C1 (amended), at `faultRuntime` and `faultInterfaceRuntime`: the declared
search evaluates `m(T7)`, whose parameter type does not resolve, selects
`m(T8)` after it, and `Class_getMethodNative` returns `nullptr` with an
exception pending; the same happens in recursive mode when the faulting
candidate belongs to the second interface of the start class. -/
theorem C1_fault_left_pending_witness :
    hasNullParameterType [some 1] = false ∧
    (∃ t2, Class_getMethodNative faultRuntime 1 0 (some "m") [some 1] false noException =
        some (none, t2) ∧ t2.IsExceptionPending = true) ∧
    getPublicMethodRecursive faultInterfaceRuntime "m" [some 1] 2 0 noException =
      some (some interfaceMethodResolved, { pending := some (Throwable.typeResolutionError 7) }) ∧
    (∃ t2, Class_getMethodNative faultInterfaceRuntime 2 0 (some "m") [some 1] true
        noException = some (none, t2) ∧ t2.IsExceptionPending = true) :=
  ⟨by decide,
   ((C1_fault_left_pending faultRuntime 1 0 "m" [some 1] false noException
      (by decide)).2.2.2.2.1
      (Or.inl ⟨[], methodUnresolved, [methodResolved], by decide, by decide, by decide,
        by decide⟩)).2,
   by decide,
   ((C1_fault_left_pending faultInterfaceRuntime 2 0 "m" [some 1] true noException
      (by decide)).2.2.2.2.2 1
      (Visits.ifTable 1 [2] 1 [] (by decide)
        (fun j kj h => by
          rw [nthSuperClass_of_root faultInterfaceRuntime 0 (by decide) j kj h]
          decide)
        (by decide)
        (fun j hj => by
          rw [List.mem_singleton] at hj
          rw [hj]
          exact ⟨1, by decide⟩)
        (Visits.chain 0 (by decide) (fun j hj => absurd hj (Nat.not_lt_zero j))))
      (Or.inl ⟨[], interfaceMethodUnresolved, [interfaceMethodResolved], by decide, by decide,
        by decide, by decide⟩)
      (some interfaceMethodResolved) { pending := some (Throwable.typeResolutionError 7) }
      (by decide)).2⟩

/-! ## C2 -/

/-- C2, as stated, fails: the only method of `mirandaOnlyClass` matching `m()`
is a miranda virtual method, and the declared search returns `nullptr`. -/
theorem C2_miranda_only_not_found :
    (mirandaMethod ∈ ((uniformRuntime mirandaOnlyClass).heap 0).virtualMethods ∧
      matchesQuery (uniformRuntime mirandaOnlyClass) "m" [] mirandaMethod = true ∧
      mirandaMethod.isMiranda = true) ∧
    getDeclaredMethodInternal (uniformRuntime mirandaOnlyClass) 0 "m" [] noException =
      (none, noException) := by
  decide

/-- C2 (amended): when no virtual and no non-constructor direct method of `c`
that matches the query is both non-miranda and non-synthetic, then
(1) if some non-miranda synthetic virtual method or some non-constructor direct
method matches, `getDeclaredMethodInternal` returns such a method;
(2) if none does (every matching virtual method is miranda and no
non-constructor direct method matches), it returns `nullptr`. -/
theorem C2_fallback_candidate (rt : Runtime) (c : ClassPtr) (name : String)
    (ps : List (Option ClassPtr)) (t : Thread)
    (hv : ∀ m ∈ (rt.heap c).virtualMethods, genuineVirtual rt name ps m = false)
    (hd : ∀ m ∈ (rt.heap c).directMethods, genuineDirect rt name ps m = false) :
    (((∃ m ∈ (rt.heap c).virtualMethods, syntheticVirtual rt name ps m = true) ∨
      (∃ m ∈ (rt.heap c).directMethods, directCandidate rt name ps m = true)) →
      ∃ r, (getDeclaredMethodInternal rt c name ps t).1 = some r ∧
        ((r ∈ (rt.heap c).virtualMethods ∧ syntheticVirtual rt name ps r = true) ∨
         (r ∈ (rt.heap c).directMethods ∧ directCandidate rt name ps r = true))) ∧
    ((∀ m ∈ (rt.heap c).virtualMethods, syntheticVirtual rt name ps m = false) →
      (∀ m ∈ (rt.heap c).directMethods, directCandidate rt name ps m = false) →
      (getDeclaredMethodInternal rt c name ps t).1 = none) := by
  have hfv : (rt.heap c).virtualMethods.find? (genuineVirtual rt name ps) = none := by
    rw [List.find?_eq_none]
    intro m hm
    simp [hv m hm]
  have hfd : (rt.heap c).directMethods.find? (genuineDirect rt name ps) = none := by
    rw [List.find?_eq_none]
    intro m hm
    simp [hd m hm]
  have hres := getDeclaredMethodInternal_fst_eq rt c name ps t
  rw [hfv] at hres
  simp only at hres
  rw [hfd] at hres
  simp only at hres
  refine ⟨?_, ?_⟩
  · intro hex
    by_cases hdn : (rt.heap c).directMethods.filter (directCandidate rt name ps) = []
    · have hvn : (rt.heap c).virtualMethods.filter (syntheticVirtual rt name ps) ≠ [] := by
        rcases hex with ⟨m, hm, hs⟩ | ⟨m, hm, hs⟩
        · intro hnil
          have := List.filter_eq_nil_iff.mp hnil m hm
          exact this hs
        · exact absurd hs (List.filter_eq_nil_iff.mp hdn m hm)
      obtain ⟨x, hx, hlast⟩ := lastOr_of_ne_nil _ none hvn
      refine ⟨x, ?_, Or.inl ⟨(List.mem_filter.mp hx).1, (List.mem_filter.mp hx).2⟩⟩
      rw [hres, hdn, lastOr_nil, hlast]
    · obtain ⟨x, hx, hlast⟩ := lastOr_of_ne_nil _
        (lastOr ((rt.heap c).virtualMethods.filter (syntheticVirtual rt name ps)) none) hdn
      refine ⟨x, ?_, Or.inr ⟨(List.mem_filter.mp hx).1, (List.mem_filter.mp hx).2⟩⟩
      rw [hres, hlast]
  · intro hnv hnd
    have h1 : (rt.heap c).virtualMethods.filter (syntheticVirtual rt name ps) = [] := by
      rw [List.filter_eq_nil_iff]
      intro m hm
      simp [hnv m hm]
    have h2 : (rt.heap c).directMethods.filter (directCandidate rt name ps) = [] := by
      rw [List.filter_eq_nil_iff]
      intro m hm
      simp [hnd m hm]
    rw [hres, h1, h2]
    rfl

/-- C2 (amended), at `syntheticClass`: the synthetic method is returned although
a miranda method matches as well. -/
theorem C2_fallback_candidate_witness :
    ∃ r, (getDeclaredMethodInternal (uniformRuntime syntheticClass) 0 "m" [] noException).1 =
        some r ∧
      ((r ∈ ((uniformRuntime syntheticClass).heap 0).virtualMethods ∧
          syntheticVirtual (uniformRuntime syntheticClass) "m" [] r = true) ∨
       (r ∈ ((uniformRuntime syntheticClass).heap 0).directMethods ∧
          directCandidate (uniformRuntime syntheticClass) "m" [] r = true)) :=
  (C2_fallback_candidate (uniformRuntime syntheticClass) 0 "m" [] noException
    (by decide) (by decide)).1 (Or.inl ⟨syntheticMethod, by decide, by decide⟩)

/-! ## C3 -/

/-- C3, as stated, fails for `recursive = true`: the only method of
`hiddenOnlyClass` is a genuine virtual method `m()` that is not public; the
declared search returns it, the public recursive search returns `nullptr`. -/
theorem C3_recursive_skips_non_public :
    ((uniformRuntime hiddenOnlyClass).heap 0).virtualMethods.filter
        (genuineVirtual (uniformRuntime hiddenOnlyClass) "m" []) = [hiddenMethod] ∧
    Class_getMethodNative (uniformRuntime hiddenOnlyClass) 1 0 (some "m") [] false noException =
      some (some hiddenMethod, noException) ∧
    Class_getMethodNative (uniformRuntime hiddenOnlyClass) 1 0 (some "m") [] true noException =
      some (none, noException) := by
  decide

/-- C3 (amended): let every parameter type resolve, let the query have no null
entry and let `m` be the only virtual method of `c` that matches the query and
is neither miranda nor synthetic.  Then the declared search returns `m`; the
public recursive search returns `m` provided `m` is public; and
`Class_getMethodNative` returns `m` for `recursive = false`, and for
`recursive = true` when `m` is public (no exception pending on entry,
allocation of the `Method` object succeeding). -/
theorem C3_unique_genuine_virtual (rt : Runtime) (c : ClassPtr) (name : String)
    (ps : List (Option ClassPtr)) (t : Thread) (m : ArtMethod)
    (hres : ∀ x, resolvesAll rt x) (hps : hasNullParameterType ps = false)
    (huniq : (rt.heap c).virtualMethods.filter (genuineVirtual rt name ps) = [m]) :
    getDeclaredMethodInternal rt c name ps t = (some m, t) ∧
    (m.isPublic = true → ∀ fuel,
      getPublicMethodRecursive rt name ps (fuel + 1) c t = some (some m, t)) ∧
    (∀ fuel recursive, (recursive = true → m.isPublic = true) →
      t.IsExceptionPending = false → rt.allocObjectFails = false →
      Class_getMethodNative rt (fuel + 1) c (some name) ps recursive t = some (some m, t)) := by
  have hfst : (getDeclaredMethodInternal rt c name ps t).1 = some m := by
    rw [getDeclaredMethodInternal_fst_eq, find?_of_filter_singleton _ _ _ huniq]
  have hdecl : getDeclaredMethodInternal rt c name ps t = (some m, t) :=
    Prod.ext hfst (getDeclaredMethodInternal_snd rt c name ps t hres)
  have hrec : m.isPublic = true → ∀ fuel,
      getPublicMethodRecursive rt name ps (fuel + 1) c t = some (some m, t) := by
    intro hpub fuel
    rw [getPublicMethodRecursive_of_declared rt c name ps t fuel
      (by rw [hfst]; exact hpub), hdecl]
  refine ⟨hdecl, hrec, ?_⟩
  intro fuel recursive hpub ht halloc
  have hs : (if recursive then getPublicMethodRecursive rt name ps (fuel + 1) c t
      else some (getDeclaredMethodInternal rt c name ps t)) = some (some m, t) := by
    cases recursive with
    | false => simp [hdecl]
    | true => simp [hrec (hpub rfl) fuel]
  rw [Class_getMethodNative_some rt (fuel + 1) c name ps recursive t hps m t hs]
  simp [Runtime.AllocObject, halloc, ht]

/-- C3 (amended), at `plainClass`: the public genuine `m()` is returned in both
modes although a synthetic `m()` is declared before it. -/
theorem C3_unique_genuine_virtual_witness :
    Class_getMethodNative (uniformRuntime plainClass) 1 0 (some "m") [] false noException =
      some (some plainMethod, noException) ∧
    Class_getMethodNative (uniformRuntime plainClass) 1 0 (some "m") [] true noException =
      some (some plainMethod, noException) :=
  ⟨(C3_unique_genuine_virtual (uniformRuntime plainClass) 0 "m" [] noException plainMethod
      (uniformRuntime_resolvesAll plainClass) (by decide) (by decide)).2.2 0 false
      (by decide) (by decide) (by decide),
   (C3_unique_genuine_virtual (uniformRuntime plainClass) 0 "m" [] noException plainMethod
      (uniformRuntime_resolvesAll plainClass) (by decide) (by decide)).2.2 0 true
      (by decide) (by decide) (by decide)⟩

/-! ## C4 -/

/-- C4, as stated, fails for an absent name: with `javaName == nullptr` and a
null entry in the parameter array the call throws `NullPointerException`
("name == null"), not `NoSuchMethodException` ("parameter type is null"). -/
theorem C4_null_name_checked_first :
    Class_getMethodNative (uniformRuntime emptyClass) 1 0 none [none] false noException =
      some (none, { pending := some (Throwable.nullPointerException "name == null") }) := by
  decide

/-- C4 (amended): when the parameter array has a null entry then, for every
runtime, class, flag and fuel (fuel 0 included, so that no search is run),
`Class_getMethodNative` with a non-null name returns `nullptr` with
`NoSuchMethodException` ("parameter type is null") pending; with a null name it
returns `nullptr` with `NullPointerException` ("name == null") pending. -/
theorem C4_null_parameter_type (rt : Runtime) (fuel : Nat) (c : ClassPtr)
    (ps : List (Option ClassPtr)) (recursive : Bool) (t : Thread) (hnull : none ∈ ps) :
    (∀ name, Class_getMethodNative rt fuel c (some name) ps recursive t =
      some (none, { pending := some (Throwable.noSuchMethodException "parameter type is null") })) ∧
    Class_getMethodNative rt fuel c none ps recursive t =
      some (none, { pending := some (Throwable.nullPointerException "name == null") }) := by
  refine ⟨?_, rfl⟩
  intro name
  unfold Class_getMethodNative
  simp only [hasNullParameterType_true hnull, if_true]
  rfl

/-- C4 (amended), at the query `[class 1, null]` without any fuel. -/
theorem C4_null_parameter_type_witness :
    none ∈ [some 1, (none : Option ClassPtr)] ∧
    Class_getMethodNative (uniformRuntime plainClass) 0 0 (some "m") [some 1, none] true
      noException =
      some (none, { pending := some (Throwable.noSuchMethodException "parameter type is null") }) :=
  ⟨by decide,
   (C4_null_parameter_type (uniformRuntime plainClass) 0 0 [some 1, none] true noException
      (by decide)).1 "m"⟩

/-! ## C5 -/

/-- C5, as stated, fails: in `shadowedFieldRuntime` the superclass (class 1)
declares a non-public field `x` and the grandparent (class 2) a public field
`x`, the leaf (class 0) declares no field; but class 1 also declares a public
instance field `x`, which the per-class scan finds first, and the search
returns that field of class 1. -/
theorem C5_first_field_of_superclass_wins :
    ((shadowedFieldRuntime.heap 0).superClass = some 1 ∧
      (shadowedFieldRuntime.heap 1).superClass = some 2 ∧
      fieldsNamed shadowedFieldRuntime 0 "x" = [] ∧
      (fieldHiddenA ∈ (shadowedFieldRuntime.heap 1).staticFields ∧
        fieldHiddenA.name = "x" ∧ fieldHiddenA.isPublic = false) ∧
      (fieldPublicB ∈ (shadowedFieldRuntime.heap 2).instanceFields ∧
        fieldPublicB.name = "x" ∧ fieldPublicB.isPublic = true)) ∧
    getPublicFieldRecursive shadowedFieldRuntime "x" 3 0 = some (some fieldPublicA) ∧
    fieldPublicA ≠ fieldPublicB := by
  decide

/-- C5 (amended): let the leaf declare no field named `name`, let the
per-class look-up in its superclass `a` select a non-public field and the
per-class look-up in the grandparent `b` select a public field `fb`.  Then
`getPublicFieldRecursive` on the leaf returns `fb`, for every fuel of at
least 3. -/
theorem C5_skips_non_public_superclass_field (rt : Runtime) (leaf a b : ClassPtr)
    (name : String) (fa fb : ArtField)
    (hleaf : ∀ g ∈ (rt.heap leaf).instanceFields ++ (rt.heap leaf).staticFields, g.name ≠ name)
    (hsa : (rt.heap leaf).superClass = some a) (hsb : (rt.heap a).superClass = some b)
    (hfa : getDeclaredFieldInternal rt a name = some fa) (hna : fa.isPublic = false)
    (hfb : getDeclaredFieldInternal rt b name = some fb) (hpb : fb.isPublic = true) :
    ∀ fuel, 3 ≤ fuel → getPublicFieldRecursive rt name fuel leaf = some (some fb) := by
  intro fuel hfuel
  obtain ⟨n, rfl⟩ : ∃ n, fuel = n + 3 := ⟨fuel - 3, by omega⟩
  apply getPublicFieldRecursive_of_super
  rw [superClassFieldLoop_skip rt name (n + 2) leaf
        (by rw [getDeclaredFieldInternal_none rt leaf name hleaf]; rfl), hsa,
      superClassFieldLoop_skip rt name (n + 1) a (by rw [hfa]; exact hna), hsb,
      superClassFieldLoop_hit rt name n b (by rw [hfb]; exact hpb), hfb]

/-- C5 (amended), at `hiddenFieldRuntime`. -/
theorem C5_skips_non_public_superclass_field_witness :
    getPublicFieldRecursive hiddenFieldRuntime "x" 3 0 = some (some fieldPublicB) :=
  C5_skips_non_public_superclass_field hiddenFieldRuntime 0 1 2 "x" fieldHiddenA fieldPublicB
    (by decide) (by decide) (by decide) (by decide) (by decide) (by decide) (by decide)
    3 (by decide)

/-! ## C6 -/

/-- C6: if `s` declares no field named `name` and its direct superclass `a`
declares exactly one field named `name`, a public one, then the declared look-up
on `s` returns `nullptr` and the public recursive look-up on `s` returns that
field of `a` (for every fuel of at least 2). -/
theorem C6_declared_ignores_superclass (rt : Runtime) (s a : ClassPtr) (name : String)
    (f : ArtField) (hs : fieldsNamed rt s name = [])
    (hsup : (rt.heap s).superClass = some a) (hone : fieldsNamed rt a name = [f])
    (hpub : f.isPublic = true) :
    getDeclaredFieldInternal rt s name = none ∧
    ∀ fuel, 2 ≤ fuel → getPublicFieldRecursive rt name fuel s = some (some f) := by
  have hnone : getDeclaredFieldInternal rt s name = none := by
    rw [getDeclaredFieldInternal_eq_find?, List.find?_eq_none]
    intro g hg
    exact List.filter_eq_nil_iff.mp hs g hg
  have hfound : getDeclaredFieldInternal rt a name = some f := by
    rw [getDeclaredFieldInternal_eq_find?]
    exact find?_of_filter_singleton _ _ _ hone
  refine ⟨hnone, ?_⟩
  intro fuel hfuel
  obtain ⟨n, rfl⟩ : ∃ n, fuel = n + 2 := ⟨fuel - 2, by omega⟩
  apply getPublicFieldRecursive_of_super
  rw [superClassFieldLoop_skip rt name (n + 1) s (by rw [hnone]; rfl), hsup,
      superClassFieldLoop_hit rt name n a (by rw [hfound]; exact hpub), hfound]

/-- C6, at `inheritedFieldRuntime`. -/
theorem C6_declared_ignores_superclass_witness :
    getDeclaredFieldInternal inheritedFieldRuntime 0 "x" = none ∧
    getPublicFieldRecursive inheritedFieldRuntime "x" 2 0 = some (some fieldPublicA) :=
  ⟨(C6_declared_ignores_superclass inheritedFieldRuntime 0 1 "x" fieldPublicA
      (by decide) (by decide) (by decide) (by decide)).1,
   (C6_declared_ignores_superclass inheritedFieldRuntime 0 1 "x" fieldPublicA
      (by decide) (by decide) (by decide) (by decide)).2 2 (by decide)⟩

/-! ## C7 -/

/-- C7: if some class of the superclass chain of `c` (`c` included) has a
public per-class match for the query, then there is a most-derived such class
`k` (the `n`-th of the chain, no class before it having a public per-class
match), its per-class match `r` is a public method declared by `k`, and
`getPublicMethodRecursive` on `c` returns `r` for every fuel above `n`, whatever
the interface table of `c` holds. -/
theorem C7_superclass_chain_before_interfaces (rt : Runtime) (c : ClassPtr) (name : String)
    (ps : List (Option ClassPtr))
    (h : ∃ n k, nthSuperClass rt n c = some k ∧
      isPublicMethod (declaredMethod rt k name ps) = true) :
    ∃ n k r, nthSuperClass rt n c = some k ∧ declaredMethod rt k name ps = some r ∧
      r.isPublic = true ∧
      (r ∈ (rt.heap k).virtualMethods ∨ r ∈ (rt.heap k).directMethods) ∧
      (∀ j, j < n → ∀ kj, nthSuperClass rt j c = some kj →
        isPublicMethod (declaredMethod rt kj name ps) = false) ∧
      (∀ fuel t, n < fuel →
        ∃ t1, getPublicMethodRecursive rt name ps fuel c t = some (some r, t1)) := by
  classical
  have hex : ∃ n, ∃ k, nthSuperClass rt n c = some k ∧
      isPublicMethod (declaredMethod rt k name ps) = true := h
  obtain ⟨k, hk, hpub⟩ := Nat.find_spec hex
  have hmin : ∀ j, j < Nat.find hex → ∀ kj, nthSuperClass rt j c = some kj →
      isPublicMethod (declaredMethod rt kj name ps) = false := by
    intro j hj kj hkj
    have := Nat.find_min hex hj
    rcases Bool.eq_false_or_eq_true (isPublicMethod (declaredMethod rt kj name ps)) with hp | hp
    · exact absurd ⟨kj, hkj, hp⟩ this
    · exact hp
  cases hr : declaredMethod rt k name ps with
  | none => rw [hr] at hpub; simp [isPublicMethod] at hpub
  | some r =>
    have hrp : r.isPublic = true := by rw [hr] at hpub; exact hpub
    have hmem : r ∈ (rt.heap k).virtualMethods ∨ r ∈ (rt.heap k).directMethods := by
      rcases declaredMethod_sound rt k name ps ⟨none⟩ r hr with h1 | h1
      · exact Or.inl h1.1
      · exact Or.inr h1.1
    refine ⟨Nat.find hex, k, r, hk, hr, hrp, hmem, hmin, ?_⟩
    intro fuel t hfuel
    obtain ⟨f, rfl⟩ : ∃ f, fuel = f + 1 := ⟨fuel - 1, by omega⟩
    obtain ⟨t1, h1⟩ := superClassMethodLoop_hit rt name ps (Nat.find hex) c k t (f + 1) hfuel
      hk hpub hmin
    refine ⟨t1, ?_⟩
    simp only [getPublicMethodRecursive, h1, hr]

/-- C7, at `defaultMethodRuntime`: class 0 inherits `m()` from class 1 and
implements interface 2 that declares `m()` too. -/
theorem C7_superclass_chain_before_interfaces_witness :
    (∃ n k r, nthSuperClass defaultMethodRuntime n 0 = some k ∧
      declaredMethod defaultMethodRuntime k "m" [] = some r ∧
      r.isPublic = true ∧
      (r ∈ (defaultMethodRuntime.heap k).virtualMethods ∨
        r ∈ (defaultMethodRuntime.heap k).directMethods) ∧
      (∀ j, j < n → ∀ kj, nthSuperClass defaultMethodRuntime j 0 = some kj →
        isPublicMethod (declaredMethod defaultMethodRuntime kj "m" []) = false) ∧
      (∀ fuel t, n < fuel →
        ∃ t1, getPublicMethodRecursive defaultMethodRuntime "m" [] fuel 0 t =
          some (some r, t1))) ∧
    getPublicMethodRecursive defaultMethodRuntime "m" [] 2 0 noException =
      some (some superMethod, noException) ∧
    declaredMethod defaultMethodRuntime 2 "m" [] = some interfaceMethod :=
  ⟨C7_superclass_chain_before_interfaces defaultMethodRuntime 0 "m" []
      ⟨1, 1, by decide, by decide⟩,
   by decide, by decide⟩

/-! ## C8 -/

/-- C8: `getDeclaredFieldInternal` returns
(1) the first instance field named `name`, if there is one;
(2) otherwise the first static field named `name`, if there is one;
(3) otherwise `nullptr`.
"First" is spelled out: the array splits as `pre ++ f :: post` with no field
named `name` in `pre`. -/
theorem C8_instance_fields_before_static (rt : Runtime) (c : ClassPtr) (name : String) :
    (∀ pre f post, (rt.heap c).instanceFields = pre ++ f :: post → f.name = name →
      (∀ g ∈ pre, g.name ≠ name) → getDeclaredFieldInternal rt c name = some f) ∧
    ((∀ g ∈ (rt.heap c).instanceFields, g.name ≠ name) →
      ∀ pre f post, (rt.heap c).staticFields = pre ++ f :: post → f.name = name →
        (∀ g ∈ pre, g.name ≠ name) → getDeclaredFieldInternal rt c name = some f) ∧
    ((∀ g ∈ (rt.heap c).instanceFields, g.name ≠ name) →
      (∀ g ∈ (rt.heap c).staticFields, g.name ≠ name) →
      getDeclaredFieldInternal rt c name = none) := by
  have hfirst : ∀ (l pre : List ArtField) (f : ArtField) (post : List ArtField),
      l = pre ++ f :: post → f.name = name → (∀ g ∈ pre, g.name ≠ name) →
      fieldLoop name l = some f := by
    intro l pre f post hl hf hpre
    rw [fieldLoop_eq_find?, List.find?_eq_some]
    refine ⟨by simpa using hf, pre, post, hl, ?_⟩
    intro g hg
    simpa using hpre g hg
  have hnone : ∀ l : List ArtField, (∀ g ∈ l, g.name ≠ name) → fieldLoop name l = none := by
    intro l hl
    rw [fieldLoop_eq_find?, List.find?_eq_none]
    intro g hg
    simpa using hl g hg
  refine ⟨?_, ?_, ?_⟩
  · intro pre f post hl hf hpre
    unfold getDeclaredFieldInternal
    rw [hfirst _ pre f post hl hf hpre]
  · intro hi pre f post hl hf hpre
    unfold getDeclaredFieldInternal
    rw [hnone _ hi, hfirst _ pre f post hl hf hpre]
  · intro hi hs
    unfold getDeclaredFieldInternal
    rw [hnone _ hi, hnone _ hs]

/-- C8, at `twoFieldsRuntime`: class 0 has an instance field and a static field
named `x`; the instance field is returned. -/
theorem C8_instance_fields_before_static_witness :
    getDeclaredFieldInternal twoFieldsRuntime 0 "x" = some fieldInstance ∧
    fieldStatic ∈ (twoFieldsRuntime.heap 0).staticFields :=
  ⟨(C8_instance_fields_before_static twoFieldsRuntime 0 "x").1 [fieldOther] fieldInstance []
      (by decide) (by decide) (by decide),
   by decide⟩

/-! ## C9 -/

/-- C9: for a method `m` whose declared parameter types all resolve and any
query list `ps` (in particular one without null entry),
`equalMethodParameters` answers `true` exactly when the declared parameter list
of `m` (empty when `m` has no parameter-type list) is as long as `ps` and, at
every position, the resolved declared type is the query type of that position;
the call leaves the thread unchanged. -/
theorem C9_signature_equality (rt : Runtime) (m : ArtMethod) (ps : List (Option ClassPtr))
    (t : Thread) (hres : resolvesAll rt m) :
    ((equalMethodParameters rt m ps t).1 = true ↔
      ((m.parameterTypeList.getD []).length = ps.length ∧
        ∀ (i idx : Nat) (p : Option ClassPtr), (m.parameterTypeList.getD [])[i]? = some idx → ps[i]? = some p →
          (resolveParamType rt m idx t).1 = p)) ∧
    (equalMethodParameters rt m ps t).2 = t := by
  refine ⟨?_, equalMethodParameters_snd rt m ps t hres⟩
  unfold equalMethodParameters
  cases hp : m.parameterTypeList with
  | none =>
    simp only [Option.getD_none, List.length_nil, beq_iff_eq]
    constructor
    · intro h
      exact ⟨h.symm, by intro i idx p hi; simp at hi⟩
    · intro h; exact h.1.symm
  | some is =>
    simp only [Option.getD_some]
    by_cases hc : (is.length != ps.length) = true
    · simp only [hc, if_true]
      constructor
      · intro hf; exact absurd hf (by simp)
      · intro h
        simp [h.1] at hc
    · simp only [hc, Bool.false_eq_true, if_false]
      have hlen : is.length = ps.length := by simpa using hc
      rw [equalMethodParametersLoop_true_iff rt m is ps t hlen]
      constructor
      · intro h; exact ⟨hlen, h⟩
      · intro h; exact h.2

/-- C9, at `twoParamMethod` with the query `[class 30, class 4]`. -/
theorem C9_signature_equality_witness :
    resolvesAll (uniformRuntime twoParamClass) twoParamMethod ∧
    (equalMethodParameters (uniformRuntime twoParamClass) twoParamMethod [some 30, some 4]
        noException).1 = true ∧
    ((twoParamMethod.parameterTypeList.getD []).length = [some 30, some 4].length ∧
      ∀ (i idx : Nat) (p : Option ClassPtr), (twoParamMethod.parameterTypeList.getD [])[i]? = some idx →
        ([some 30, some 4] : List (Option ClassPtr))[i]? = some p →
        (resolveParamType (uniformRuntime twoParamClass) twoParamMethod idx noException).1 = p) :=
  ⟨uniformRuntime_resolvesAll twoParamClass twoParamMethod, by decide,
   (C9_signature_equality (uniformRuntime twoParamClass) twoParamMethod [some 30, some 4]
      noException (uniformRuntime_resolvesAll twoParamClass twoParamMethod)).1.mp (by decide)⟩

/-! ## C10 -/

/-- C10: with an empty query list `equalMethodParameters` answers `true`
exactly when the method has no parameter-type list or an empty one; hence
whatever method the declared search, the public recursive search or
`Class_getMethodNative` returns for an empty query list declares no
parameter. -/
theorem C10_zero_parameter_query (rt : Runtime) (t : Thread) :
    (∀ m, (equalMethodParameters rt m [] t).1 = true ↔
      (m.parameterTypeList = none ∨ m.parameterTypeList = some [])) ∧
    (∀ c name r, (getDeclaredMethodInternal rt c name [] t).1 = some r →
      (r.parameterTypeList.getD []).length = 0) ∧
    (∀ fuel c name r t1, getPublicMethodRecursive rt name [] fuel c t = some (some r, t1) →
      (r.parameterTypeList.getD []).length = 0) ∧
    (∀ fuel c name recursive r t1,
      Class_getMethodNative rt fuel c (some name) [] recursive t = some (some r, t1) →
      (r.parameterTypeList.getD []).length = 0) := by
  have hdecl : ∀ c name r, (getDeclaredMethodInternal rt c name [] t).1 = some r →
      (r.parameterTypeList.getD []).length = 0 := by
    intro c name r h
    rw [getDeclaredMethodInternal_fst] at h
    exact declaredMethod_nil_params rt c name r h
  have hrec : ∀ fuel c name r t1,
      getPublicMethodRecursive rt name [] fuel c t = some (some r, t1) →
      (r.parameterTypeList.getD []).length = 0 := by
    intro fuel c name r t1 h
    obtain ⟨k, hk, _⟩ := getPublicMethodRecursive_sound rt name [] fuel c t r t1 h
    exact declaredMethod_nil_params rt k name r hk
  refine ⟨?_, hdecl, hrec, ?_⟩
  · intro m
    rw [equalMethodParameters_fst]
    exact signatureEqual_nil_iff rt m
  · intro fuel c name recursive r t1 h
    obtain ⟨t0, h0⟩ := Class_getMethodNative_sound rt fuel c name [] recursive t r t1 h
    cases recursive with
    | true => exact hrec fuel c name r t0 (by simpa using h0)
    | false =>
      apply hdecl c name r
      simp only [Bool.false_eq_true, if_false, Option.some.injEq] at h0
      rw [h0]

/-- C10, at `twoParamClass`: `f(T3, T4)` does not match the empty query and the
call for `f()` returns `nullptr`; at `plainClass`, `m()` is returned and has no
parameter. -/
theorem C10_zero_parameter_query_witness :
    (equalMethodParameters (uniformRuntime twoParamClass) twoParamMethod [] noException).1 = false ∧
    Class_getMethodNative (uniformRuntime twoParamClass) 1 0 (some "f") [] false noException =
      some (none, noException) ∧
    (plainMethod.parameterTypeList.getD []).length = 0 :=
  ⟨by decide, by decide,
   (C10_zero_parameter_query (uniformRuntime plainClass) noException).2.2.2 1 0 "m" true
      plainMethod noException (by decide)⟩

/-! ## C11 -/

/-- C11: if no class reachable from `c` (through superclass links and
interface-table entries, `c` included) declares an instance or static field
named `name`, then `getPublicFieldRecursive` never returns a field, whatever
the fuel, and on a class graph with finite superclass chains and a well-founded
interface-table relation it returns `nullptr` for every sufficiently large
fuel. -/
theorem C11_absent_field_not_found (rt : Runtime) (c : ClassPtr) (name : String)
    (habs : ∀ k, Reachable rt c k →
      ∀ g ∈ (rt.heap k).instanceFields ++ (rt.heap k).staticFields, g.name ≠ name) :
    (∀ fuel f, getPublicFieldRecursive rt name fuel c ≠ some (some f)) ∧
    (WellFounded (isSuperClassOf rt) → WellFounded (isInterfaceOf rt) →
      ∃ n, ∀ fuel, n ≤ fuel → getPublicFieldRecursive rt name fuel c = some none) := by
  have hnever : ∀ fuel f, getPublicFieldRecursive rt name fuel c ≠ some (some f) := by
    intro fuel f hres
    obtain ⟨k, hk, hd, _⟩ := getPublicFieldRecursive_sound rt name fuel c f hres
    obtain ⟨hname, hmem⟩ := getDeclaredFieldInternal_sound rt k name f hd
    exact habs k hk f hmem hname
  refine ⟨hnever, ?_⟩
  intro hs hi
  obtain ⟨n, hn⟩ := getPublicFieldRecursive_terminates rt name hs hi c
  refine ⟨n, ?_⟩
  intro fuel hf
  obtain ⟨r, hr⟩ := hn fuel hf
  cases r with
  | none => exact hr
  | some f => exact absurd hr (hnever fuel f)

/-- C11, at `hiddenFieldRuntime` with the name `z`, which no class declares. -/
theorem C11_absent_field_not_found_witness :
    (∃ n, ∀ fuel, n ≤ fuel → getPublicFieldRecursive hiddenFieldRuntime "z" fuel 0 = some none) ∧
    getPublicFieldRecursive hiddenFieldRuntime "z" 3 0 = some none :=
  ⟨(C11_absent_field_not_found hiddenFieldRuntime 0 "z"
      (fun k _ g hg hz => by
        have hx := hiddenFieldRuntime_fields k g hg
        rw [hx] at hz
        exact absurd hz (by decide))).2
      hiddenFieldRuntime_super_wf hiddenFieldRuntime_iface_wf,
   by decide⟩

/-! ## C12 -/

/-- C12: every method returned by `getPublicMethodRecursive` and every field
returned by `getPublicFieldRecursive`, for any start class, thread and fuel
(hence at any recursion depth), has its public flag set. -/
theorem C12_recursive_result_is_public (rt : Runtime) (name : String)
    (ps : List (Option ClassPtr)) :
    (∀ fuel c t r t1, getPublicMethodRecursive rt name ps fuel c t = some (some r, t1) →
      r.isPublic = true) ∧
    (∀ fuel c f, getPublicFieldRecursive rt name fuel c = some (some f) → f.isPublic = true) := by
  refine ⟨?_, ?_⟩
  · intro fuel c t r t1 h
    obtain ⟨_, _, hp⟩ := getPublicMethodRecursive_sound rt name ps fuel c t r t1 h
    exact hp
  · intro fuel c f h
    obtain ⟨_, _, _, hp⟩ := getPublicFieldRecursive_sound rt name fuel c f h
    exact hp

/-- C12, at `interfaceFieldRuntime` and `defaultMethodRuntime`: the field found
through the interface table and the inherited method are public. -/
theorem C12_recursive_result_is_public_witness :
    getPublicFieldRecursive interfaceFieldRuntime "x" 2 0 = some (some fieldPublicA) ∧
    fieldPublicA.isPublic = true ∧ superMethod.isPublic = true :=
  ⟨by decide,
   (C12_recursive_result_is_public interfaceFieldRuntime "x" []).2 2 0 fieldPublicA (by decide),
   (C12_recursive_result_is_public defaultMethodRuntime "m" []).1 2 0 noException superMethod
      noException (by decide)⟩

/-! ## C13 -/

/-- C13: a method `m` flagged as a constructor that is a direct method only
(it is not in the virtual method array of the classes concerned) is never
returned: not by the declared search on `c`, not by the public recursive search
and not by `Class_getMethodNative` in either mode.  In particular, when every
method of `c` that matches the query is a direct method flagged as a
constructor, the declared search returns `nullptr`. -/
theorem C13_constructor_never_returned (rt : Runtime) (name : String)
    (ps : List (Option ClassPtr)) (t : Thread) (c : ClassPtr) :
    (∀ m, m.isConstructor = true → m ∉ (rt.heap c).virtualMethods →
      (getDeclaredMethodInternal rt c name ps t).1 ≠ some m) ∧
    (∀ m, m.isConstructor = true → (∀ k, Reachable rt c k → m ∉ (rt.heap k).virtualMethods) →
      ∀ fuel t1, getPublicMethodRecursive rt name ps fuel c t ≠ some (some m, t1)) ∧
    (∀ m, m.isConstructor = true → (∀ k, Reachable rt c k → m ∉ (rt.heap k).virtualMethods) →
      ∀ fuel recursive t1,
        Class_getMethodNative rt fuel c (some name) ps recursive t ≠ some (some m, t1)) ∧
    ((∀ x ∈ (rt.heap c).virtualMethods, matchesQuery rt name ps x = false) →
      (∀ x ∈ (rt.heap c).directMethods, matchesQuery rt name ps x = true →
        x.isConstructor = true) →
      (getDeclaredMethodInternal rt c name ps t).1 = none) := by
  have hdecl : ∀ k m, m.isConstructor = true → m ∉ (rt.heap k).virtualMethods →
      ∀ s, (getDeclaredMethodInternal rt k name ps s).1 ≠ some m := by
    intro k m hc hv s hres
    rcases declaredMethod_sound rt k name ps s m hres with h1 | h1
    · exact hv h1.1
    · rw [hc] at h1; exact absurd h1.2.2 (by simp)
  have hrec : ∀ m, m.isConstructor = true →
      (∀ k, Reachable rt c k → m ∉ (rt.heap k).virtualMethods) →
      ∀ fuel t1, getPublicMethodRecursive rt name ps fuel c t ≠ some (some m, t1) := by
    intro m hc hv fuel t1 hres
    obtain ⟨k, hk, hd, _⟩ := getPublicMethodRecursive_reachable rt name ps fuel c t m t1 hres
    exact hdecl k m hc (hv k hk) ⟨none⟩ hd
  refine ⟨fun m hc hv => hdecl c m hc hv t, hrec, ?_, ?_⟩
  · intro m hc hv fuel recursive t1 hres
    obtain ⟨t0, h0⟩ := Class_getMethodNative_sound rt fuel c name ps recursive t m t1 hres
    cases recursive with
    | true => exact hrec m hc hv fuel t0 (by simpa using h0)
    | false =>
      simp only [Bool.false_eq_true, if_false, Option.some.injEq] at h0
      exact hdecl c m hc (hv c Reachable.refl) t (by rw [h0])
  · intro hv hd
    cases hres : (getDeclaredMethodInternal rt c name ps t).1 with
    | none => rfl
    | some r =>
      rcases declaredMethod_sound rt c name ps t r hres with h1 | h1
      · rw [hv r h1.1] at h1; exact absurd h1.2.1 (by simp)
      · rw [hd r h1.1 h1.2.1] at h1; exact absurd h1.2.2 (by simp)

/-- C13, at `constructorOnlyClass`: the constructor is the only method that
matches `m()`, and both modes return `nullptr`. -/
theorem C13_constructor_never_returned_witness :
    matchesQuery (uniformRuntime constructorOnlyClass) "m" [] constructorMethod = true ∧
    (getDeclaredMethodInternal (uniformRuntime constructorOnlyClass) 0 "m" [] noException).1 =
      none ∧
    Class_getMethodNative (uniformRuntime constructorOnlyClass) 1 0 (some "m") [] true
      noException = some (none, noException) :=
  ⟨by decide,
   (C13_constructor_never_returned (uniformRuntime constructorOnlyClass) "m" [] noException
      0).2.2.2 (by decide) (by decide),
   by decide⟩

/-! ## C14 -/

/-- C14: if `m` is the first virtual method of `c` (in declaration order) that
matches the query and is neither miranda nor synthetic, then
`getDeclaredMethodInternal` returns `m`, whatever virtual methods precede it
and whatever the direct methods are. -/
theorem C14_first_genuine_virtual (rt : Runtime) (c : ClassPtr) (name : String)
    (ps : List (Option ClassPtr)) (t : Thread) (pre : List ArtMethod) (m : ArtMethod)
    (post : List ArtMethod) (hsplit : (rt.heap c).virtualMethods = pre ++ m :: post)
    (hm : genuineVirtual rt name ps m = true)
    (hpre : ∀ x ∈ pre, genuineVirtual rt name ps x = false) :
    (getDeclaredMethodInternal rt c name ps t).1 = some m := by
  rw [getDeclaredMethodInternal_fst_eq, find?_of_first _ _ pre m post hsplit hm hpre]

/-- C14, at `crowdedClass`: the non-public genuine `m()` is returned although a
miranda and a synthetic `m()` precede it and a direct `m()` matches too. -/
theorem C14_first_genuine_virtual_witness :
    (getDeclaredMethodInternal (uniformRuntime crowdedClass) 0 "m" [] noException).1 =
      some hiddenMethod :=
  C14_first_genuine_virtual (uniformRuntime crowdedClass) 0 "m" [] noException
    [mirandaMethod, syntheticMethod] hiddenMethod [plainMethod] (by decide) (by decide)
    (by decide)

/-! ## C15 -/

/-- C15: let no virtual method of `c` that matches the query be both
non-miranda and non-synthetic.  Then
(1) if `m` is the first non-constructor direct method that matches and is
neither miranda nor synthetic, `getDeclaredMethodInternal` returns `m`;
(2) otherwise (no such direct method), if `m` is the last non-constructor
direct method that matches, it returns `m`;
(3) otherwise (no non-constructor direct method matches), if `m` is the last
matching virtual method that is synthetic and not miranda, it returns `m`, and
if there is no such virtual method it returns `nullptr`. -/
theorem C15_fallback_order (rt : Runtime) (c : ClassPtr) (name : String)
    (ps : List (Option ClassPtr)) (t : Thread)
    (hv : ∀ x ∈ (rt.heap c).virtualMethods, genuineVirtual rt name ps x = false) :
    (∀ pre m post, (rt.heap c).directMethods = pre ++ m :: post →
      genuineDirect rt name ps m = true → (∀ x ∈ pre, genuineDirect rt name ps x = false) →
      (getDeclaredMethodInternal rt c name ps t).1 = some m) ∧
    ((∀ x ∈ (rt.heap c).directMethods, genuineDirect rt name ps x = false) →
      ∀ pre m post, (rt.heap c).directMethods = pre ++ m :: post →
        directCandidate rt name ps m = true →
        (∀ x ∈ post, directCandidate rt name ps x = false) →
        (getDeclaredMethodInternal rt c name ps t).1 = some m) ∧
    ((∀ x ∈ (rt.heap c).directMethods, directCandidate rt name ps x = false) →
      (∀ pre m post, (rt.heap c).virtualMethods = pre ++ m :: post →
        syntheticVirtual rt name ps m = true →
        (∀ x ∈ post, syntheticVirtual rt name ps x = false) →
        (getDeclaredMethodInternal rt c name ps t).1 = some m) ∧
      ((∀ x ∈ (rt.heap c).virtualMethods, syntheticVirtual rt name ps x = false) →
        (getDeclaredMethodInternal rt c name ps t).1 = none)) := by
  have hres := getDeclaredMethodInternal_fst_eq rt c name ps t
  rw [find?_none_of_all_false _ _ hv] at hres
  simp only at hres
  refine ⟨?_, ?_, ?_⟩
  · intro pre m post hsplit hm hpre
    rw [hres, find?_of_first _ _ pre m post hsplit hm hpre]
  · intro hd pre m post hsplit hm hpost
    rw [hres, find?_none_of_all_false _ _ hd]
    exact lastOr_filter_of_last _ _ pre m post _ hsplit hm hpost
  · intro hd
    have hgd : ∀ x ∈ (rt.heap c).directMethods, genuineDirect rt name ps x = false := by
      intro x hx
      simp [genuineDirect, hd x hx]
    rw [find?_none_of_all_false _ _ hgd, filter_nil_of_all_false _ _ hd, lastOr_nil] at hres
    refine ⟨?_, ?_⟩
    · intro pre m post hsplit hm hpost
      rw [hres]
      exact lastOr_filter_of_last _ _ pre m post _ hsplit hm hpost
    · intro hs
      rw [hres, filter_nil_of_all_false _ _ hs, lastOr_nil]

/-- C15, at `syntheticDirectClass`: the last synthetic direct `m()` replaces
the synthetic virtual `m()` and the synthetic direct `m()` before it; the
constructor after it is skipped. -/
theorem C15_fallback_order_witness :
    (getDeclaredMethodInternal (uniformRuntime syntheticDirectClass) 0 "m" [] noException).1 =
      some syntheticMethodB :=
  (C15_fallback_order (uniformRuntime syntheticDirectClass) 0 "m" [] noException
      (by decide)).2.1 (by decide) [syntheticMethod] syntheticMethodB [constructorMethod]
    (by decide) (by decide) (by decide)

/-! ## C16 -/

/-- C16: let the superclass chain of `c` be finite (it ends after `len`
classes, `len ≤ fuel + 1`) and let no class of it yield a public per-class
match.  Then the public recursive search on `c` is decided by the interface
table of `c` alone:
(1) if `i` is an entry of that table whose own recursive search returns a
member, and the recursive search of every entry before `i` returns `nullptr`,
the search on `c` returns the member found for `i`;
(2) if the recursive search of every entry returns `nullptr`, so does the
search on `c`.
This holds for `getPublicFieldRecursive` and for `getPublicMethodRecursive`
(whose results are read through `publicMethod`). -/
theorem C16_first_interface_match (rt : Runtime) (c : ClassPtr) (name : String)
    (ps : List (Option ClassPtr)) (len fuel : Nat) (hfuel : len ≤ fuel + 1)
    (hend : nthSuperClass rt len c = none) :
    ((∀ j k, nthSuperClass rt j c = some k →
        isPublicField (getDeclaredFieldInternal rt k name) = false) →
      (∀ pre i post f, (rt.heap c).ifTable = pre ++ i :: post →
        (∀ j ∈ pre, getPublicFieldRecursive rt name fuel j = some none) →
        getPublicFieldRecursive rt name fuel i = some (some f) →
        getPublicFieldRecursive rt name (fuel + 1) c = some (some f)) ∧
      ((∀ j ∈ (rt.heap c).ifTable, getPublicFieldRecursive rt name fuel j = some none) →
        getPublicFieldRecursive rt name (fuel + 1) c = some none)) ∧
    ((∀ j k, nthSuperClass rt j c = some k →
        isPublicMethod (declaredMethod rt k name ps) = false) →
      (∀ pre i post m, (rt.heap c).ifTable = pre ++ i :: post →
        (∀ j ∈ pre, publicMethod rt name ps fuel j = some none) →
        publicMethod rt name ps fuel i = some (some m) →
        publicMethod rt name ps (fuel + 1) c = some (some m)) ∧
      ((∀ j ∈ (rt.heap c).ifTable, publicMethod rt name ps fuel j = some none) →
        publicMethod rt name ps (fuel + 1) c = some none)) := by
  refine ⟨?_, ?_⟩
  · intro hno
    have hsuper := superClassFieldLoop_none rt name len c (fuel + 1) hfuel hend hno
    have hstep : getPublicFieldRecursive rt name (fuel + 1) c =
        ifTableFieldLoop (getPublicFieldRecursive rt name fuel) (rt.heap c).ifTable := by
      rw [getPublicFieldRecursive, hsuper]
    refine ⟨?_, ?_⟩
    · intro pre i post f hsplit hpre hi
      obtain ⟨_, _, _, hpub⟩ := getPublicFieldRecursive_sound rt name fuel i f hi
      rw [hstep, hsplit, ifTableFieldLoop_append _ pre (i :: post) hpre]
      simp only [ifTableFieldLoop, hi, isPublicField, hpub, if_true]
    · intro hall
      have := ifTableFieldLoop_append (getPublicFieldRecursive rt name fuel)
        (rt.heap c).ifTable [] hall
      rw [List.append_nil] at this
      rw [hstep, this]
      rfl
  · intro hno
    obtain ⟨t1, hsuper⟩ := superClassMethodLoop_none rt name ps len c (fuel + 1) ⟨none⟩ hfuel
      hend hno
    have hstep : getPublicMethodRecursive rt name ps (fuel + 1) c ⟨none⟩ =
        ifTableMethodLoop (getPublicMethodRecursive rt name ps fuel) (rt.heap c).ifTable t1 := by
      rw [getPublicMethodRecursive, hsuper]
    refine ⟨?_, ?_⟩
    · intro pre i post m hsplit hpre hi
      obtain ⟨t2, h2⟩ := ifTableMethodLoop_append (getPublicMethodRecursive rt name ps fuel)
        pre (i :: post) (fun j hj s => eq_of_publicMethod rt name ps fuel j none (hpre j hj) s) t1
      obtain ⟨t3, h3⟩ := eq_of_publicMethod rt name ps fuel i (some m) hi t2
      obtain ⟨_, _, hpub⟩ := getPublicMethodRecursive_sound rt name ps fuel i t2 m t3 h3
      unfold publicMethod
      rw [hstep, hsplit, h2]
      simp only [ifTableMethodLoop, h3, isPublicMethod, hpub, if_true, Option.map_some']
    · intro hall
      obtain ⟨t2, h2⟩ := ifTableMethodLoop_append (getPublicMethodRecursive rt name ps fuel)
        (rt.heap c).ifTable []
        (fun j hj s => eq_of_publicMethod rt name ps fuel j none (hall j hj) s) t1
      rw [List.append_nil] at h2
      unfold publicMethod
      rw [hstep, h2]
      rfl

/-- C16, at `threeInterfacesRuntime`: the members of interface 2 are returned,
interface 1 declaring nothing and interface 3 coming later.  At
`ancestorInterfaceRuntime` the search on class 0 returns `nullptr` although the
interface of its superclass declares a public `x`, which the search on class 1
finds. -/
theorem C16_first_interface_match_witness :
    getPublicFieldRecursive threeInterfacesRuntime "x" 2 0 = some (some fieldPublicB) ∧
    publicMethod threeInterfacesRuntime "m" [] 2 0 = some (some interfaceMethod) ∧
    getPublicFieldRecursive ancestorInterfaceRuntime "x" 3 0 = some none ∧
    getPublicFieldRecursive ancestorInterfaceRuntime "x" 3 1 = some (some fieldPublicB) :=
  ⟨((C16_first_interface_match threeInterfacesRuntime 0 "x" [] 1 1 (by decide)
        (by decide)).1
        (fun j k h => by
          rw [nthSuperClass_of_root threeInterfacesRuntime 0 (by decide) j k h]
          decide)).1 [1] 2 [3] fieldPublicB (by decide) (by decide) (by decide),
   ((C16_first_interface_match threeInterfacesRuntime 0 "m" [] 1 1 (by decide)
        (by decide)).2
        (fun j k h => by
          rw [nthSuperClass_of_root threeInterfacesRuntime 0 (by decide) j k h]
          decide)).1 [1] 2 [3] interfaceMethod (by decide) (by decide) (by decide),
   by decide, by decide⟩

/-! ## C17 -/

/-- C17: on a class graph whose superclass relation is well-founded (every
superclass chain is finite) and whose interface-table relation is
well-founded (acyclic), `getPublicMethodRecursive` and
`getPublicFieldRecursive` return for every start class, name, parameter list
and thread: there is a result (a member or `nullptr`, for the method search
together with the final thread) that the search yields for every sufficiently
large fuel. -/
theorem C17_recursive_search_terminates (rt : Runtime)
    (hsuper : WellFounded (isSuperClassOf rt)) (hiface : WellFounded (isInterfaceOf rt))
    (c : ClassPtr) (name : String) (ps : List (Option ClassPtr)) (t : Thread) :
    (∃ n x, ∀ fuel, n ≤ fuel → getPublicMethodRecursive rt name ps fuel c t = some x) ∧
    (∃ n r, ∀ fuel, n ≤ fuel → getPublicFieldRecursive rt name fuel c = some r) := by
  refine ⟨?_, ?_⟩
  · obtain ⟨n, hn⟩ := getPublicMethodRecursive_terminates rt name ps hsuper hiface c
    obtain ⟨x, hx⟩ := hn n (le_refl n) t
    exact ⟨n, x, fun fuel hf => getPublicMethodRecursive_mono_le rt name ps n fuel hf c t x hx⟩
  · obtain ⟨n, hn⟩ := getPublicFieldRecursive_terminates rt name hsuper hiface c
    obtain ⟨r, hr⟩ := hn n (le_refl n)
    exact ⟨n, r, fun fuel hf => getPublicFieldRecursive_mono_le rt name n fuel hf c r hr⟩

/-- C17, at `hiddenFieldRuntime`, whose classes 0, 1, 2 form a superclass
chain. -/
theorem C17_recursive_search_terminates_witness :
    (∃ n x, ∀ fuel, n ≤ fuel →
      getPublicMethodRecursive hiddenFieldRuntime "x" [] fuel 0 noException = some x) ∧
    (∃ n r, ∀ fuel, n ≤ fuel → getPublicFieldRecursive hiddenFieldRuntime "x" fuel 0 = some r) :=
  C17_recursive_search_terminates hiddenFieldRuntime hiddenFieldRuntime_super_wf
    hiddenFieldRuntime_iface_wf 0 "x" [] noException

/-! ## C18 -/

/-- C18: whatever method `m` the declared search, the public recursive search
or `Class_getMethodNative` returns, `m` has the queried name,
`equalMethodParameters` holds of `m` and the query list, and `m` is in the
virtual or direct method array of the start class (declared mode) or of a class
reachable from the start class through superclass links and interface-table
entries (recursive mode).  Whatever field `f` the declared look-up, the public
recursive look-up or `getDeclaredOrRecursiveField` returns, `f` has the queried
name and is in the instance or static field array of the start class, or of a
class reachable from it in recursive mode. -/
theorem C18_result_matches_query (rt : Runtime) (c : ClassPtr) (name : String)
    (ps : List (Option ClassPtr)) (t : Thread) :
    (∀ m, (getDeclaredMethodInternal rt c name ps t).1 = some m →
      m.name = name ∧ (equalMethodParameters rt m ps t).1 = true ∧
      (m ∈ (rt.heap c).virtualMethods ∨ m ∈ (rt.heap c).directMethods)) ∧
    (∀ fuel m t1, getPublicMethodRecursive rt name ps fuel c t = some (some m, t1) →
      m.name = name ∧ (equalMethodParameters rt m ps t).1 = true ∧
      ∃ k, Reachable rt c k ∧ (m ∈ (rt.heap k).virtualMethods ∨ m ∈ (rt.heap k).directMethods)) ∧
    (∀ fuel recursive m t1,
      Class_getMethodNative rt fuel c (some name) ps recursive t = some (some m, t1) →
      m.name = name ∧ (equalMethodParameters rt m ps t).1 = true ∧
      ∃ k, (if recursive then Reachable rt c k else k = c) ∧
        (m ∈ (rt.heap k).virtualMethods ∨ m ∈ (rt.heap k).directMethods)) ∧
    (∀ f, getDeclaredFieldInternal rt c name = some f →
      f.name = name ∧ f ∈ (rt.heap c).instanceFields ++ (rt.heap c).staticFields) ∧
    (∀ fuel f, getPublicFieldRecursive rt name fuel c = some (some f) →
      f.name = name ∧
      ∃ k, Reachable rt c k ∧ f ∈ (rt.heap k).instanceFields ++ (rt.heap k).staticFields) ∧
    (∀ fuel recursive f t1,
      getDeclaredOrRecursiveField rt fuel c name recursive t = some (some f, t1) →
      f.name = name ∧
      ∃ k, (if recursive then Reachable rt c k else k = c) ∧
        f ∈ (rt.heap k).instanceFields ++ (rt.heap k).staticFields) := by
  have hm : ∀ k s m, (getDeclaredMethodInternal rt k name ps s).1 = some m →
      m.name = name ∧ (equalMethodParameters rt m ps t).1 = true ∧
      (m ∈ (rt.heap k).virtualMethods ∨ m ∈ (rt.heap k).directMethods) := by
    intro k s m h
    have key : matchesQuery rt name ps m = true ∧
        (m ∈ (rt.heap k).virtualMethods ∨ m ∈ (rt.heap k).directMethods) := by
      rcases declaredMethod_sound rt k name ps s m h with h1 | h1
      · exact ⟨h1.2.1, Or.inl h1.1⟩
      · exact ⟨h1.2.1, Or.inr h1.1⟩
    obtain ⟨hq, hmem⟩ := key
    simp only [matchesQuery, Bool.and_eq_true, beq_iff_eq] at hq
    exact ⟨hq.1.symm, by rw [equalMethodParameters_fst]; exact hq.2, hmem⟩
  have hmr : ∀ fuel m t1, getPublicMethodRecursive rt name ps fuel c t = some (some m, t1) →
      m.name = name ∧ (equalMethodParameters rt m ps t).1 = true ∧
      ∃ k, Reachable rt c k ∧
        (m ∈ (rt.heap k).virtualMethods ∨ m ∈ (rt.heap k).directMethods) := by
    intro fuel m t1 h
    obtain ⟨k, hk, hd, _⟩ := getPublicMethodRecursive_reachable rt name ps fuel c t m t1 h
    obtain ⟨h1, h2, h3⟩ := hm k ⟨none⟩ m hd
    exact ⟨h1, h2, k, hk, h3⟩
  have hfr : ∀ fuel f, getPublicFieldRecursive rt name fuel c = some (some f) →
      f.name = name ∧
      ∃ k, Reachable rt c k ∧ f ∈ (rt.heap k).instanceFields ++ (rt.heap k).staticFields := by
    intro fuel f h
    obtain ⟨k, hk, hd, _⟩ := getPublicFieldRecursive_sound rt name fuel c f h
    obtain ⟨h1, h2⟩ := getDeclaredFieldInternal_sound rt k name f hd
    exact ⟨h1, k, hk, h2⟩
  refine ⟨hm c t, hmr, ?_, getDeclaredFieldInternal_sound rt c name, hfr, ?_⟩
  · intro fuel recursive m t1 h
    obtain ⟨t0, h0⟩ := Class_getMethodNative_sound rt fuel c name ps recursive t m t1 h
    cases recursive with
    | true =>
      obtain ⟨h1, h2, k, hk, h3⟩ := hmr fuel m t0 (by simpa using h0)
      exact ⟨h1, h2, k, by simpa using hk, h3⟩
    | false =>
      simp only [Bool.false_eq_true, if_false, Option.some.injEq] at h0
      obtain ⟨h1, h2, h3⟩ := hm c t m (by rw [h0])
      exact ⟨h1, h2, c, by simp, h3⟩
  · intro fuel recursive f t1 h
    have h0 := getDeclaredOrRecursiveField_sound rt fuel c name recursive t f t1 h
    cases recursive with
    | true =>
      obtain ⟨h1, k, hk, h2⟩ := hfr fuel f (by simpa using h0)
      exact ⟨h1, k, by simpa using hk, h2⟩
    | false =>
      simp only [Bool.false_eq_true, if_false, Option.some.injEq] at h0
      obtain ⟨h1, h2⟩ := getDeclaredFieldInternal_sound rt c name f h0
      exact ⟨h1, c, by simp, h2⟩

/-- C18, at `defaultMethodRuntime` and `interfaceFieldRuntime`: the inherited
method `m()` of class 1 and the field `x` of interface 1. -/
theorem C18_result_matches_query_witness :
    (superMethod.name = "m" ∧
      (equalMethodParameters defaultMethodRuntime superMethod [] noException).1 = true ∧
      ∃ k, (if true then Reachable defaultMethodRuntime 0 k else k = 0) ∧
        (superMethod ∈ (defaultMethodRuntime.heap k).virtualMethods ∨
          superMethod ∈ (defaultMethodRuntime.heap k).directMethods)) ∧
    (fieldPublicA.name = "x" ∧
      ∃ k, (if true then Reachable interfaceFieldRuntime 0 k else k = 0) ∧
        fieldPublicA ∈ (interfaceFieldRuntime.heap k).instanceFields ++
          (interfaceFieldRuntime.heap k).staticFields) :=
  ⟨(C18_result_matches_query defaultMethodRuntime 0 "m" [] noException).2.2.1 2 true
      superMethod noException (by decide),
   (C18_result_matches_query interfaceFieldRuntime 0 "x" [] noException).2.2.2.2.2 2 true
      fieldPublicA noException (by decide)⟩

/-! ## C19 -/

/-- C19, as stated, fails: class 0 of `threeFieldsRuntime` has no superclass
and no interface, declares a non-public instance field `x` and a public static
field `x`; it also declares a public instance field `x` ahead of the
non-public one, and the search returns that field. -/
theorem C19_public_instance_field_found :
    ((threeFieldsRuntime.heap 0).superClass = none ∧
      (threeFieldsRuntime.heap 0).ifTable = [] ∧
      (fieldInstance ∈ (threeFieldsRuntime.heap 0).instanceFields ∧
        fieldInstance.name = "x" ∧ fieldInstance.isPublic = false) ∧
      (fieldStatic ∈ (threeFieldsRuntime.heap 0).staticFields ∧
        fieldStatic.name = "x" ∧ fieldStatic.isPublic = true)) ∧
    (threeFieldsRuntime.heap 0).instanceFields = [fieldPublicInstance, fieldInstance] ∧
    getPublicFieldRecursive threeFieldsRuntime "x" 1 0 = some (some fieldPublicInstance) := by
  decide

/-- C19 (amended): for a class `c` without superclass and with an empty
interface table,
(1) if the first instance field named `name` is non-public, then
`getPublicFieldRecursive` returns `nullptr`, whatever public fields named
`name` the class declares elsewhere;
(2) if the first virtual method that matches the query and is neither miranda
nor synthetic is non-public, then `getPublicMethodRecursive` returns `nullptr`,
whatever public direct methods match;
more generally the search returns `nullptr` whenever the member selected by
the per-class look-up is non-public. -/
theorem C19_filter_applies_to_selected_member (rt : Runtime) (c : ClassPtr) (name : String)
    (ps : List (Option ClassPtr)) (fuel : Nat) (hroot : (rt.heap c).superClass = none)
    (hif : (rt.heap c).ifTable = []) :
    (∀ pre f post, (rt.heap c).instanceFields = pre ++ f :: post → f.name = name →
      (∀ g ∈ pre, g.name ≠ name) → f.isPublic = false →
      getPublicFieldRecursive rt name (fuel + 1) c = some none) ∧
    (∀ pre m post, (rt.heap c).virtualMethods = pre ++ m :: post →
      genuineVirtual rt name ps m = true → (∀ x ∈ pre, genuineVirtual rt name ps x = false) →
      m.isPublic = false →
      publicMethod rt name ps (fuel + 1) c = some none) ∧
    (isPublicField (getDeclaredFieldInternal rt c name) = false →
      getPublicFieldRecursive rt name (fuel + 1) c = some none) ∧
    (isPublicMethod (declaredMethod rt c name ps) = false →
      publicMethod rt name ps (fuel + 1) c = some none) := by
  have hf : isPublicField (getDeclaredFieldInternal rt c name) = false →
      getPublicFieldRecursive rt name (fuel + 1) c = some none := by
    intro h
    have hs : superClassFieldLoop rt name (fuel + 1) (some c) = some none := by
      simp only [superClassFieldLoop, h, Bool.false_eq_true, if_false, hroot]
    rw [getPublicFieldRecursive, hs]
    simp only [hif]
    rfl
  have hmeth : isPublicMethod (declaredMethod rt c name ps) = false →
      publicMethod rt name ps (fuel + 1) c = some none := by
    intro h
    have hs : ∃ t1, superClassMethodLoop rt name ps (fuel + 1) (some c) ⟨none⟩ =
        some (none, t1) := by
      simp only [superClassMethodLoop, getDeclaredMethodInternal_fst, h, Bool.false_eq_true,
        if_false, hroot]
      exact ⟨_, by cases fuel <;> rfl⟩
    obtain ⟨t1, hs1⟩ := hs
    unfold publicMethod
    rw [getPublicMethodRecursive, hs1]
    simp only [hif]
    rfl
  refine ⟨?_, ?_, hf, hmeth⟩
  · intro pre f post hsplit hname hpre hpub
    apply hf
    have hsel : getDeclaredFieldInternal rt c name = some f := by
      rw [getDeclaredFieldInternal_eq_find?]
      apply find?_of_first _ _ pre f (post ++ (rt.heap c).staticFields)
      · rw [hsplit]; simp
      · simpa using hname
      · intro g hg; simpa using hpre g hg
    rw [hsel]
    exact hpub
  · intro pre m post hsplit hm hpre hpub
    apply hmeth
    have hsel : declaredMethod rt c name ps = some m := by
      unfold declaredMethod
      rw [getDeclaredMethodInternal_fst_eq, find?_of_first _ _ pre m post hsplit hm hpre]
    rw [hsel]
    exact hpub

/-- C19 (amended), at `twoFieldsRuntime` and `hiddenVirtualClass`: the
non-public instance field `x` hides the public static field `x`, the non-public
virtual `m()` hides the public direct `m()`. -/
theorem C19_filter_applies_to_selected_member_witness :
    (getPublicFieldRecursive twoFieldsRuntime "x" 1 0 = some none ∧
      fieldStatic ∈ (twoFieldsRuntime.heap 0).staticFields ∧ fieldStatic.isPublic = true) ∧
    (publicMethod (uniformRuntime hiddenVirtualClass) "m" [] 1 0 = some none ∧
      plainMethod ∈ ((uniformRuntime hiddenVirtualClass).heap 0).directMethods ∧
      matchesQuery (uniformRuntime hiddenVirtualClass) "m" [] plainMethod = true ∧
      plainMethod.isPublic = true) :=
  ⟨⟨(C19_filter_applies_to_selected_member twoFieldsRuntime 0 "x" [] 0 (by decide)
        (by decide)).1 [fieldOther] fieldInstance [] (by decide) (by decide) (by decide)
        (by decide),
    by decide, by decide⟩,
   ⟨(C19_filter_applies_to_selected_member (uniformRuntime hiddenVirtualClass) 0 "m" [] 0
        (by decide) (by decide)).2.1 [] hiddenMethod [] (by decide) (by decide) (by decide)
        (by decide),
    by decide, by decide, by decide⟩⟩

/-! ## C20 -/

/-- C20: if the declared search on `c` returns a public member, the public
recursive search on `c` returns the same member for every positive fuel,
whatever the superclass and the interface table of `c` are: for methods
(`getDeclaredMethodInternal` and `getPublicMethodRecursive`, which also end
with the same thread), for fields (`getDeclaredFieldInternal` and
`getPublicFieldRecursive`), and for the two modes of `Class_getMethodNative`
and of `getDeclaredOrRecursiveField`. -/
theorem C20_modes_agree_on_own_public_member (rt : Runtime) (c : ClassPtr) (name : String)
    (ps : List (Option ClassPtr)) (t : Thread) (fuel : Nat) :
    (∀ m, (getDeclaredMethodInternal rt c name ps t).1 = some m → m.isPublic = true →
      getPublicMethodRecursive rt name ps (fuel + 1) c t =
        some (some m, (getDeclaredMethodInternal rt c name ps t).2)) ∧
    (∀ f, getDeclaredFieldInternal rt c name = some f → f.isPublic = true →
      getPublicFieldRecursive rt name (fuel + 1) c = some (some f)) ∧
    (∀ fuel0 m t1, Class_getMethodNative rt fuel0 c (some name) ps false t = some (some m, t1) →
      m.isPublic = true →
      Class_getMethodNative rt (fuel + 1) c (some name) ps true t = some (some m, t1)) ∧
    (∀ fuel0 f t1, getDeclaredOrRecursiveField rt fuel0 c name false t = some (some f, t1) →
      f.isPublic = true →
      getDeclaredOrRecursiveField rt (fuel + 1) c name true t = some (some f, t1)) := by
  have hm : ∀ m, (getDeclaredMethodInternal rt c name ps t).1 = some m → m.isPublic = true →
      getPublicMethodRecursive rt name ps (fuel + 1) c t =
        some (getDeclaredMethodInternal rt c name ps t) := by
    intro m hd hp
    exact getPublicMethodRecursive_of_declared rt c name ps t fuel (by rw [hd]; exact hp)
  have hf : ∀ f, getDeclaredFieldInternal rt c name = some f → f.isPublic = true →
      getPublicFieldRecursive rt name (fuel + 1) c = some (some f) := by
    intro f hd hp
    apply getPublicFieldRecursive_of_super
    rw [superClassFieldLoop_hit rt name fuel c (by rw [hd]; exact hp), hd]
  refine ⟨?_, hf, ?_, ?_⟩
  · intro m hd hp
    rw [hm m hd hp, ← hd]
  · intro fuel0 m t1 h hp
    obtain ⟨t0, h0⟩ := Class_getMethodNative_sound rt fuel0 c name ps false t m t1 h
    simp only [Bool.false_eq_true, if_false, Option.some.injEq] at h0
    have hrec := hm m (by rw [h0]) hp
    rw [← h]
    unfold Class_getMethodNative
    simp only [hrec, if_true, Bool.false_eq_true, if_false]
  · intro fuel0 f t1 h hp
    have h0 := getDeclaredOrRecursiveField_sound rt fuel0 c name false t f t1 h
    simp only [Bool.false_eq_true, if_false, Option.some.injEq] at h0
    have hrec := hf f h0 hp
    rw [← h]
    unfold getDeclaredOrRecursiveField
    simp only [hrec, h0, if_true, Bool.false_eq_true, if_false]

/-- C20, at `threeInterfacesRuntime`: interface 2 declares a public `m()` and a
public `x`; both modes return them. -/
theorem C20_modes_agree_on_own_public_member_witness :
    Class_getMethodNative threeInterfacesRuntime 1 2 (some "m") [] true noException =
      some (some interfaceMethod, noException) ∧
    getDeclaredOrRecursiveField threeInterfacesRuntime 1 2 "x" true noException =
      some (some fieldPublicB, noException) :=
  ⟨(C20_modes_agree_on_own_public_member threeInterfacesRuntime 2 "m" [] noException 0).2.2.1
      0 interfaceMethod noException (by decide) (by decide),
   (C20_modes_agree_on_own_public_member threeInterfacesRuntime 2 "x" [] noException 0).2.2.2
      0 fieldPublicB noException (by decide) (by decide)⟩

end Art
